import Mathlib

/-!
Verification of the core encode/decode engine of the parquet-rs repository
(`src/encodings/encoding.rs`, `src/encodings/decoding.rs`,
`src/encodings/levels.rs`, `src/file/reader.rs`) against its
natural-language specification.

The Rust code is shallowly embedded: machine integers (`i32`, `i64`, `u32`,
`u64`, `usize`) become `Int`/`Nat` with explicit wrapping (`wrapS`, `toU`),
byte buffers become `List Nat` (each entry a byte value), bit streams become
`List Bool` (LSB-first within each byte), stateful codecs become explicit
state records with step functions, Rust `Result` becomes `Except PErr`, and
Rust panics become the `Outcome.abort` constructor.

The `BitReader`/`BitWriter` bit-I/O primitives, the RLE hybrid codec, the
`log2`/`num_required_bits`/`hash` utilities and the error macros live in
modules of this repository that are not under `src/` (`util/bit_util.rs`,
`util/memory.rs`, `util/hash_util.rs`, `encodings/rle_encoding.rs`,
`errors.rs`); they are modelled from the specification (§4.1, §4.2, §7),
as marked on each definition.  Everything else is translated from the
source files directly.
-/

namespace ParquetCore

/-- Error taxonomy. Modelled from the spec: `errors.rs` is not under `src/`;
the spec (§7) lists the kinds EndOfInput (`eof_err!`), General
(`general_err!`) and the not-yet-implemented kind used by `nyi_err!`. -/
inductive PErr where
  | eof (msg : String)
  | general (msg : String)
  | nyi (msg : String)
deriving DecidableEq

/-- Result of a Rust call that can either return normally or abort the
process with a panic message (`panic!` / failed `assert!`). -/
inductive Outcome (α : Type) where
  | ok (val : α)
  | abort (msg : String)
deriving DecidableEq

/-- The eight Parquet physical types (`basic::Type` / `DataType` impls). -/
inductive PhysicalType where
  | BOOLEAN | INT32 | INT64 | INT96 | FLOAT | DOUBLE | BYTE_ARRAY
  | FIXED_LEN_BYTE_ARRAY
deriving DecidableEq

/-- The Parquet encodings (`basic::Encoding`). -/
inductive EncodingE where
  | PLAIN | PLAIN_DICTIONARY | RLE_DICTIONARY | RLE | BIT_PACKED
  | DELTA_BINARY_PACKED | DELTA_LENGTH_BYTE_ARRAY | DELTA_BYTE_ARRAY
deriving DecidableEq

/-! ## Machine integer arithmetic

A `w`-bit machine integer value is represented by the mathematical integer
it denotes under two's complement; `M` below is the modulus `2^w`.  `wrapS`
reduces into the signed range `[-M/2, M/2)` (the result of Rust's
`wrapping_add`/`wrapping_sub`/`as iN` narrowing), `toU` gives the unsigned
bit-pattern value in `[0, M)` (the result of `as uN`). -/

/-- Signed wrap-around into `[-M/2, M/2)` (two's complement, modulus `M`). -/
def wrapS (M : Nat) (z : Int) : Int := (z + (M : Int) / 2) % (M : Int) - (M : Int) / 2

/-- Unsigned bit pattern of `z` at modulus `M`: the representative in `[0, M)`. -/
def toU (M : Nat) (z : Int) : Nat := (z % (M : Int)).toNat

/-- Little-endian byte list (length `k`) of a natural number (low bytes first). -/
def natToLEBytes : Nat → Nat → List Nat
  | 0, _ => []
  | k + 1, v => v % 256 :: natToLEBytes k (v / 256)

/-- Natural number denoted by a little-endian byte list. -/
def leBytesToNat : List Nat → Nat
  | [] => 0
  | b :: bs => b + 256 * leBytesToNat bs

/-! ## PLAIN encoding / decoding for INT32
(`PlainEncoder`'s default `put` at `encoding.rs:96-105` writes the raw
little-endian memory bytes of the value slice; `flush_buffer` at
`encoding.rs:111-122` returns the accumulated bytes, the bool bit-writer
being empty for INT32.) -/

/-- Bytes produced by `PlainEncoder::<Int32Type>::put(xs)` followed by
`flush_buffer()`: each `i32` contributes its 4 little-endian bytes. -/
def plainEncodeInt32 (xs : List Int) : List Nat :=
  xs.flatMap (fun z => natToLEBytes 4 (toU (2 ^ 32) z))

/-- State of `PlainDecoder<T>` for a fixed-width type (`decoding.rs:81-108`):
remaining value count, read position, and the byte buffer. -/
structure PlainDecState where
  numValues : Nat
  start : Nat
  data : List Nat
deriving DecidableEq

/-- `PlainDecoder::set_data` (`decoding.rs:112-117`). -/
def plainDecoderSetData (data : List Nat) (numValues : Nat) : PlainDecState :=
  { numValues := numValues, start := 0, data := data }

/-- The `i32` read from 4 little-endian bytes at offset `start` of `data`. -/
def decodeLEInt32At (data : List Nat) (start : Nat) : Int :=
  wrapS (2 ^ 32) (leBytesToNat ((data.drop start).take 4))

/-- `PlainDecoder::<Int32Type>::get` (default impl, `decoding.rs:129-148`):
`num_values = min(buffer.len(), self.num_values)`; if fewer than
`4 * num_values` bytes remain the call fails with `eof_err!` before any
state change; otherwise the values are copied out, `start` advances and
`num_values` decreases. -/
def plainDecoderGetInt32 (st : PlainDecState) (bufLen : Nat) :
    Except PErr (List Int) × PlainDecState :=
  let n := min bufLen st.numValues
  let bytesToDecode := 4 * n
  if st.data.length - st.start < bytesToDecode then
    (.error (.eof "Not enough bytes to decode"), st)
  else
    (.ok ((List.range n).map (fun i => decodeLEInt32At st.data (st.start + 4 * i))),
      { st with start := st.start + bytesToDecode, numValues := st.numValues - n })

/-! ## Level decoder `set_data_range` (`levels.rs:199-210`) -/

/-- The two encodings `LevelDecoder` supports. -/
inductive LevelEnc where
  | RLE | BIT_PACKED
deriving DecidableEq

/-- State of `LevelDecoder` relevant to `set_data_range`: the tracked value
count and, for RLE, the byte range handed to the inner `RleDecoder`. -/
structure LevelDecState where
  numValues : Option Nat
  rleData : Option (List Nat)
deriving DecidableEq

/-- `LevelDecoder::new` leaves `num_values = None` and no data set
(`levels.rs:158-166`). -/
def levelDecoderNew : LevelDecState := { numValues := none, rleData := none }

/-- `LevelDecoder::set_data_range` (`levels.rs:200-210`): for the RLE variant
it hands `data[start..start+len]` to the inner RLE decoder, records
`num_buffered_values` and returns `len`; for any other variant (BIT_PACKED)
it panics.  The Rust signature returns a bare `usize`: there is no error
channel at all. -/
def levelSetDataRange (enc : LevelEnc) (st : LevelDecState) (numBufferedValues : Nat)
    (data : List Nat) (start len : Nat) : Outcome (Nat × LevelDecState) :=
  match enc with
  | .RLE =>
      .ok (len, { st with numValues := some numBufferedValues,
                          rleData := some ((data.drop start).take len) })
  | .BIT_PACKED =>
      .abort "set_data_range() method is only supported by RLE encoding type"

/-! ## DELTA_BINARY_PACKED construction-time behaviour (`encoding.rs:383-404`,
`encoding.rs:570-584`, `decoding.rs:57-75`, `decoding.rs:463-468`) -/

/-- `DeltaBitPackEncoderConversion::assert_supported_type`, called from
`DeltaBitPackEncoder::new` (`encoding.rs:389`): the default impl
(`encoding.rs:570-574`) panics; the `Int32Type`/`Int64Type` impls are no-ops
(`encoding.rs:586-589`, `encoding.rs:611-615`). -/
def deltaBitPackEncoderNew (t : PhysicalType) : Outcome Unit :=
  match t with
  | .INT32 => .ok ()
  | .INT64 => .ok ()
  | _ => .abort "DeltaBitPackDecoder only supports Int32Type and Int64Type"

/-- `get_decoder::<T>(descr, encoding)` (`decoding.rs:57-75`), abstracted to
whether construction succeeds: every listed non-dictionary encoding is
constructed unconditionally (no physical-type check happens here);
dictionary encodings are rejected with `general_err!` and the rest with
`nyi_err!`. -/
def getDecoderConstruct (_t : PhysicalType) (e : EncodingE) : Except PErr Unit :=
  match e with
  | .PLAIN => .ok ()
  | .DELTA_BINARY_PACKED => .ok ()
  | .DELTA_LENGTH_BYTE_ARRAY => .ok ()
  | .DELTA_BYTE_ARRAY => .ok ()
  | .RLE_DICTIONARY => .error (.general "Cannot initialize this encoding through this function")
  | .PLAIN_DICTIONARY => .error (.general "Cannot initialize this encoding through this function")
  | _ => .error (.nyi "Encoding is not supported.")

/-- `DeltaBitPackDecoderConversion::set_decoded_value` per physical type:
the `Int32Type` impl truncates the `i64` to `i32` (`decoding.rs:470-478`),
the `Int64Type` impl stores it unchanged (`decoding.rs:480-488`), and the
default impl returns `general_err!` (`decoding.rs:463-468`). -/
def setDecodedValue (t : PhysicalType) (value : Int) : Except PErr Int :=
  match t with
  | .INT32 => .ok (wrapS (2 ^ 32) value)
  | .INT64 => .ok value
  | _ => .error (.general "DeltaBitPackDecoder only supports Int32Type and Int64Type")

/-! ## Bit streams

Modelled from the spec (§4.1): `BitWriter`/`BitReader` provide LSB-first
packed writes/reads at arbitrary widths, byte-aligned writes/reads, VLQ
(base-128 varint) and zigzag VLQ integers, over a growable byte buffer.
A byte stream is represented as its bit sequence (`List Bool`), LSB-first
within each byte; `bitsToBytes`/`bytesToBits` convert at the buffer
boundary. -/

/-- The `w` low bits of `v`, LSB first. -/
def natToBits : Nat → Nat → List Bool
  | 0, _ => []
  | w + 1, v => (v % 2 == 1) :: natToBits w (v / 2)

/-- Natural number denoted by an LSB-first bit list. -/
def bitsToNat : List Bool → Nat
  | [] => 0
  | b :: bs => (if b then 1 else 0) + 2 * bitsToNat bs

/-- Group an (assumed byte-aligned) bit list into bytes, LSB-first. -/
def bitsToBytes : List Bool → List Nat
  | [] => []
  | b :: bs => bitsToNat (List.take 8 (b :: bs)) :: bitsToBytes (List.drop 8 (b :: bs))
termination_by l => l.length
decreasing_by simp [List.length_drop]; omega

/-- Bit sequence of a byte list, LSB-first within each byte. -/
def bytesToBits (bytes : List Nat) : List Bool :=
  bytes.flatMap (natToBits 8)

/-- Round a bit position up to the next byte boundary (the effect of the
byte-alignment performed by `put_aligned` / `get_aligned`). -/
def alignUp (pos : Nat) : Nat := (pos + 7) / 8 * 8

/-- Zero-pad a bit list to a byte boundary (`BitWriter::flush`, and the
alignment step of `put_aligned`). -/
def padToByte (bits : List Bool) : List Bool :=
  bits ++ List.replicate (alignUp bits.length - bits.length) false

/-- Modelled from the spec: `BitWriter::put_value(v, n)` appends the low `n`
bits of `v`, LSB-first. -/
def putValue (bits : List Bool) (v w : Nat) : List Bool :=
  bits ++ natToBits w v

/-- Modelled from the spec: writing whole bytes with `put_aligned` first
byte-aligns the stream, then appends the bytes. -/
def putAlignedBytes (bits : List Bool) (bytes : List Nat) : List Bool :=
  padToByte bits ++ bytesToBits bytes

/-- Base-128 varint bytes of `v` (7 data bits per byte, MSB set on all but
the last byte). Modelled from the spec: `put_vlq_int`. -/
def vlqBytes (v : Nat) : List Nat :=
  if h : v < 128 then [v]
  else (128 + v % 128) :: vlqBytes (v / 128)
decreasing_by exact Nat.div_lt_self (by omega) (by omega)

/-- Zigzag encoding of a 64-bit signed integer:
`(v << 1) ^ (v >> 63)` as `u64`. Modelled from the spec:
`put_zigzag_vlq_int`. -/
def zigzagEncode (z : Int) : Nat :=
  if 0 ≤ z then (2 * z).toNat else (-2 * z - 1).toNat

/-- Zigzag decoding: `(v >> 1) ^ -(v & 1)` as `i64`. Modelled from the
spec: `get_zigzag_vlq_int`. -/
def zigzagDecode (n : Nat) : Int :=
  if n % 2 = 0 then (n / 2 : Nat) else -((n / 2 : Nat) : Int) - 1

/-- Modelled from the spec: `BitReader::get_value(w)` reads the next `w`
bits from the current bit position, returning an absence signal when the
input is exhausted. -/
def readBits (s : List Bool) (pos w : Nat) : Option (Nat × Nat) :=
  if pos + w ≤ s.length then some (bitsToNat ((s.drop pos).take w), pos + w)
  else none

/-- Modelled from the spec: `BitReader::get_aligned(n)` byte-aligns the
position then reads `n` bytes little-endian (equivalently, `8*n` bits
LSB-first). -/
def readAligned (s : List Bool) (pos n : Nat) : Option (Nat × Nat) :=
  readBits s (alignUp pos) (8 * n)

/-- One-byte-at-a-time VLQ read loop (aligned byte reads, 7 data bits per
byte accumulated from least significant upward, stops on clear MSB), with
fuel. Modelled from the spec: `get_vlq_int`. -/
def readVlqAux (s : List Bool) : Nat → Nat → Nat → Nat → Option (Nat × Nat)
  | 0, _, _, _ => none
  | fuel + 1, pos, shift, acc =>
      match readAligned s pos 1 with
      | none => none
      | some (byte, pos') =>
          let acc' := acc + byte % 128 * 2 ^ shift
          if byte < 128 then some (acc', pos')
          else readVlqAux s fuel pos' (shift + 7) acc'

/-- Modelled from the spec: `BitReader::get_vlq_int`. -/
def readVlq (s : List Bool) (pos : Nat) : Option (Nat × Nat) :=
  readVlqAux s (s.length + 1) pos 0 0

/-- Modelled from the spec: `BitReader::get_zigzag_vlq_int`. -/
def readZigzagVlq (s : List Bool) (pos : Nat) : Option (Int × Nat) :=
  (readVlq s pos).map (fun r => (zigzagDecode r.1, r.2))

/-! ## DELTA_BINARY_PACKED encoder (`encoding.rs:351-632`)

The encoder is generic over `Int32Type`/`Int64Type`; the two instantiations
differ only in the width at which `subtract`/`subtract_u64` wrap
(`encoding.rs:586-632`).  `M` below is the modulus of that width
(`2^32` or `2^64`).  `Int` values carried in the state are the `i64`
fields of the Rust struct. -/

/-- `DeltaBitPackEncoderConversion::subtract`: wrapping difference at
modulus `M`, sign-extended to `i64`. -/
def subtractK (M : Nat) (left right : Int) : Int := wrapS M (left - right)

/-- `DeltaBitPackEncoderConversion::subtract_u64`: wrapping difference at
modulus `M`, zero-extended to `u64`. -/
def subtractU (M : Nat) (left right : Int) : Nat := toU M (left - right)

/-- `num_required_bits(x)`: bits needed to store `x` (0 for 0). Modelled
from the spec (§4.5): `width = num_required_bits(max_delta - min_delta)`. -/
def numRequiredBits (x : Nat) : Nat := x.size

/-- `DEFAULT_BLOCK_SIZE` (`encoding.rs:353`). -/
def blockSizeC : Nat := 128

/-- `DEFAULT_NUM_MINI_BLOCKS` (`encoding.rs:354`). -/
def numMiniBlocksC : Nat := 4

/-- `mini_block_size = block_size / num_mini_blocks` (`encoding.rs:387`). -/
def miniBlockSizeC : Nat := blockSizeC / numMiniBlocksC

/-- State of `DeltaBitPackEncoder` (`encoding.rs:369-381`).  `deltas` holds
the `values_in_block` pending deltas of the current block (the Rust code
keeps a fixed 128-slot array of which only the first `values_in_block`
entries are live). -/
structure EncState where
  pageBits : List Bool
  bits : List Bool
  totalValues : Nat
  firstValue : Int
  currentValue : Int
  deltas : List Int
deriving DecidableEq

/-- `DeltaBitPackEncoder::new` (`encoding.rs:384-404`). -/
def encInit : EncState :=
  { pageBits := [], bits := [], totalValues := 0, firstValue := 0,
    currentValue := 0, deltas := [] }

/-- Minimum of a list of integers starting from `top` (the fold computing
`min_delta` from `i64::max_value()` at `encoding.rs:428-431`). -/
def listMinFrom (top : Int) : List Int → Int
  | [] => top
  | d :: ds => listMinFrom (min top d) ds

/-- Maximum of a list of integers starting from `bot` (the fold computing
`max_delta` from `i64::min_value()` at `encoding.rs:452-455`). -/
def listMaxFrom (bot : Int) : List Int → Int
  | [] => bot
  | d :: ds => listMaxFrom (max bot d) ds

/-- Split a list into chunks of exactly `k` elements plus a remainder of
fewer than `k` (the grouping induced by flushing a block each time
`values_in_block` reaches `block_size`). -/
def splitChunks (k : Nat) (l : List α) : List (List α) × List α :=
  if h : 0 < k ∧ k ≤ l.length then
    let r := splitChunks k (l.drop k)
    (l.take k :: r.1, r.2)
  else ([], l)
termination_by l.length
decreasing_by
  rcases h with ⟨hk, hkl⟩
  simp only [List.length_drop]
  omega

/-- All chunks including the final non-full one (dropped when empty). -/
def chunked (k : Nat) (l : List α) : List (List α) :=
  (splitChunks k l).1 ++
    (if (splitChunks k l).2.isEmpty then [] else [(splitChunks k l).2])

/-- The per-miniblock bit width chosen by `flush_block_values`
(`encoding.rs:452-459`) for a miniblock holding deltas `c`, given the
block-wide `min_delta`. -/
def miniBlockWidth (M : Nat) (minDelta : Int) (c : List Int) : Nat :=
  numRequiredBits (subtractU M (listMaxFrom (-(2 ^ 63)) c) minDelta)

/-- The packed bit payload of one miniblock (`encoding.rs:461-471`): each
delta normalized by `min_delta` at the miniblock's width, then zero-padded
to `mini_block_size` values at the same width. -/
def miniBlockBits (M : Nat) (minDelta : Int) (c : List Int) : List Bool :=
  let w := miniBlockWidth M minDelta c
  (c.map (fun d => subtractU M d minDelta) ++
    List.replicate (miniBlockSizeC - c.length) 0).flatMap (natToBits w)

/-- The width byte list for one block: widths of the non-empty miniblocks,
padded with zeros to `num_mini_blocks` bytes (the reserved region obtained
from `get_next_byte_ptr` is zero-filled, and miniblocks past the values of
a non-full block are skipped, `encoding.rs:438-449`). -/
def blockWidths (M : Nat) (minDelta : Int) (cs : List (List Int)) : List Nat :=
  cs.map (miniBlockWidth M minDelta) ++ List.replicate (numMiniBlocksC - cs.length) 0

/-- The byte-stream contribution of `flush_block_values` for a non-empty
block holding deltas `ds` (`encoding.rs:423-480`): zigzag-VLQ `min_delta`,
then `num_mini_blocks` width bytes (back-patched in place), then the packed
miniblocks. -/
def blockBits (M : Nat) (ds : List Int) : List Bool :=
  let m := listMinFrom (2 ^ 63 - 1) ds
  let cs := chunked miniBlockSizeC ds
  bytesToBits (vlqBytes (zigzagEncode m)) ++
    bytesToBits (blockWidths M m cs) ++
    (cs.flatMap (miniBlockBits M m))

/-- `DeltaBitPackEncoder::flush_block_values` (`encoding.rs:423-480`):
no-op when no values are pending, otherwise appends `blockBits` (writes are
byte-aligned on entry because every `blockBits` is a whole number of bytes;
`putAlignedBytes` performs the alignment of `put_zigzag_vlq_int` /
`get_next_byte_ptr` faithfully) and clears the pending deltas. -/
def flushBlockValues (M : Nat) (st : EncState) : EncState :=
  if st.deltas = [] then st
  else
    let m := listMinFrom (2 ^ 63 - 1) st.deltas
    let cs := chunked miniBlockSizeC st.deltas
    let bits := putAlignedBytes st.bits (vlqBytes (zigzagEncode m))
    let bits := putAlignedBytes bits (blockWidths M m cs)
    let bits := bits ++ (cs.flatMap (miniBlockBits M m))
    { st with bits := bits, deltas := [] }

/-- The per-value body of the `put` loop (`encoding.rs:504-513`): push the
wrapping delta to the block buffer, update `current_value`, and flush when
the block is full. -/
def putOne (M : Nat) (st : EncState) (v : Int) : EncState :=
  let st := { st with deltas := st.deltas ++ [subtractK M v st.currentValue],
                      currentValue := v }
  if st.deltas.length = blockSizeC then flushBlockValues M st else st

/-- `DeltaBitPackEncoder::put` (`encoding.rs:486-516`). -/
def encPut (M : Nat) (st : EncState) (values : List Int) : EncState :=
  match values with
  | [] => st
  | v :: vs =>
      if st.totalValues = 0 then
        let st := { st with firstValue := v, currentValue := v,
                            totalValues := st.totalValues + (v :: vs).length }
        vs.foldl (putOne M) st
      else
        let st := { st with totalValues := st.totalValues + (v :: vs).length }
        (v :: vs).foldl (putOne M) st

/-- `write_page_header` (`encoding.rs:408-420`): VLQ block size, VLQ
miniblock count, VLQ total value count, zigzag-VLQ first value. -/
def pageHeaderBits (st : EncState) : List Bool :=
  let b := putAlignedBytes st.pageBits (vlqBytes blockSizeC)
  let b := putAlignedBytes b (vlqBytes numMiniBlocksC)
  let b := putAlignedBytes b (vlqBytes st.totalValues)
  putAlignedBytes b (vlqBytes (zigzagEncode st.firstValue))

/-- `DeltaBitPackEncoder::flush_buffer` (`encoding.rs:522-551`): flush the
pending block, write the page header, and emit header bytes followed by
block bytes. -/
def encFlushBuffer (M : Nat) (st : EncState) : List Nat × EncState :=
  let st := flushBlockValues M st
  let headerBits := pageHeaderBits st
  let out := bitsToBytes (padToByte headerBits) ++ bitsToBytes (padToByte st.bits)
  (out, { encInit with pageBits := [], bits := [] })

/-- Whole-stream encoding: `put` all of `xs` into a fresh encoder, then
`flush_buffer` (the byte buffer the claim's round trip starts from). -/
def deltaEncode (M : Nat) (xs : List Int) : List Nat :=
  (encFlushBuffer M (encPut M encInit xs)).1

/-! ## DELTA_BINARY_PACKED decoder (`decoding.rs:310-488`) -/

/-- State of `DeltaBitPackDecoder` (`decoding.rs:310-331`) after
initialization: the bit-reader position into the fixed stream plus the
header and per-block tracking fields. -/
structure DecState where
  pos : Nat
  numValues : Nat
  numMiniBlocks : Nat
  valuesPerMiniBlock : Nat
  valuesCurrentMiniBlock : Nat
  firstValue : Int
  firstValueRead : Bool
  minDelta : Int
  miniBlockIdx : Nat
  deltaBitWidth : Nat
  deltaBitWidths : List Nat
  currentValue : Int
deriving DecidableEq

/-- `DeltaBitPackDecoder::set_data` (`decoding.rs:383-406`): reads the VLQ
header (`block_size`, `num_mini_blocks`, `num_values`, zigzag `first_value`)
and resets the decoding state.  The Rust `assert!(values_per_mini_block % 8
== 0)` is a panic; it is surfaced here as an `Outcome.abort`.  Division by
`num_mini_blocks = 0` likewise panics in Rust. -/
def decSetData (s : List Bool) : Except PErr (Outcome DecState) := do
  let some (bs, pos) := readVlq s 0
    | .error (.eof "Not enough data to decode 'block_size'")
  let some (nmb, pos) := readVlq s pos
    | .error (.eof "Not enough data to decode 'num_mini_blocks'")
  let some (nv, pos) := readVlq s pos
    | .error (.eof "Not enough data to decode 'num_values'")
  let some (fv, pos) := readZigzagVlq s pos
    | .error (.eof "Not enough data to decode 'first_value'")
  if nmb = 0 then
    .ok (.abort "attempt to divide by zero")
  else if bs / nmb % 8 ≠ 0 then
    .ok (.abort "assertion failed: values_per_mini_block % 8 == 0")
  else
    .ok (.ok { pos := pos, numValues := nv, numMiniBlocks := nmb,
               valuesPerMiniBlock := bs / nmb, valuesCurrentMiniBlock := 0,
               firstValue := fv, firstValueRead := false, minDelta := 0,
               miniBlockIdx := 0, deltaBitWidth := 0, deltaBitWidths := [],
               currentValue := 0 })

/-- Read `n` aligned bytes one at a time (the width-byte loop of
`init_block`, `decoding.rs:365-370`). -/
def readNBytes (s : List Bool) : Nat → Nat → Option (List Nat × Nat)
  | 0, pos => some ([], pos)
  | n + 1, pos =>
      match readAligned s pos 1 with
      | none => none
      | some (b, pos) =>
          match readNBytes s n pos with
          | none => none
          | some (bs, pos) => some (b :: bs, pos)

/-- `DeltaBitPackDecoder::init_block` (`decoding.rs:358-377`): zigzag-VLQ
`min_delta`, then `num_mini_blocks` aligned width bytes; resets the
miniblock cursor.  (`delta_bit_widths.data()[0]` panics when
`num_mini_blocks = 0`; unreachable here since `init_block` is only called
with `numMiniBlocks > 0` in scope of this development.) -/
def initBlock (s : List Bool) (st : DecState) : Except PErr DecState := do
  let some (m, pos) := readZigzagVlq s st.pos
    | .error (.eof "Not enough data to decode 'min_delta'")
  let some (widths, pos) := readNBytes s st.numMiniBlocks pos
    | .error (.eof "Not enough data to decode 'width'")
  .ok { st with pos := pos, minDelta := m, deltaBitWidths := widths,
                miniBlockIdx := 0, deltaBitWidth := widths.headD 0,
                valuesCurrentMiniBlock := st.valuesPerMiniBlock }

/-- One iteration of the `get` loop (`decoding.rs:412-440`) producing the
next value: emit `first_value` on the first iteration, otherwise advance
the miniblock cursor (possibly reading the next block header), read the
packed delta at the current width, and accumulate with `wrapping_add`.
`conv` is `set_decoded_value` for the instantiated physical type. -/
def decStep (conv : Int → Except PErr Int) (s : List Bool) (st : DecState) :
    Except PErr (Int × DecState) := do
  if ¬ st.firstValueRead then
    let out ← conv st.firstValue
    .ok (out, { st with currentValue := st.firstValue, firstValueRead := true })
  else
    let st ←
      if st.valuesCurrentMiniBlock = 0 then
        let idx := st.miniBlockIdx + 1
        if h : idx < st.deltaBitWidths.length then
          pure { st with miniBlockIdx := idx,
                         deltaBitWidth := st.deltaBitWidths.get ⟨idx, h⟩,
                         valuesCurrentMiniBlock := st.valuesPerMiniBlock }
        else
          initBlock s { st with miniBlockIdx := idx }
      else
        pure st
    let some (delta, pos) := readBits s st.pos st.deltaBitWidth
      | .error (.eof "Not enough data to decode 'delta'")
    let cur := wrapS (2 ^ 64) (st.currentValue + st.minDelta)
    let cur := wrapS (2 ^ 64) (cur + (delta : Int))
    let out ← conv cur
    .ok (out, { st with pos := pos, currentValue := cur,
                        valuesCurrentMiniBlock := st.valuesCurrentMiniBlock - 1 })

/-- The `get` loop over `count` values (`decoding.rs:408-444`), returning
the decoded values in order together with the final state. -/
def decGetLoop (conv : Int → Except PErr Int) (s : List Bool) :
    Nat → DecState → Except PErr (List Int × DecState)
  | 0, st => .ok ([], st)
  | count + 1, st => do
      let (v, st) ← decStep conv s st
      let (vs, st) ← decGetLoop conv s count st
      .ok (v :: vs, st)

/-- `DeltaBitPackDecoder::get` (`decoding.rs:408-444`): decodes
`min(bufLen, num_values)` values and subtracts that from `num_values`. -/
def decGet (conv : Int → Except PErr Int) (s : List Bool) (st : DecState)
    (bufLen : Nat) : Except PErr (List Int × DecState) := do
  let n := min bufLen st.numValues
  let (vs, st) ← decGetLoop conv s n st
  .ok (vs, { st with numValues := st.numValues - n })

/-- Pure value conversion of `set_decoded_value`: truncation to `i32` for
`M = 2^32`, identity for `M = 2^64`. -/
def convPure (M : Nat) (z : Int) : Int :=
  if M = 2 ^ 64 then z else wrapS M z

/-- `set_decoded_value` for the modulus parameter: truncation to `i32` for
`M = 2^32` (`decoding.rs:470-478`), identity for `M = 2^64`
(`decoding.rs:480-488`). -/
def convOfModulus (M : Nat) (z : Int) : Except PErr Int :=
  .ok (convPure M z)

/-! Auxiliary functions describing the encoder's output and the decoder's
value chain, used to state the intermediate round-trip lemmas. -/

/-- The wrapping delta sequence the encoder computes from predecessor `c`
and the remaining values (`put`'s loop, `encoding.rs:504-513`). -/
def deltasOf (M : Nat) (c : Int) : List Int → List Int
  | [] => []
  | v :: vs => subtractK M v c :: deltasOf M v vs

/-- One accumulation step of the decoder:
`current.wrapping_add(min_delta).wrapping_add(delta)` in `i64`. -/
def chainStep (m cur : Int) (p : Nat) : Int :=
  wrapS (2 ^ 64) (wrapS (2 ^ 64) (cur + m) + (p : Int))

/-- The decoder's `current_value` sequence over a list of packed deltas. -/
def chainList (m cur : Int) : List Nat → List Int
  | [] => []
  | p :: ps =>
      let c2 := chainStep m cur p
      c2 :: chainList m c2 ps

/-- The packed (normalized, unsigned) deltas of a miniblock. -/
def packedOf (M : Nat) (m : Int) (c : List Int) : List Nat :=
  c.map (fun d => subtractU M d m)

/-- The delta-push part of `put`'s loop body (`putOne` without the
`current_value` update). -/
def pushDelta (M : Nat) (st : EncState) (d : Int) : EncState :=
  let st2 := { st with deltas := st.deltas ++ [d] }
  if st2.deltas.length = blockSizeC then flushBlockValues M st2 else st2

/-- The per-block delta chunks of a value-segment list: block `i` holds
the wrapping deltas of segment `i` chained from the last value of the
previous segment. -/
def dChunks (M : Nat) (c : Int) : List (List Int) → List (List Int)
  | [] => []
  | seg :: segs => deltasOf M c seg :: dChunks M (seg.getLastD c) segs

/-- Full drain: `set_data` on the byte buffer then one `get` whose output
buffer has length `count`. -/
def deltaDecode (M : Nat) (bytes : List Nat) (count : Nat) :
    Except PErr (Outcome (List Int × DecState)) := do
  let r ← decSetData (bytesToBits bytes)
  match r with
  | .abort msg => .ok (.abort msg)
  | .ok st => do
      let out ← decGet (convOfModulus M) (bytesToBits bytes) st count
      .ok (.ok out)

/-! ## DELTA_LENGTH_BYTE_ARRAY decoder (`decoding.rs:494-576`) -/

/-- `DeltaBitPackDecoder::get_offset` (`decoding.rs:353-356`): the byte
offset consumed so far; modelled from the spec (`get_byte_offset` of the
bit reader rounds the bit position up to whole bytes). -/
def decGetOffset (st : DecState) : Nat := alignUp st.pos / 8

/-- State of `DeltaLengthByteArrayDecoder<ByteArrayType>`
(`decoding.rs:494-513`). -/
structure DeltaLenState where
  lengths : List Int
  currentIdx : Nat
  data : List Nat
  offset : Nat
  numValues : Nat
deriving DecidableEq

/-- `DeltaLengthByteArrayDecoder::<ByteArrayType>::set_data`
(`decoding.rs:547-559`): decode all lengths with an inner
`DeltaBitPackDecoder::<Int32Type>`, then keep the bytes that follow the
delta payload. -/
def deltaLenSetData (data : List Nat) (numValues : Nat) :
    Except PErr (Outcome DeltaLenState) := do
  let s := bytesToBits data
  let r ← decSetData s
  match r with
  | .abort msg => .ok (.abort msg)
  | .ok st =>
      let numLengths := st.numValues
      let (lengths, st) ← decGet (convOfModulus (2 ^ 32)) s st numLengths
      .ok (.ok { lengths := lengths, currentIdx := 0,
                 data := data.drop (decGetOffset st), offset := 0,
                 numValues := numLengths })

/-- One iteration of `DeltaLengthByteArrayDecoder::get`'s loop
(`decoding.rs:566-571`): slice the next `lengths[current_idx]` bytes. -/
def deltaLenGetLoop : Nat → DeltaLenState → List (List Nat) × DeltaLenState
  | 0, st => ([], st)
  | n + 1, st =>
      let len := (st.lengths.getD st.currentIdx 0).toNat
      let v := (st.data.drop st.offset).take len
      let st := { st with offset := st.offset + len, currentIdx := st.currentIdx + 1 }
      let r := deltaLenGetLoop n st
      (v :: r.1, r.2)

/-- `DeltaLengthByteArrayDecoder::get` (`decoding.rs:561-575`). -/
def deltaLenGet (st : DeltaLenState) (bufLen : Nat) :
    List (List Nat) × DeltaLenState :=
  let n := min bufLen st.numValues
  let r := deltaLenGetLoop n st
  (r.1, { r.2 with numValues := st.numValues - n })

/-! ## DELTA_BYTE_ARRAY decoder (`decoding.rs:581-680`) -/

/-- State of `DeltaByteArrayDecoder<ByteArrayType>` (`decoding.rs:581-600`). -/
structure DeltaByteState where
  prefLengths : List Int
  currentIdx : Nat
  suffixDecoder : DeltaLenState
  previousValue : Option (List Nat)
  numValues : Nat
deriving DecidableEq

/-- `DeltaByteArrayDecoder::<ByteArrayType>::set_data` (`decoding.rs:628-641`). -/
def deltaByteSetData (data : List Nat) (numValues : Nat) :
    Except PErr (Outcome DeltaByteState) := do
  let s := bytesToBits data
  let r ← decSetData s
  match r with
  | .abort msg => .ok (.abort msg)
  | .ok st =>
      let numPrefixes := st.numValues
      let (lens, st) ← decGet (convOfModulus (2 ^ 32)) s st numPrefixes
      let r2 ← deltaLenSetData (data.drop (decGetOffset st)) numValues
      match r2 with
      | .abort msg => .ok (.abort msg)
      | .ok suffixSt =>
          .ok (.ok { prefLengths := lens, currentIdx := 0,
                     suffixDecoder := suffixSt, previousValue := none,
                     numValues := numPrefixes })

/-- One iteration of `DeltaByteArrayDecoder::get`'s loop
(`decoding.rs:647-675`), translated exactly as written: when
`prefix_lengths[current_idx] != 0` the whole `previous_value` is copied
(`Vec::from(previous.as_ref())`, not only its first `prefix_len` bytes),
the suffix is read from the inner decoder, the two are concatenated, and
`previous_value` is replaced; `current_idx` is never incremented in the
loop body.  When the prefix length is non-zero but no previous value
exists, the Rust `assert!(self.previous_value.is_some())` panics. -/
def deltaByteGetOne (st : DeltaByteState) : Outcome (List Nat × DeltaByteState) :=
  let prefLen := st.prefLengths.getD st.currentIdx 0
  let prefSlice : Outcome (Option (List Nat)) :=
    if prefLen ≠ 0 then
      match st.previousValue with
      | none => .abort "assertion failed: self.previous_value.is_some()"
      | some previous => .ok (some previous)
    else .ok none
  match prefSlice with
  | .abort msg => .abort msg
  | .ok pref =>
      let r := deltaLenGet st.suffixDecoder 1
      let suffix := r.1.headD []
      let result := match pref with
        | some p => p ++ suffix
        | none => suffix
      .ok (result, { st with suffixDecoder := r.2, previousValue := some result })

/-- The loop of `DeltaByteArrayDecoder::get` over `n` values. -/
def deltaByteGetLoop : Nat → DeltaByteState → Outcome (List (List Nat) × DeltaByteState)
  | 0, st => .ok ([], st)
  | n + 1, st =>
      match deltaByteGetOne st with
      | .abort msg => .abort msg
      | .ok (v, st) =>
          match deltaByteGetLoop n st with
          | .abort msg => .abort msg
          | .ok (vs, st) => .ok (v :: vs, st)

/-- `DeltaByteArrayDecoder::get` (`decoding.rs:643-679`). -/
def deltaByteGet (st : DeltaByteState) (bufLen : Nat) :
    Outcome (List (List Nat) × DeltaByteState) :=
  let n := min bufLen st.numValues
  match deltaByteGetLoop n st with
  | .abort msg => .abort msg
  | .ok (vs, st) => .ok (vs, { st with numValues := st.numValues - n })

/-- Full DELTA_BYTE_ARRAY drain: `set_data` then one `get` with an output
buffer of length `count`. -/
def deltaByteDecode (data : List Nat) (count : Nat) :
    Except PErr (Outcome (List (List Nat) × DeltaByteState)) := do
  let r ← deltaByteSetData data count
  match r with
  | .abort msg => .ok (.abort msg)
  | .ok st => .ok (deltaByteGet st count)

/-- The DELTA_BYTE_ARRAY value sequence as the specification describes it:
value `i` is `prev.take prefix_len_i ++ suffix_i` with `prev` the value at
`i-1` (empty for `i = 0`).  This is the spec-side definition the claim is
compared against; it is not a translation of the source. -/
def deltaByteSpecVals (prefLens : List Nat) (suffixes : List (List Nat)) : List (List Nat) :=
  (List.zip prefLens suffixes).foldl
    (fun (acc : List (List Nat) × List Nat) ps =>
      let v := acc.2.take ps.1 ++ ps.2
      (acc.1 ++ [v], v))
    ([], [])
  |>.1

/-! ## Dictionary encoder (`encoding.rs:169-346`)

`hash_util::hash` is not under `src/`; the hash function, together with the
initial table size and the doubling threshold (`(hash_table_size as f32 *
0.7) as usize` in the source), are the table-geometry parameters the claim
C7 quantifies over.  Slots hold `-1` (`HASH_SLOT_EMPTY`) or an index into
`uniques`.  The probe position is taken modulo the table size, which equals
the source's `j & mod_bitmask` since the table size is a power of two. -/

/-- Table geometry: hash function, doubling threshold (as a function of the
table size) and initial table size. -/
structure DictGeometry (α : Type) where
  hash : α → Nat
  thresh : Nat → Nat
  initSize : Nat

/-- The geometry used by the source: `INITIAL_HASH_TABLE_SIZE = 1024`,
`MAX_HASH_LOAD = 0.7` (`encoding.rs:169-170`); the hash function itself is
modelled from the spec as an unspecified parameter. -/
def defaultGeometry (hash : α → Nat) : DictGeometry α :=
  { hash := hash, thresh := fun s => s * 7 / 10, initSize := 1024 }

/-- State of `DictEncoder` (`encoding.rs:173-200`). -/
structure DictState (α : Type) where
  tableSize : Nat
  slots : List Int
  bufferedIndices : List Nat
  uniques : List α
deriving DecidableEq

/-- `DictEncoder::new` (`encoding.rs:202-216`). -/
def dictNew (g : DictGeometry α) : DictState α :=
  { tableSize := g.initSize, slots := List.replicate g.initSize (-1),
    bufferedIndices := [], uniques := [] }

/-- The linear-probe loop of `put_one` (`encoding.rs:259-268`) and of
`double_table_size` (`encoding.rs:309-317`): starting at slot `j`, walk
forward (wrapping at `tableSize`) until an empty slot or a slot whose
index points at an occurrence of `v` in `uniques`; returns the slot
reached and the matching index if any.  `fuel` makes the function total;
the source loop's termination relies on the table never being full. -/
def probeSlot [DecidableEq α] (slots : List Int) (uniques : List α) (v : α)
    (tableSize : Nat) : Nat → Nat → Option (Nat × Option Nat)
  | 0, _ => none
  | fuel + 1, j =>
      let idx := slots.getD j (-1)
      if idx = -1 then some (j, none)
      else if uniques.get? idx.toNat = some v then some (j, some idx.toNat)
      else
        let j2 := j + 1
        probeSlot slots uniques v tableSize fuel (if j2 = tableSize then 0 else j2)

/-- `DictEncoder::double_table_size` (`encoding.rs:298-325`): allocate a
table of twice the size and re-insert every occupied slot's index by
re-probing from the value's hash position in the new table. -/
def doubleTableSize [DecidableEq α] (g : DictGeometry α) (st : DictState α) :
    Outcome (DictState α) :=
  let newSize := st.tableSize * 2
  let newSlots := st.slots.foldl
    (fun (acc : Outcome (List Int)) idx =>
      match acc with
      | .abort msg => .abort msg
      | .ok ns =>
          if idx = -1 then .ok ns
          else
            match st.uniques.get? idx.toNat with
            | none => .abort "index out of bounds"
            | some value =>
                match probeSlot ns st.uniques value newSize newSize
                    (g.hash value % newSize) with
                | none => .abort "probe loop did not terminate"
                | some (j, _) => .ok (ns.set j idx))
    (.ok (List.replicate newSize (-1)))
  match newSlots with
  | .abort msg => .abort msg
  | .ok ns => .ok { st with tableSize := newSize, slots := ns }

/-- `DictEncoder::put_one` (`encoding.rs:257-282`). -/
def putOneDict [DecidableEq α] (g : DictGeometry α) (st : DictState α) (v : α) :
    Outcome (DictState α) :=
  match probeSlot st.slots st.uniques v st.tableSize st.tableSize
      (g.hash v % st.tableSize) with
  | none => .abort "probe loop did not terminate"
  | some (_, some index) =>
      .ok { st with bufferedIndices := st.bufferedIndices ++ [index] }
  | some (j, none) =>
      let index := st.uniques.length
      let st := { st with slots := st.slots.set j (index : Int),
                          uniques := st.uniques ++ [v] }
      let grown :=
        if st.uniques.length > g.thresh st.tableSize then doubleTableSize g st
        else .ok st
      match grown with
      | .abort msg => .abort msg
      | .ok st => .ok { st with bufferedIndices := st.bufferedIndices ++ [index] }

/-- `DictEncoder::put` (`encoding.rs:328-335`): `put_one` per value. -/
def dictPut [DecidableEq α] (g : DictGeometry α) (st : DictState α)
    (values : List α) : Outcome (DictState α) :=
  values.foldl
    (fun acc v =>
      match acc with
      | .abort msg => .abort msg
      | .ok st => putOneDict g st v)
    (.ok st)

/-- `bit_util::log2`, modelled from the spec: `bit_width = ceil(log2(N))`
(§3), realized as `Nat.clog 2`. -/
def log2Ceil (n : Nat) : Nat := Nat.clog 2 n

/-- `DictEncoder::bit_width` (`encoding.rs:290-296`). -/
def dictBitWidth (numEntries : Nat) : Nat :=
  if numEntries = 0 then 0
  else if numEntries = 1 then 1
  else log2Ceil numEntries

/-- Reference first-occurrence semantics: running state is the distinct
values in first-occurrence order plus the emitted index stream.  This is
the spec-side description C7 compares the table implementation against. -/
def refStep [DecidableEq α] (acc : List α × List Nat) (v : α) : List α × List Nat :=
  if v ∈ acc.1 then (acc.1, acc.2 ++ [acc.1.indexOf v])
  else (acc.1 ++ [v], acc.2 ++ [acc.1.length])

/-- Reference dictionary contents and index stream for an input sequence. -/
def refDict [DecidableEq α] (xs : List α) : List α × List Nat :=
  xs.foldl refStep ([], [])

/-- A deterministic RLE/bit-packed hybrid stream for the buffered indices.
Modelled from the spec (§4.2): runs of at least 8 equal values become an
RLE run (header `count << 1 | 1` then `ceil(w/8)` little-endian value
bytes); otherwise groups of up to 8 values become one bit-packed group
(header `1 << 1`, then the 8 values—zero-padded—packed at width `w`).
Only determinism of this function matters for the claims below. -/
def rleSpecBytesAux (w : Nat) : Nat → List Nat → List Nat
  | 0, _ => []
  | _, [] => []
  | fuel + 1, v :: vs =>
      let runLen := 1 + (vs.takeWhile (· = v)).length
      if 8 ≤ runLen then
        vlqBytes (2 * runLen + 1) ++ natToLEBytes ((w + 7) / 8) v ++
          rleSpecBytesAux w fuel (vs.drop (runLen - 1))
      else
        let grp := (v :: vs).take 8
        vlqBytes 2 ++
          bitsToBytes (padToByte ((grp ++ List.replicate (8 - grp.length) 0).flatMap
            (natToBits w))) ++
          rleSpecBytesAux w fuel ((v :: vs).drop 8)

/-- Entry point of the hybrid stream above, with sufficient fuel. -/
def rleSpecBytes (w : Nat) (l : List Nat) : List Nat := rleSpecBytesAux w l.length l

/-- `DictEncoder::write_indices` (`encoding.rs:235-255`): the bit width as
first byte followed by the hybrid-RLE stream of the buffered indices. -/
def writeIndices (st : DictState α) : List Nat :=
  dictBitWidth st.uniques.length ::
    rleSpecBytes (dictBitWidth st.uniques.length) st.bufferedIndices

/-- `DictEncoder::<Int32Type>::write_dict` (`encoding.rs:225-230`): PLAIN
encoding of `uniques`, instantiated at INT32. -/
def writeDictInt32 (st : DictState Int) : List Nat :=
  plainEncodeInt32 st.uniques

/-- The hash-table invariant tying a `DictState` to its `uniques` list:
the slot array matches the table size, the table is never full, `uniques`
is duplicate-free, the non-empty slots hold exactly the indices
`0 .. uniques.length - 1` (each once), and probing any stored value from
its hash position finds exactly its index. -/
def DictInv [DecidableEq α] (g : DictGeometry α) (st : DictState α) : Prop :=
  st.slots.length = st.tableSize ∧
  0 < st.tableSize ∧
  st.uniques.length < st.tableSize ∧
  st.uniques.Nodup ∧
  List.Perm (st.slots.filter (· ≠ -1))
    ((List.range st.uniques.length).map (fun i : Nat => (i : Int))) ∧
  ∀ i (h : i < st.uniques.length),
    ∃ j, probeSlot st.slots st.uniques (st.uniques.get ⟨i, h⟩) st.tableSize
      st.tableSize (g.hash (st.uniques.get ⟨i, h⟩) % st.tableSize) = some (j, some i)

/-- A concrete geometry with the source's initial size 1024 and 0.7 load
factor (`encoding.rs:169-170`), hashing an integer to its `toNat`. -/
def gA : DictGeometry Int :=
  { hash := fun z => z.toNat, thresh := fun s => s * 7 / 10, initSize := 1024 }

/-- A deliberately different geometry: tiny initial table, different hash
function, aggressive doubling threshold. -/
def gB : DictGeometry Int :=
  { hash := fun z => 2 * z.toNat + 5, thresh := fun s => s - 1, initSize := 1 }

/-! ## Dictionary decoder (`decoding.rs:248-304`) -/

/-- State of `DictDecoder` (`decoding.rs:248-260`); the inner `RleDecoder`
(not under `src/`) is modelled from the spec as the list of index values
remaining in its stream. -/
structure DictDecState (α : Type) where
  dictionary : List α
  hasDictionary : Bool
  rleIndices : List Nat
  numValues : Nat
deriving DecidableEq

/-- `DictDecoder::get` (`decoding.rs:287-294`): computes
`num_values = min(buffer.len(), self.num_values)` and returns the result
of `rle.get_batch_with_dict(dict, buffer, num_values)` directly —
`self.num_values` is never updated.  `get_batch_with_dict` is modelled
from the spec (§4.2): it decodes up to `max` indices and gathers
`dict[idx]`, returning the count decoded. -/
def dictDecoderGet [Inhabited α] (st : DictDecState α) (bufLen : Nat) :
    List α × DictDecState α :=
  let n := min bufLen st.numValues
  let k := min n st.rleIndices.length
  ((st.rleIndices.take k).map (fun i => st.dictionary.getD i default),
    { st with rleIndices := st.rleIndices.drop k })

/-! ## Page reader (`file/reader.rs:265-339`)

The Thrift header parse and the file I/O are external collaborators; a
column chunk is modelled as the list of already-parsed `(header, payload)`
pairs, in stream order.  A block decompressor (`compression.rs`, not under
`src/`) is modelled from the spec (§6) as a fallible function from input
bytes to output bytes whose reported `uncompressed_size` is the output
length. -/

/-- `DictionaryPageHeader` fields used by the reader. -/
structure DictHeaderM where
  numValues : Nat
  encoding : EncodingE
  isSorted : Option Bool
deriving DecidableEq

/-- `DataPageHeader` fields used by the reader. -/
structure DataHeaderM where
  numValues : Nat
  encoding : EncodingE
  defLevelEncoding : EncodingE
  repLevelEncoding : EncodingE
deriving DecidableEq

/-- `DataPageHeaderV2` fields used by the reader. -/
structure DataV2HeaderM where
  numValues : Nat
  numNulls : Nat
  numRows : Nat
  encoding : EncodingE
  defLevelsByteLen : Nat
  repLevelsByteLen : Nat
  isCompressed : Option Bool
deriving DecidableEq

/-- The page-type dispatch of a parsed page header. -/
inductive PageVariant where
  | dict (h : DictHeaderM)
  | data (h : DataHeaderM)
  | dataV2 (h : DataV2HeaderM)
  | other
deriving DecidableEq

/-- A parsed Thrift `PageHeader` (fields used by `get_next_page`). -/
structure PageHeaderM where
  uncompressedPageSize : Nat
  variant : PageVariant
deriving DecidableEq

/-- The `Page` record produced by the reader (`column::page::Page`). -/
inductive PageM where
  | DictionaryPage (buf : List Nat) (numValues : Nat) (encoding : EncodingE)
      (isSorted : Bool)
  | DataPage (buf : List Nat) (numValues : Nat) (encoding : EncodingE)
      (defLevelEncoding repLevelEncoding : EncodingE)
  | DataPageV2 (buf : List Nat) (numValues numNulls numRows : Nat)
      (encoding : EncodingE) (defLevelsByteLen repLevelsByteLen : Nat)
      (isCompressed : Bool)
deriving DecidableEq

/-- A block decompressor capability. -/
def Decompressor : Type := List Nat → Except PErr (List Nat)

/-- The body of one `get_next_page` loop iteration (`reader.rs:268-334`)
processing one page's header and raw payload bytes.  Returns the produced
page (`none` for a skipped unknown page type) together with the number of
values to add to `seen_num_values`, and a flag recording whether the
decompressor ran (for stating C3).  Decompression happens whenever a
decompressor is installed (`reader.rs:276`): the page's compression
marking, including a DataPageV2 header's `is_compressed` flag
(`reader.rs:315-318`), is not consulted.  `dispatchPage` is the
page-type dispatch (`reader.rs:287-333`); `processPage` below performs the
conditional decompression (`reader.rs:269-284`) and feeds it. -/
def dispatchPage (hdr : PageHeaderM) (buffer : List Nat) (didDecompress : Bool) :
    Except PErr ((Option PageM × Nat) × Bool) :=
  match hdr.variant with
  | .dict h =>
      .ok ((some (.DictionaryPage buffer h.numValues h.encoding
        (h.isSorted.getD false)), h.numValues), didDecompress)
  | .data h =>
      .ok ((some (.DataPage buffer h.numValues h.encoding h.defLevelEncoding
        h.repLevelEncoding), h.numValues), didDecompress)
  | .dataV2 h =>
      .ok ((some (.DataPageV2 buffer h.numValues h.numNulls h.numRows h.encoding
        h.defLevelsByteLen h.repLevelsByteLen (h.isCompressed.getD true)),
        h.numValues), didDecompress)
  | .other => .ok ((none, 0), didDecompress)

def processPage (decompressor : Option Decompressor) (hdr : PageHeaderM)
    (payload : List Nat) : Except PErr ((Option PageM × Nat) × Bool) :=
  match decompressor with
  | some d =>
      match d payload with
      | .error e => .error e
      | .ok decompressed =>
          if decompressed.length ≠ hdr.uncompressedPageSize then
            .error (.general "Actual decompressed size doesn't match the expected one")
          else
            dispatchPage hdr decompressed true
  | none => dispatchPage hdr payload false

/-- `SerializedPageReader::get_next_page` (`reader.rs:266-339`): loop while
`seen_num_values < total_num_values`, processing pages in order and
silently skipping unknown page types (whose bytes were already consumed). -/
def getNextPage (decompressor : Option Decompressor) :
    List (PageHeaderM × List Nat) → Int → Int → Except PErr (Option PageM)
  | [], seen, total =>
      if seen < total then .error (.eof "Could not read page header")
      else .ok none
  | (hdr, payload) :: rest, seen, total =>
      if seen < total then do
        let ((page?, numValues), _) ← processPage decompressor hdr payload
        match page? with
        | some page => .ok (some page)
        | none => getNextPage decompressor rest (seen + numValues) total
      else .ok none

/-! ## Concrete instances used by counterexamples and witnesses -/

/-- The identity decompressor (decompressed bytes = input bytes). -/
def idDecompressor : Decompressor := fun l => .ok l

/-- A decompressor whose output is one fixed byte, regardless of input. -/
def oneByteDecompressor : Decompressor := fun _ => .ok [0]

/-- A DataPageV2 header explicitly marked *not* compressed, with
`uncompressed_page_size = 3`. -/
def hdrV2NotCompressed : PageHeaderM :=
  { uncompressedPageSize := 3,
    variant := .dataV2
      { numValues := 8, numNulls := 0, numRows := 8, encoding := .PLAIN,
        defLevelsByteLen := 0, repLevelsByteLen := 0, isCompressed := some false } }

/-- The DELTA_BYTE_ARRAY stream for the value sequence `["abc", "abd"]`:
prefix lengths `[0, 2]`, then suffix lengths `[3, 1]`, then the raw
suffix bytes `"abc" ++ "d"`. -/
def c1Stream : List Nat :=
  deltaEncode (2 ^ 32) [0, 2] ++ (deltaEncode (2 ^ 32) [3, 1] ++ [97, 98, 99, 100])

/-!
# Theorems
-/

/-- Binding an `Except.error` short-circuits. -/
theorem except_error_bind {α β : Type} (e : PErr) (f : α → Except PErr β) :
    (Except.error e >>= f) = (Except.error e : Except PErr β) := rfl

/-- Binding an `Except.ok` applies the continuation. -/
theorem except_ok_bind {α β : Type} (a : α) (f : α → Except PErr β) :
    (Except.ok a >>= f) = f a := rfl

/-! ## Machine-arithmetic lemmas -/

theorem wrapS_bounds (M : Nat) (hM : 0 < M) (z : Int) :
    -((M : Int) / 2) ≤ wrapS M z ∧ wrapS M z < (M : Int) - (M : Int) / 2 := by
  unfold wrapS
  have h0 : (0 : Int) < (M : Int) := by exact_mod_cast hM
  have h1 : 0 ≤ (z + (M : Int) / 2) % (M : Int) := Int.emod_nonneg _ (by omega)
  have h2 := Int.emod_lt_of_pos (z + (M : Int) / 2) h0
  omega

theorem wrapS_bounds_even (M : Nat) (hM : 0 < M) (hE : (M : Int) % 2 = 0) (z : Int) :
    -((M : Int) / 2) ≤ wrapS M z ∧ wrapS M z < (M : Int) / 2 := by
  have h := wrapS_bounds M hM z
  omega

theorem wrapS_emod (M : Nat) (z : Int) : wrapS M z % (M : Int) = z % (M : Int) := by
  unfold wrapS
  calc ((z + (M : Int) / 2) % (M : Int) - (M : Int) / 2) % (M : Int)
      = ((z + (M : Int) / 2) % (M : Int) % (M : Int) - ((M : Int) / 2) % (M : Int)) % (M : Int) := by
        rw [← Int.sub_emod]
    _ = ((z + (M : Int) / 2) % (M : Int) - ((M : Int) / 2) % (M : Int)) % (M : Int) := by
        rw [Int.emod_emod_of_dvd _ dvd_rfl]
    _ = ((z + (M : Int) / 2) - (M : Int) / 2) % (M : Int) := by rw [← Int.sub_emod]
    _ = z % (M : Int) := by ring_nf

theorem wrapS_eq_self (M : Nat) (hM : 0 < M) (z : Int)
    (hlo : -((M : Int) / 2) ≤ z) (hhi : z < (M : Int) - (M : Int) / 2) :
    wrapS M z = z := by
  unfold wrapS
  have h0 : (0 : Int) < (M : Int) := by exact_mod_cast hM
  rw [Int.emod_eq_of_lt (by omega) (by omega)]
  ring

/-- Two integers congruent mod `M`, both in `[-(M/2), M - M/2)`, are equal. -/
theorem eq_of_emod_eq_of_bounds (M : Nat) (hM : 0 < M) (a b : Int)
    (hmod : a % (M : Int) = b % (M : Int))
    (ha1 : -((M : Int) / 2) ≤ a) (ha2 : a < (M : Int) - (M : Int) / 2)
    (hb1 : -((M : Int) / 2) ≤ b) (hb2 : b < (M : Int) - (M : Int) / 2) : a = b := by
  have h0 : (0 : Int) < (M : Int) := by exact_mod_cast hM
  have hd : ((M : Int)) ∣ (b - a) := Int.ModEq.dvd hmod
  rcases hd with ⟨k, hk⟩
  have hk0 : k = 0 := by
    rcases lt_trichotomy k 0 with hlt | rfl | hgt
    · have hk1 : k ≤ -1 := by omega
      have : (M : Int) * k ≤ -(M : Int) := by nlinarith
      omega
    · rfl
    · have hk1 : 1 ≤ k := by omega
      have : (M : Int) ≤ (M : Int) * k := by nlinarith
      omega
  rw [hk0, mul_zero] at hk
  omega

theorem toU_lt (M : Nat) (hM : 0 < M) (z : Int) : toU M z < M := by
  have h0 : (0 : Int) < (M : Int) := by exact_mod_cast hM
  have h1 : 0 ≤ z % (M : Int) := Int.emod_nonneg _ (by omega)
  have h : ((toU M z : Nat) : Int) < (M : Int) := by
    unfold toU
    rw [Int.toNat_of_nonneg h1]
    exact Int.emod_lt_of_pos z h0
  exact_mod_cast h

theorem toU_emod (M : Nat) (hM : 0 < M) (z : Int) :
    ((toU M z : Nat) : Int) % (M : Int) = z % (M : Int) := by
  unfold toU
  have h0 : (0 : Int) < (M : Int) := by exact_mod_cast hM
  have h1 : 0 ≤ z % (M : Int) := Int.emod_nonneg _ (by omega)
  rw [Int.toNat_of_nonneg h1, Int.emod_emod_of_dvd _ dvd_rfl]

/-- When `0 ≤ z < M`, the unsigned pattern is `z` itself. -/
theorem toU_eq_self (M : Nat) (hM : 0 < M) (z : Int) (h1 : 0 ≤ z)
    (h2 : z < (M : Int)) : ((toU M z : Nat) : Int) = z := by
  unfold toU
  rw [Int.emod_eq_of_lt h1 h2, Int.toNat_of_nonneg h1]

/-- `subtract_u64` is the exact difference for ordered operands in the
signed range. -/
theorem subtractU_exact (M : Nat) (hM : 0 < M) (hE : (M : Int) % 2 = 0)
    (d m : Int) (hd1 : -((M : Int) / 2) ≤ d) (hd2 : d < (M : Int) / 2)
    (hm1 : -((M : Int) / 2) ≤ m) (hm2 : m < (M : Int) / 2) (hmd : m ≤ d) :
    ((subtractU M d m : Nat) : Int) = d - m := by
  unfold subtractU
  exact toU_eq_self M hM (d - m) (by omega) (by omega)

theorem zigzag_roundtrip (z : Int) : zigzagDecode (zigzagEncode z) = z := by
  by_cases h : 0 ≤ z
  · have he : zigzagEncode z = (2 * z).toNat := by unfold zigzagEncode; rw [if_pos h]
    rw [he]
    unfold zigzagDecode
    rw [if_pos (by omega : (2 * z).toNat % 2 = 0)]
    omega
  · have he : zigzagEncode z = (-2 * z - 1).toNat := by
      unfold zigzagEncode; rw [if_neg h]
    rw [he]
    unfold zigzagDecode
    rw [if_neg (by omega : ¬ (-2 * z - 1).toNat % 2 = 0)]
    omega

theorem listMinFrom_le (top : Int) (l : List Int) :
    ∀ d ∈ l, listMinFrom top l ≤ d := by
  induction l generalizing top with
  | nil => intro d hd; cases hd
  | cons x xs ih =>
      intro d hd
      rcases List.mem_cons.mp hd with rfl | hd
      · calc listMinFrom (min top d) xs ≤ min top d := listMinFrom_le_start _ _
          _ ≤ d := min_le_right _ _
      · exact ih (min top x) d hd
where
  listMinFrom_le_start (top : Int) (l : List Int) : listMinFrom top l ≤ top := by
    induction l generalizing top with
    | nil => simp [listMinFrom]
    | cons x xs ih =>
        calc listMinFrom (min top x) xs ≤ min top x := ih (min top x)
          _ ≤ top := min_le_left _ _

theorem listMinFrom_ge (top lo : Int) (l : List Int) (htop : lo ≤ top)
    (hl : ∀ d ∈ l, lo ≤ d) : lo ≤ listMinFrom top l := by
  induction l generalizing top with
  | nil => simpa [listMinFrom]
  | cons x xs ih =>
      simp only [listMinFrom]
      exact ih (min top x) (le_min htop (hl x (by simp)))
        (fun d hd => hl d (by simp [hd]))

theorem listMinFrom_lt (top hi : Int) (l : List Int) (htop : top < hi)
    (hl : ∀ d ∈ l, d < hi) : listMinFrom top l < hi := by
  induction l generalizing top with
  | nil => simpa [listMinFrom]
  | cons x xs ih =>
      simp only [listMinFrom]
      exact ih (min top x) (lt_of_le_of_lt (min_le_left _ _) htop)
        (fun d hd => hl d (by simp [hd]))

theorem listMaxFrom_ge (bot : Int) (l : List Int) :
    ∀ d ∈ l, d ≤ listMaxFrom bot l := by
  induction l generalizing bot with
  | nil => intro d hd; cases hd
  | cons x xs ih =>
      intro d hd
      rcases List.mem_cons.mp hd with rfl | hd
      · calc d ≤ max bot d := le_max_right _ _
          _ ≤ listMaxFrom (max bot d) xs := listMaxFrom_ge_start _ _
      · exact ih (max bot x) d hd
where
  listMaxFrom_ge_start (bot : Int) (l : List Int) : bot ≤ listMaxFrom bot l := by
    induction l generalizing bot with
    | nil => simp [listMaxFrom]
    | cons x xs ih =>
        calc bot ≤ max bot x := le_max_left _ _
          _ ≤ listMaxFrom (max bot x) xs := ih (max bot x)

theorem listMaxFrom_lt (bot hi : Int) (l : List Int) (hbot : bot < hi)
    (hl : ∀ d ∈ l, d < hi) : listMaxFrom bot l < hi := by
  induction l generalizing bot with
  | nil => simpa [listMaxFrom]
  | cons x xs ih =>
      simp only [listMaxFrom]
      exact ih (max bot x) (max_lt hbot (hl x (by simp)))
        (fun d hd => hl d (by simp [hd]))

/-! ## Bit-stream lemmas -/

theorem natToBits_length (w v : Nat) : (natToBits w v).length = w := by
  induction w generalizing v with
  | zero => rfl
  | succ w ih => simp [natToBits, ih]

theorem bitsToNat_natToBits (w v : Nat) : bitsToNat (natToBits w v) = v % 2 ^ w := by
  induction w generalizing v with
  | zero => simp [natToBits, bitsToNat, Nat.mod_one]
  | succ w ih =>
      simp only [natToBits, bitsToNat, ih]
      have e1 : 2 ^ w * (v / 2 / 2 ^ w) + v / 2 % 2 ^ w = v / 2 := Nat.div_add_mod _ _
      have hY : v / 2 % 2 ^ w < 2 ^ w := Nat.mod_lt _ (by positivity)
      have hv : v = 2 ^ (w + 1) * (v / 2 / 2 ^ w) + (v % 2 + 2 * (v / 2 % 2 ^ w)) := by
        have h3 : 2 ^ (w + 1) * (v / 2 / 2 ^ w) = 2 * (2 ^ w * (v / 2 / 2 ^ w)) := by ring
        rw [h3]
        omega
      have hlt : v % 2 + 2 * (v / 2 % 2 ^ w) < 2 ^ (w + 1) := by
        have h4 : (2 : Nat) ^ (w + 1) = 2 ^ w * 2 := pow_succ 2 w
        omega
      have key : v % 2 ^ (w + 1) = v % 2 + 2 * (v / 2 % 2 ^ w) := by
        calc v % 2 ^ (w + 1)
            = (2 ^ (w + 1) * (v / 2 / 2 ^ w) + (v % 2 + 2 * (v / 2 % 2 ^ w))) % 2 ^ (w + 1) := by
              rw [← hv]
          _ = (v % 2 + 2 * (v / 2 % 2 ^ w)) % 2 ^ (w + 1) := by rw [Nat.mul_add_mod]
          _ = v % 2 + 2 * (v / 2 % 2 ^ w) := Nat.mod_eq_of_lt hlt
      rw [key]
      rcases Nat.mod_two_eq_zero_or_one v with h | h <;> simp [h]

theorem bitsToNat_lt (l : List Bool) : bitsToNat l < 2 ^ l.length := by
  induction l with
  | nil => simp [bitsToNat]
  | cons b bs ih =>
      simp only [bitsToNat, List.length_cons, pow_succ]
      cases b <;> simp <;> omega

theorem alignUp_of_dvd (n : Nat) (h : 8 ∣ n) : alignUp n = n := by
  rcases h with ⟨k, rfl⟩
  unfold alignUp
  omega

theorem padToByte_of_dvd (l : List Bool) (h : 8 ∣ l.length) : padToByte l = l := by
  unfold padToByte
  rw [alignUp_of_dvd _ h]
  simp

theorem bytesToBits_length (bs : List Nat) : (bytesToBits bs).length = 8 * bs.length := by
  induction bs with
  | nil => rfl
  | cons b bs ih =>
      simp only [bytesToBits, List.flatMap_cons, List.length_append, natToBits_length,
        List.length_cons]
      simp only [bytesToBits] at ih
      omega

theorem bytesToBits_append (a b : List Nat) :
    bytesToBits (a ++ b) = bytesToBits a ++ bytesToBits b := by
  simp [bytesToBits]

theorem natToBits_bitsToNat (l : List Bool) : natToBits l.length (bitsToNat l) = l := by
  induction l with
  | nil => rfl
  | cons b bs ih =>
      simp only [List.length_cons, natToBits, bitsToNat]
      have h1 : ((if b then 1 else 0) + 2 * bitsToNat bs) % 2 = if b then 1 else 0 := by
        cases b <;> simp <;> omega
      have h2 : ((if b then 1 else 0) + 2 * bitsToNat bs) / 2 = bitsToNat bs := by
        cases b <;> simp <;> omega
      rw [h1, h2, ih]
      cases b <;> simp

/-- Helper for the byte/bit round trip, by induction on the byte count. -/
theorem bytesToBits_bitsToBytes_aux :
    ∀ (n : Nat) (l : List Bool), l.length = 8 * n →
      bytesToBits (bitsToBytes l) = l := by
  intro n
  induction n with
  | zero =>
      intro l hl
      have : l = [] := List.eq_nil_of_length_eq_zero (by omega)
      subst this
      simp [bitsToBytes, bytesToBits]
  | succ n ih =>
      intro l hl
      match l with
      | [] => simp at hl
      | b :: bs =>
          simp only [List.length_cons] at hl
          rw [bitsToBytes]
          simp only [bytesToBits, List.flatMap_cons]
          have ht : (List.take 8 (b :: bs)).length = 8 := by
            simp only [List.length_take, List.length_cons]
            omega
          have h1 : natToBits 8 (bitsToNat (List.take 8 (b :: bs))) = List.take 8 (b :: bs) := by
            have h := natToBits_bitsToNat (List.take 8 (b :: bs))
            rw [ht] at h
            exact h
          have h2 : bytesToBits (bitsToBytes (List.drop 8 (b :: bs))) = List.drop 8 (b :: bs) := by
            apply ih
            simp only [List.length_drop, List.length_cons]
            omega
          simp only [bytesToBits] at h1 h2 ⊢
          rw [h1, h2, List.take_append_drop]

/-- Converting bits (of whole-byte length) to bytes and back is the
identity. -/
theorem bytesToBits_bitsToBytes (l : List Bool) (h : 8 ∣ l.length) :
    bytesToBits (bitsToBytes l) = l := by
  rcases h with ⟨k, hk⟩
  exact bytesToBits_bitsToBytes_aux k l hk

/-- Reading `w` bits at a position where the stream continues with the
`w`-bit pattern of `v` yields `v`. -/
theorem readBits_exact (s : List Bool) (pos w v : Nat) (r : List Bool)
    (hpos : pos ≤ s.length)
    (hdrop : s.drop pos = natToBits w v ++ r) (hv : v < 2 ^ w) :
    readBits s pos w = some (v, pos + w) := by
  have hlen : s.length - pos = w + r.length := by
    have h := congrArg List.length hdrop
    simp only [List.length_drop, List.length_append, natToBits_length] at h
    omega
  unfold readBits
  rw [if_pos (by omega)]
  rw [hdrop]
  have ht : List.take w (natToBits w v ++ r) = natToBits w v := by
    rw [List.take_append_of_le_length (by simp [natToBits_length])]
    simp [natToBits_length]
  rw [ht, bitsToNat_natToBits, Nat.mod_eq_of_lt hv]

theorem vlqBytes_length_pos (v : Nat) : 0 < (vlqBytes v).length := by
  rw [vlqBytes]
  split <;> simp

theorem vlqBytes_head_lt (v : Nat) : ∀ b ∈ vlqBytes v, b < 256 := by
  induction v using Nat.strong_induction_on with
  | _ v ih =>
      rw [vlqBytes]
      split
      · intro b hb
        simp only [List.mem_singleton] at hb
        omega
      · intro b hb
        rcases List.mem_cons.mp hb with rfl | hb
        · have := Nat.mod_lt v (show 0 < 128 by norm_num)
          omega
        · exact ih (v / 128) (Nat.div_lt_self (by omega) (by norm_num)) b hb

/-- Reading one aligned byte at a byte-aligned position whose stream
continues with byte `b` (< 256). -/
theorem readAligned_byte (s : List Bool) (pos b : Nat) (r : List Bool)
    (hal : 8 ∣ pos) (hpos : pos ≤ s.length)
    (hdrop : s.drop pos = natToBits 8 b ++ r) (hb : b < 256) :
    readAligned s pos 1 = some (b, pos + 8) := by
  unfold readAligned
  rw [alignUp_of_dvd _ hal]
  exact readBits_exact s pos 8 b r hpos hdrop hb

/-- The VLQ read loop inverts `vlqBytes`. -/
theorem readVlqAux_spec (s : List Bool) :
    ∀ (fuel v pos shift acc : Nat) (r : List Bool),
      s.drop pos = bytesToBits (vlqBytes v) ++ r → 8 ∣ pos →
      (vlqBytes v).length ≤ fuel →
      readVlqAux s fuel pos shift acc =
        some (acc + v * 2 ^ shift, pos + 8 * (vlqBytes v).length) := by
  intro fuel
  induction fuel with
  | zero =>
      intro v pos shift acc r _ _ hle
      exact absurd hle (by have := vlqBytes_length_pos v; omega)
  | succ fuel ih =>
      intro v pos shift acc r hdrop hal hle
      have hpos : pos ≤ s.length := by
        have h := congrArg List.length hdrop
        simp only [List.length_drop, List.length_append, bytesToBits_length] at h
        have := vlqBytes_length_pos v
        omega
      rw [vlqBytes] at hdrop hle ⊢
      by_cases hv : v < 128
      · rw [dif_pos hv] at hdrop hle ⊢
        simp only [bytesToBits, List.flatMap_cons, List.flatMap_nil, List.append_nil] at hdrop
        have hbyte : readAligned s pos 1 = some (v, pos + 8) :=
          readAligned_byte s pos v r hal hpos hdrop (by omega)
        simp only [readVlqAux, hbyte]
        rw [if_pos hv]
        have hm : v % 128 = v := Nat.mod_eq_of_lt hv
        simp [hm]
      · rw [dif_neg hv] at hdrop hle ⊢
        simp only [bytesToBits, List.flatMap_cons] at hdrop
        rw [List.append_assoc] at hdrop
        have hb : 128 + v % 128 < 256 := by
          have := Nat.mod_lt v (show 0 < 128 by norm_num)
          omega
        have hbyte : readAligned s pos 1 = some (128 + v % 128, pos + 8) :=
          readAligned_byte s pos _ _ hal hpos hdrop hb
        simp only [readVlqAux, hbyte]
        rw [if_neg (by omega)]
        have hdrop2 : s.drop (pos + 8) = bytesToBits (vlqBytes (v / 128)) ++ r := by
          have h8 : s.drop (pos + 8) = (s.drop pos).drop 8 := by
            rw [List.drop_drop]
          rw [h8, hdrop, List.drop_append_of_le_length (by simp [natToBits_length])]
          simp [natToBits_length, bytesToBits]
        have hrec := ih (v / 128) (pos + 8) (shift + 7)
          (acc + (128 + v % 128) % 128 * 2 ^ shift) r hdrop2
          (by rcases hal with ⟨k, rfl⟩; exact ⟨k + 1, by ring⟩)
          (by simp only [List.length_cons] at hle; omega)
        rw [hrec]
        have hmod : (128 + v % 128) % 128 = v % 128 := by omega
        have harith : acc + v % 128 * 2 ^ shift + v / 128 * 2 ^ (shift + 7) =
            acc + v * 2 ^ shift := by
          have hv128 : v = 128 * (v / 128) + v % 128 := (Nat.div_add_mod v 128).symm
          calc acc + v % 128 * 2 ^ shift + v / 128 * 2 ^ (shift + 7)
              = acc + (v % 128 + 128 * (v / 128)) * 2 ^ shift := by ring
            _ = acc + v * 2 ^ shift := by rw [Nat.add_comm (v % 128)]; rw [← hv128]
        rw [hmod, harith]
        exact congrArg some (Prod.ext rfl (by simp only [List.length_cons]; omega))

/-- `get_vlq_int` at an aligned position reads back a written VLQ. -/
theorem readVlq_spec (s : List Bool) (v pos : Nat) (r : List Bool)
    (hdrop : s.drop pos = bytesToBits (vlqBytes v) ++ r) (hal : 8 ∣ pos) :
    readVlq s pos = some (v, pos + 8 * (vlqBytes v).length) := by
  have hfuel : (vlqBytes v).length ≤ s.length + 1 := by
    have h := congrArg List.length hdrop
    simp only [List.length_drop, List.length_append, bytesToBits_length] at h
    omega
  have h := readVlqAux_spec s (s.length + 1) v pos 0 0 r hdrop hal hfuel
  unfold readVlq
  simpa using h

/-- `get_zigzag_vlq_int` at an aligned position reads back a written
zigzag VLQ. -/
theorem readZigzagVlq_spec (s : List Bool) (z : Int) (pos : Nat) (r : List Bool)
    (hdrop : s.drop pos = bytesToBits (vlqBytes (zigzagEncode z)) ++ r) (hal : 8 ∣ pos) :
    readZigzagVlq s pos =
      some (z, pos + 8 * (vlqBytes (zigzagEncode z)).length) := by
  unfold readZigzagVlq
  rw [readVlq_spec s (zigzagEncode z) pos r hdrop hal]
  simp [zigzag_roundtrip]

/-! ## Chunking lemmas -/

theorem splitChunks_of_lt {α : Type} (k : Nat) (l : List α) (h : l.length < k ∨ k = 0) :
    splitChunks k l = ([], l) := by
  rw [splitChunks]
  rw [dif_neg (by omega)]

theorem splitChunks_append {α : Type} (k : Nat) (l r : List α) (hk : 0 < k)
    (hl : l.length = k) :
    splitChunks k (l ++ r) = (l :: (splitChunks k r).1, (splitChunks k r).2) := by
  rw [splitChunks]
  rw [dif_pos (by simp [List.length_append]; omega)]
  have ht : (l ++ r).take k = l := by
    rw [← hl, List.take_left]
  have hd : (l ++ r).drop k = r := by
    rw [← hl, List.drop_left]
  rw [ht, hd]

theorem splitChunks_join {α : Type} (k : Nat) :
    ∀ (n : Nat) (l : List α), l.length ≤ n →
      ((splitChunks k l).1.flatMap id) ++ (splitChunks k l).2 = l := by
  intro n
  induction n with
  | zero =>
      intro l hl
      have : l = [] := List.eq_nil_of_length_eq_zero (by omega)
      subst this
      rw [splitChunks_of_lt k [] (by simp; omega)]
      simp
  | succ n ih =>
      intro l hl
      rw [splitChunks]
      by_cases h : 0 < k ∧ k ≤ l.length
      · rw [dif_pos h]
        simp only [List.flatMap_cons, List.append_assoc, id]
        have hrec := ih (l.drop k) (by simp [List.length_drop]; omega)
        rw [hrec, List.take_append_drop]
      · rw [dif_neg h]
        simp

theorem splitChunks_fst_full {α : Type} (k : Nat) :
    ∀ (n : Nat) (l : List α), l.length ≤ n →
      ∀ c ∈ (splitChunks k l).1, c.length = k := by
  intro n
  induction n with
  | zero =>
      intro l hl c hc
      have : l = [] := List.eq_nil_of_length_eq_zero (by omega)
      subst this
      rw [splitChunks_of_lt k [] (by simp; omega)] at hc
      simp at hc
  | succ n ih =>
      intro l hl c hc
      rw [splitChunks] at hc
      by_cases h : 0 < k ∧ k ≤ l.length
      · rw [dif_pos h] at hc
        rcases List.mem_cons.mp hc with rfl | hc
        · simp [List.length_take]; omega
        · exact ih (l.drop k) (by simp [List.length_drop]; omega) c hc
      · rw [dif_neg h] at hc
        simp at hc

theorem splitChunks_snd_lt {α : Type} (k : Nat) (hk : 0 < k) :
    ∀ (n : Nat) (l : List α), l.length ≤ n → (splitChunks k l).2.length < k := by
  intro n
  induction n with
  | zero =>
      intro l hl
      have : l = [] := List.eq_nil_of_length_eq_zero (by omega)
      subst this
      rw [splitChunks, dif_neg (by simp; omega)]
      simpa
  | succ n ih =>
      intro l hl
      rw [splitChunks]
      by_cases h : 0 < k ∧ k ≤ l.length
      · rw [dif_pos h]
        exact ih (l.drop k) (by simp [List.length_drop]; omega)
      · rw [dif_neg h]
        simp only
        omega

theorem chunked_join {α : Type} (k : Nat) (l : List α) :
    (chunked k l).flatMap id = l := by
  unfold chunked
  by_cases h : (splitChunks k l).2.isEmpty
  · rw [if_pos h]
    have h2 : (splitChunks k l).2 = [] := List.isEmpty_iff.mp h
    have := splitChunks_join k l.length l le_rfl
    rw [h2] at this
    simpa using this
  · rw [if_neg h]
    have := splitChunks_join k l.length l le_rfl
    simpa using this

theorem chunked_dropLast_full {α : Type} (k : Nat) (l : List α) :
    ∀ c ∈ (chunked k l).dropLast, c.length = k := by
  intro c hc
  unfold chunked at hc
  by_cases h : (splitChunks k l).2.isEmpty
  · rw [if_pos h] at hc
    simp only [List.append_nil] at hc
    exact splitChunks_fst_full k l.length l le_rfl c (List.dropLast_sublist _ |>.mem hc)
  · rw [if_neg h] at hc
    rw [List.dropLast_concat] at hc
    exact splitChunks_fst_full k l.length l le_rfl c hc

theorem chunked_mem_len {α : Type} (k : Nat) (hk : 0 < k) (l : List α) :
    ∀ c ∈ chunked k l, 0 < c.length ∧ c.length ≤ k := by
  intro c hc
  unfold chunked at hc
  by_cases h : (splitChunks k l).2.isEmpty
  · rw [if_pos h] at hc
    simp only [List.append_nil] at hc
    have := splitChunks_fst_full k l.length l le_rfl c hc
    omega
  · rw [if_neg h] at hc
    rcases List.mem_append.mp hc with hc | hc
    · have := splitChunks_fst_full k l.length l le_rfl c hc
      omega
    · simp only [List.mem_singleton] at hc
      subst hc
      have h1 := splitChunks_snd_lt k hk l.length l le_rfl
      have h2 : (splitChunks k l).2 ≠ [] := by
        intro he
        rw [he] at h
        simp at h
      have h3 : 0 < (splitChunks k l).2.length := List.length_pos.mpr h2
      omega

theorem chunked_eq_nil_iff {α : Type} (k : Nat) (hk : 0 < k) (l : List α) :
    chunked k l = [] ↔ l = [] := by
  constructor
  · intro h
    have := chunked_join k l
    rw [h] at this
    simpa using this.symm
  · intro h
    subst h
    unfold chunked
    rw [splitChunks, dif_neg (by simp; omega)]
    simp

theorem sum_map_length_of_full {α : Type} (k : Nat) :
    ∀ (cs : List (List α)), (∀ c ∈ cs, c.length = k) →
      (cs.map List.length).sum = cs.length * k := by
  intro cs
  induction cs with
  | nil => simp
  | cons c cs ih =>
      intro h
      simp only [List.map_cons, List.sum_cons, List.length_cons]
      rw [h c (by simp), ih (fun c hc => h c (by simp [hc]))]
      ring

theorem flatMap_id_length {α : Type} (cs : List (List α)) :
    (cs.flatMap id).length = (cs.map List.length).sum := by
  induction cs with
  | nil => simp
  | cons c cs ih => simp [ih]

/-- The number of chunks of `l` at size `k` is at most `j` when
`l.length ≤ j * k`. -/
theorem chunked_length_le {α : Type} (k j : Nat) (hk : 0 < k) (l : List α)
    (hl : l.length ≤ j * k) : (chunked k l).length ≤ j := by
  have hjoin := splitChunks_join k l.length l le_rfl
  have hfull := splitChunks_fst_full k l.length l le_rfl
  have hlt := splitChunks_snd_lt k hk l.length l le_rfl
  have hlen : (splitChunks k l).1.length * k + (splitChunks k l).2.length = l.length := by
    have h := congrArg List.length hjoin
    simp only [List.length_append] at h
    rw [flatMap_id_length, sum_map_length_of_full k _ hfull] at h
    omega
  have h1 : (splitChunks k l).1.length ≤ j := by
    have hmul : (splitChunks k l).1.length * k ≤ j * k := by omega
    exact Nat.le_of_mul_le_mul_right hmul hk
  unfold chunked
  by_cases h : (splitChunks k l).2.isEmpty
  · rw [if_pos h]
    simpa using h1
  · rw [if_neg h]
    simp only [List.length_append, List.length_singleton]
    have h2 : (splitChunks k l).2 ≠ [] := by
      intro he; rw [he] at h; simp at h
    have h3 : 0 < (splitChunks k l).2.length := List.length_pos.mpr h2
    by_contra hc
    push_neg at hc
    have h4 : (splitChunks k l).1.length = j := by omega
    have h5 : (splitChunks k l).1.length * k = j * k := by rw [h4]
    omega

/-! ## Encoder structure lemmas -/

theorem flushBlockValues_fields (M : Nat) (st : EncState) :
    (flushBlockValues M st).totalValues = st.totalValues ∧
      (flushBlockValues M st).firstValue = st.firstValue ∧
      (flushBlockValues M st).currentValue = st.currentValue ∧
      (flushBlockValues M st).pageBits = st.pageBits ∧
      (flushBlockValues M st).deltas = [] ∨ flushBlockValues M st = st := by
  unfold flushBlockValues
  by_cases h : st.deltas = []
  · rw [if_pos h]
    right; rfl
  · rw [if_neg h]
    left; exact ⟨rfl, rfl, rfl, rfl, rfl⟩

theorem flushBlockValues_currentValue_set (M : Nat) (st : EncState) (v : Int) :
    flushBlockValues M { st with currentValue := v } =
      { flushBlockValues M st with currentValue := v } := by
  unfold flushBlockValues
  by_cases h : st.deltas = [] <;> simp [h]

theorem putOne_eq_pushDelta (M : Nat) (st : EncState) (v : Int) :
    putOne M st v =
      { pushDelta M st (subtractK M v st.currentValue) with currentValue := v } := by
  unfold putOne pushDelta
  dsimp only
  by_cases h : (st.deltas ++ [subtractK M v st.currentValue]).length = blockSizeC
  · rw [if_pos h, if_pos h]
    exact flushBlockValues_currentValue_set M
      { st with deltas := st.deltas ++ [subtractK M v st.currentValue] } v
  · rw [if_neg h, if_neg h]

theorem pushDelta_currentValue_set (M : Nat) (st : EncState) (v d : Int) :
    pushDelta M { st with currentValue := v } d =
      { pushDelta M st d with currentValue := v } := by
  unfold pushDelta
  dsimp only
  by_cases h : (st.deltas ++ [d]).length = blockSizeC
  · rw [if_pos h, if_pos h]
    exact flushBlockValues_currentValue_set M { st with deltas := st.deltas ++ [d] } v
  · rw [if_neg h, if_neg h]

theorem foldl_pushDelta_currentValue_set (M : Nat) (ds : List Int) :
    ∀ (st : EncState) (v : Int),
      ds.foldl (pushDelta M) { st with currentValue := v } =
        { ds.foldl (pushDelta M) st with currentValue := v } := by
  induction ds with
  | nil => intro st v; rfl
  | cons d ds ih =>
      intro st v
      simp only [List.foldl_cons]
      rw [pushDelta_currentValue_set, ih]

theorem flatMap_natToBits_length (w : Nat) (l : List Nat) :
    (l.flatMap (natToBits w)).length = l.length * w := by
  induction l with
  | nil => simp
  | cons a l ih =>
      simp only [List.flatMap_cons, List.length_append, natToBits_length, List.length_cons, ih]
      ring

theorem miniBlockBits_length (M : Nat) (m : Int) (c : List Int)
    (hc : c.length ≤ miniBlockSizeC) :
    (miniBlockBits M m c).length = miniBlockSizeC * miniBlockWidth M m c := by
  unfold miniBlockBits
  rw [flatMap_natToBits_length]
  simp only [List.length_append, List.length_map, List.length_replicate]
  have : c.length + (miniBlockSizeC - c.length) = miniBlockSizeC := by omega
  rw [this]

theorem flatMap_miniBlockBits_dvd (M : Nat) (m : Int) (cs : List (List Int))
    (h : ∀ c ∈ cs, c.length ≤ miniBlockSizeC) :
    8 ∣ (cs.flatMap (miniBlockBits M m)).length := by
  induction cs with
  | nil => simp
  | cons c cs ih =>
      simp only [List.flatMap_cons, List.length_append]
      have h1 : (miniBlockBits M m c).length = miniBlockSizeC * miniBlockWidth M m c :=
        miniBlockBits_length M m c (h c (by simp))
      have h2 := ih (fun c hc => h c (by simp [hc]))
      have h3 : miniBlockSizeC = 32 := by norm_num [miniBlockSizeC, blockSizeC, numMiniBlocksC]
      rw [h1, h3]
      omega

theorem blockWidths_length (M : Nat) (m : Int) (cs : List (List Int))
    (h : cs.length ≤ numMiniBlocksC) :
    (blockWidths M m cs).length = numMiniBlocksC := by
  unfold blockWidths
  simp only [List.length_append, List.length_map, List.length_replicate]
  omega

theorem blockBits_dvd (M : Nat) (ds : List Int) (hds : ds.length ≤ blockSizeC) :
    8 ∣ (blockBits M ds).length := by
  unfold blockBits
  dsimp only
  simp only [List.length_append, bytesToBits_length]
  have h1 : 8 ∣ ((chunked miniBlockSizeC ds).flatMap
      (miniBlockBits M (listMinFrom (2 ^ 63 - 1) ds))).length :=
    flatMap_miniBlockBits_dvd M _ _
      (fun c hc =>
        (chunked_mem_len miniBlockSizeC (by norm_num [miniBlockSizeC, blockSizeC, numMiniBlocksC])
          ds c hc).2)
  omega

theorem flushBlockValues_eq (M : Nat) (st : EncState) (hal : 8 ∣ st.bits.length)
    (hne : st.deltas ≠ []) :
    flushBlockValues M st =
      { st with bits := st.bits ++ blockBits M st.deltas, deltas := [] } := by
  unfold flushBlockValues
  rw [if_neg hne]
  dsimp only
  unfold putAlignedBytes blockBits
  dsimp only
  rw [padToByte_of_dvd _ hal]
  rw [padToByte_of_dvd _ (by
    simp only [List.length_append, bytesToBits_length]
    omega)]
  simp [List.append_assoc]

/-- The delta-push fold flushes exactly the full chunks of the combined
delta list. -/
theorem foldl_pushDelta_eq (M : Nat) :
    ∀ (ds : List Int) (st : EncState),
      st.deltas.length < blockSizeC → 8 ∣ st.bits.length →
      ds.foldl (pushDelta M) st =
        { st with
          bits := st.bits ++
            ((splitChunks blockSizeC (st.deltas ++ ds)).1.flatMap (blockBits M)),
          deltas := (splitChunks blockSizeC (st.deltas ++ ds)).2 } := by
  intro ds
  induction ds with
  | nil =>
      intro st hlt _
      rw [List.append_nil, splitChunks_of_lt _ _ (Or.inl hlt)]
      simp
  | cons d ds ih =>
      intro st hlt hal
      simp only [List.foldl_cons]
      rw [show pushDelta M st d =
        (if (st.deltas ++ [d]).length = blockSizeC then
          flushBlockValues M { st with deltas := st.deltas ++ [d] }
        else { st with deltas := st.deltas ++ [d] }) from rfl]
      by_cases h : (st.deltas ++ [d]).length = blockSizeC
      · rw [if_pos h]
        rw [flushBlockValues_eq M { st with deltas := st.deltas ++ [d] } hal (by simp)]
        dsimp only
        have hrec := ih
          { pageBits := st.pageBits,
            bits := st.bits ++ blockBits M (st.deltas ++ [d]),
            totalValues := st.totalValues, firstValue := st.firstValue,
            currentValue := st.currentValue, deltas := [] }
          (by norm_num [blockSizeC])
          (by dsimp only
              simp only [List.length_append]
              have := blockBits_dvd M (st.deltas ++ [d]) (le_of_eq h)
              omega)
        rw [hrec]
        dsimp only
        have hsplit : splitChunks blockSizeC (st.deltas ++ (d :: ds)) =
            ((st.deltas ++ [d]) :: (splitChunks blockSizeC ds).1,
              (splitChunks blockSizeC ds).2) := by
          rw [show st.deltas ++ (d :: ds) = (st.deltas ++ [d]) ++ ds by simp]
          exact splitChunks_append blockSizeC _ ds (by norm_num [blockSizeC]) h
        rw [hsplit]
        simp [List.append_assoc]
      · rw [if_neg h]
        have hrec := ih { st with deltas := st.deltas ++ [d] }
          (by dsimp only
              simp only [List.length_append, List.length_singleton] at h ⊢
              omega)
          hal
        rw [hrec]
        dsimp only
        rw [show (st.deltas ++ [d]) ++ ds = st.deltas ++ (d :: ds) by simp]

theorem flatMap_blockBits_dvd (M : Nat) (cs : List (List Int))
    (h : ∀ c ∈ cs, c.length ≤ blockSizeC) :
    8 ∣ (cs.flatMap (blockBits M)).length := by
  induction cs with
  | nil => simp
  | cons c cs ih =>
      simp only [List.flatMap_cons, List.length_append]
      have h1 := blockBits_dvd M c (h c (by simp))
      have h2 := ih (fun c hc => h c (by simp [hc]))
      omega

/-- The `put` loop is the delta-push fold plus the `current_value` update. -/
theorem foldl_putOne_eq (M : Nat) (vs : List Int) :
    ∀ (st : EncState),
      vs.foldl (putOne M) st =
        { (deltasOf M st.currentValue vs).foldl (pushDelta M) st with
          currentValue := vs.getLastD st.currentValue } := by
  induction vs with
  | nil => intro st; rfl
  | cons v vs ih =>
      intro st
      simp only [List.foldl_cons, deltasOf]
      rw [putOne_eq_pushDelta, ih]
      dsimp only
      rw [foldl_pushDelta_currentValue_set, List.getLastD_cons]

/-- The state after `put` of a non-empty list into a fresh encoder. -/
theorem encPut_fresh (M : Nat) (v : Int) (vs : List Int) :
    encPut M encInit (v :: vs) =
      { pageBits := [],
        bits := (splitChunks blockSizeC (deltasOf M v vs)).1.flatMap (blockBits M),
        totalValues := vs.length + 1,
        firstValue := v,
        currentValue := vs.getLastD v,
        deltas := (splitChunks blockSizeC (deltasOf M v vs)).2 } := by
  unfold encPut encInit
  dsimp only
  rw [if_pos rfl]
  simp only [Nat.zero_add, List.length_cons]
  rw [foldl_putOne_eq]
  dsimp only
  rw [foldl_pushDelta_eq M (deltasOf M v vs)
    { pageBits := [], bits := [], totalValues := vs.length + 1, firstValue := v,
      currentValue := v, deltas := [] } (by norm_num [blockSizeC]) (by simp)]
  simp

/-- A byte-aligned `put_aligned` write appends the bytes' bits. -/
theorem putAlignedBytes_bytes (a : List Bool) (bs : List Nat) (h : 8 ∣ a.length) :
    putAlignedBytes a bs = a ++ bytesToBits bs := by
  unfold putAlignedBytes
  rw [padToByte_of_dvd _ h]

/-- The page header bits for an encoder with an empty page-header writer. -/
theorem pageHeaderBits_eq (st : EncState) (h : st.pageBits = []) :
    pageHeaderBits st =
      bytesToBits (vlqBytes blockSizeC) ++ bytesToBits (vlqBytes numMiniBlocksC) ++
        bytesToBits (vlqBytes st.totalValues) ++
        bytesToBits (vlqBytes (zigzagEncode st.firstValue)) := by
  unfold pageHeaderBits
  rw [h]
  rw [putAlignedBytes_bytes [] (vlqBytes blockSizeC) (by simp)]
  dsimp only
  rw [List.nil_append]
  rw [putAlignedBytes_bytes (bytesToBits (vlqBytes blockSizeC)) (vlqBytes numMiniBlocksC)
    (by simp [bytesToBits_length])]
  rw [putAlignedBytes_bytes
    (bytesToBits (vlqBytes blockSizeC) ++ bytesToBits (vlqBytes numMiniBlocksC))
    (vlqBytes st.totalValues)
    (by simp only [List.length_append, bytesToBits_length]; omega)]
  rw [putAlignedBytes_bytes
    (bytesToBits (vlqBytes blockSizeC) ++ bytesToBits (vlqBytes numMiniBlocksC) ++
      bytesToBits (vlqBytes st.totalValues))
    (vlqBytes (zigzagEncode st.firstValue))
    (by simp only [List.length_append, bytesToBits_length]; omega)]

/-- The bit stream of the whole encoded buffer for a non-empty input. -/
theorem deltaEncode_bits (M : Nat) (v : Int) (vs : List Int) :
    bytesToBits (deltaEncode M (v :: vs)) =
      bytesToBits (vlqBytes blockSizeC) ++ bytesToBits (vlqBytes numMiniBlocksC) ++
        bytesToBits (vlqBytes (vs.length + 1)) ++
        bytesToBits (vlqBytes (zigzagEncode v)) ++
        ((chunked blockSizeC (deltasOf M v vs)).flatMap (blockBits M)) := by
  unfold deltaEncode
  rw [encPut_fresh]
  set ds := deltasOf M v vs with hds
  have hfull := splitChunks_fst_full blockSizeC ds.length ds le_rfl
  have hBdvd : 8 ∣ ((splitChunks blockSizeC ds).1.flatMap (blockBits M)).length :=
    flatMap_blockBits_dvd M _ (fun c hc => le_of_eq (hfull c hc))
  have hRlt : (splitChunks blockSizeC ds).2.length < blockSizeC :=
    splitChunks_snd_lt blockSizeC (by norm_num [blockSizeC]) ds.length ds le_rfl
  unfold encFlushBuffer
  dsimp only
  -- the final flush appends the remainder block (if any)
  have hflush : flushBlockValues M
      { pageBits := [],
        bits := (splitChunks blockSizeC ds).1.flatMap (blockBits M),
        totalValues := vs.length + 1, firstValue := v,
        currentValue := vs.getLastD v,
        deltas := (splitChunks blockSizeC ds).2 } =
      { pageBits := [],
        bits := (chunked blockSizeC ds).flatMap (blockBits M),
        totalValues := vs.length + 1, firstValue := v,
        currentValue := vs.getLastD v,
        deltas := [] } := by
    by_cases hR : (splitChunks blockSizeC ds).2 = []
    · rw [show flushBlockValues M
          { pageBits := [],
            bits := (splitChunks blockSizeC ds).1.flatMap (blockBits M),
            totalValues := vs.length + 1, firstValue := v,
            currentValue := vs.getLastD v,
            deltas := (splitChunks blockSizeC ds).2 } =
          { pageBits := [],
            bits := (splitChunks blockSizeC ds).1.flatMap (blockBits M),
            totalValues := vs.length + 1, firstValue := v,
            currentValue := vs.getLastD v,
            deltas := (splitChunks blockSizeC ds).2 } by
        unfold flushBlockValues; rw [if_pos hR]]
      unfold chunked
      rw [hR]
      simp
    · rw [flushBlockValues_eq M _ hBdvd hR]
      unfold chunked
      rw [if_neg (by simpa using hR)]
      simp
  rw [hflush]
  rw [pageHeaderBits_eq _ rfl]
  dsimp only
  have hblkdvd : 8 ∣ ((chunked blockSizeC ds).flatMap (blockBits M)).length :=
    flatMap_blockBits_dvd M _
      (fun c hc => (chunked_mem_len blockSizeC (by norm_num [blockSizeC]) ds c hc).2)
  rw [padToByte_of_dvd _ (by simp only [List.length_append, bytesToBits_length]; omega)]
  rw [padToByte_of_dvd _ hblkdvd]
  rw [bytesToBits_append]
  rw [bytesToBits_bitsToBytes _ (by simp only [List.length_append, bytesToBits_length]; omega)]
  rw [bytesToBits_bitsToBytes _ hblkdvd]

/-- The bit stream of the encoded buffer for the empty input. -/
theorem deltaEncode_nil_bits (M : Nat) :
    bytesToBits (deltaEncode M []) =
      bytesToBits (vlqBytes blockSizeC) ++ bytesToBits (vlqBytes numMiniBlocksC) ++
        bytesToBits (vlqBytes 0) ++ bytesToBits (vlqBytes (zigzagEncode 0)) := by
  unfold deltaEncode encPut encFlushBuffer
  dsimp only
  rw [show flushBlockValues M encInit = encInit by unfold flushBlockValues encInit; simp]
  rw [pageHeaderBits_eq encInit rfl]
  unfold encInit
  dsimp only
  rw [padToByte_of_dvd _ (by simp only [List.length_append, bytesToBits_length]; omega)]
  rw [padToByte_of_dvd [] (by simp)]
  rw [show bitsToBytes ([] : List Bool) = [] by rw [bitsToBytes]]
  rw [List.append_nil, bytesToBits_bitsToBytes _
    (by simp only [List.length_append, bytesToBits_length]; omega)]

/-! ## Decoder lemmas -/

theorem convOfModulus_eq (M : Nat) (z : Int) :
    convOfModulus M z = .ok (convPure M z) := rfl

theorem readNBytes_spec (s : List Bool) :
    ∀ (bs : List Nat) (pos : Nat) (rest : List Bool),
      8 ∣ pos → pos ≤ s.length →
      s.drop pos = bytesToBits bs ++ rest → (∀ b ∈ bs, b < 256) →
      readNBytes s bs.length pos = some (bs, pos + 8 * bs.length) := by
  intro bs
  induction bs with
  | nil =>
      intro pos rest _ _ _ _
      simp [readNBytes]
  | cons b bs ih =>
      intro pos rest hal hpos hdrop hlt
      simp only [bytesToBits, List.flatMap_cons, List.append_assoc] at hdrop
      have hbyte : readAligned s pos 1 = some (b, pos + 8) :=
        readAligned_byte s pos b _ hal hpos hdrop (hlt b (by simp))
      have hpos2 : pos + 8 ≤ s.length := by
        have h := congrArg List.length hdrop
        simp only [List.length_drop, List.length_append, natToBits_length] at h
        omega
      have hdrop2 : s.drop (pos + 8) = bytesToBits bs ++ rest := by
        have h8 : s.drop (pos + 8) = (s.drop pos).drop 8 := by rw [List.drop_drop]
        rw [h8, hdrop, List.drop_append_of_le_length (by simp [natToBits_length])]
        simp [natToBits_length, bytesToBits]
      have hrec := ih (pos + 8) rest (by omega) hpos2 hdrop2
        (fun x hx => hlt x (by simp [hx]))
      simp only [List.length_cons, readNBytes, hbyte, hrec]
      exact congrArg some (Prod.ext rfl (by simp; omega))

/-- Splitting a `get` loop into two consecutive runs. -/
theorem decGetLoop_add (conv : Int → Except PErr Int) (s : List Bool) :
    ∀ (a b : Nat) (st : DecState),
      decGetLoop conv s (a + b) st =
        match decGetLoop conv s a st with
        | .error e => .error e
        | .ok (v1, st1) =>
            match decGetLoop conv s b st1 with
            | .error e => .error e
            | .ok (v2, st2) => .ok (v1 ++ v2, st2) := by
  intro a
  induction a with
  | zero =>
      intro b st
      simp only [Nat.zero_add, decGetLoop]
      cases decGetLoop conv s b st with
      | error e => rfl
      | ok r => rfl
  | succ a ih =>
      intro b st
      have hadd : a + 1 + b = (a + b) + 1 := by omega
      rw [hadd]
      simp only [decGetLoop]
      cases hstep : decStep conv s st with
      | error e => simp [except_error_bind]
      | ok r =>
          simp only [except_ok_bind]
          rw [ih b r.2]
          cases h1 : decGetLoop conv s a r.2 with
          | error e => simp [except_error_bind]
          | ok r1 =>
              simp only [except_ok_bind]
              cases h2 : decGetLoop conv s b r1.2 with
              | error e => simp [except_error_bind]
              | ok r2 => simp [except_ok_bind]

/-- Reading a run of `ps.length` packed values inside the current
miniblock. -/
theorem decMiniRun (M : Nat) (s : List Bool) :
    ∀ (ps : List Nat) (st : DecState) (rest : List Bool),
      st.firstValueRead = true →
      ps.length ≤ st.valuesCurrentMiniBlock →
      (∀ p ∈ ps, p < 2 ^ st.deltaBitWidth) →
      st.pos ≤ s.length →
      s.drop st.pos = ps.flatMap (natToBits st.deltaBitWidth) ++ rest →
      decGetLoop (convOfModulus M) s ps.length st =
        .ok ((chainList st.minDelta st.currentValue ps).map (convPure M),
          { st with pos := st.pos + ps.length * st.deltaBitWidth,
                    valuesCurrentMiniBlock := st.valuesCurrentMiniBlock - ps.length,
                    currentValue :=
                      (chainList st.minDelta st.currentValue ps).getLastD
                        st.currentValue }) := by
  intro ps
  induction ps with
  | nil =>
      intro st rest _ _ _ _ _
      simp only [List.length_nil, decGetLoop, chainList, List.map_nil, List.getLastD_nil,
        Nat.zero_mul, Nat.add_zero, Nat.sub_zero]
  | cons p ps ih =>
      intro st rest hfvr hle hbound hpos hdrop
      simp only [List.flatMap_cons, List.append_assoc] at hdrop
      have hread : readBits s st.pos st.deltaBitWidth =
          some (p, st.pos + st.deltaBitWidth) :=
        readBits_exact s st.pos st.deltaBitWidth p _ hpos hdrop (hbound p (by simp))
      have hvcm : ¬ st.valuesCurrentMiniBlock = 0 := by
        simp only [List.length_cons] at hle
        omega
      have hstep : decStep (convOfModulus M) s st =
          .ok (convPure M (chainStep st.minDelta st.currentValue p),
            { st with pos := st.pos + st.deltaBitWidth,
                      currentValue := chainStep st.minDelta st.currentValue p,
                      valuesCurrentMiniBlock := st.valuesCurrentMiniBlock - 1 }) := by
        simp only [decStep, hfvr]
        rw [if_neg (by simp), if_neg hvcm]
        simp only [pure_bind, hread, convOfModulus, except_ok_bind, chainStep]
        rw [hfvr]
      simp only [List.length_cons, decGetLoop, hstep, except_ok_bind]
      have hpos2 : st.pos + st.deltaBitWidth ≤ s.length := by
        have h := congrArg List.length hdrop
        simp only [List.length_drop, List.length_append, natToBits_length] at h
        omega
      have hdrop2 : s.drop (st.pos + st.deltaBitWidth) =
          ps.flatMap (natToBits st.deltaBitWidth) ++ rest := by
        have h8 : s.drop (st.pos + st.deltaBitWidth) =
            (s.drop st.pos).drop st.deltaBitWidth := by rw [List.drop_drop]
        rw [h8, hdrop, List.drop_append_of_le_length (by simp [natToBits_length])]
        simp [natToBits_length]
      have hrec := ih
        { st with pos := st.pos + st.deltaBitWidth,
                  currentValue := chainStep st.minDelta st.currentValue p,
                  valuesCurrentMiniBlock := st.valuesCurrentMiniBlock - 1 }
        rest hfvr (by dsimp only; simp only [List.length_cons] at hle; omega)
        (by dsimp only; exact fun q hq => hbound q (by simp [hq]))
        (by dsimp only; exact hpos2)
        (by dsimp only; exact hdrop2)
      rw [hrec]
      dsimp only
      rw [except_ok_bind]
      simp only [chainList, List.map_cons, List.getLastD_cons]
      exact congrArg Except.ok (Prod.ext rfl (by
        dsimp only
        congr 1
        · ring
        · omega))

/-! ## Delta-chain arithmetic lemmas -/

theorem deltasOf_length (M : Nat) :
    ∀ (l : List Int) (c : Int), (deltasOf M c l).length = l.length := by
  intro l
  induction l with
  | nil => intro c; rfl
  | cons x l ih => intro c; simp only [deltasOf, List.length_cons, ih]

theorem deltasOf_append (M : Nat) :
    ∀ (l1 l2 : List Int) (c : Int),
      deltasOf M c (l1 ++ l2) =
        deltasOf M c l1 ++ deltasOf M (l1.getLastD c) l2 := by
  intro l1
  induction l1 with
  | nil => intro l2 c; simp [deltasOf]
  | cons x l ih =>
      intro l2 c
      simp only [List.cons_append, deltasOf, List.getLastD_cons]
      exact congrArg (List.cons (subtractK M x c)) (ih l2 x)

theorem deltasOf_mem_bounds (M : Nat) (hM : 0 < M) (hE : (M : Int) % 2 = 0) :
    ∀ (l : List Int) (c : Int) (d : Int), d ∈ deltasOf M c l →
      -((M : Int) / 2) ≤ d ∧ d < (M : Int) / 2 := by
  intro l
  induction l with
  | nil => intro c d hd; cases hd
  | cons x l ih =>
      intro c d hd
      simp only [deltasOf, List.mem_cons] at hd
      cases hd with
      | inl h =>
          subst h
          exact wrapS_bounds_even M hM hE (x - c)
      | inr h => exact ih x d h

theorem chainList_append (m : Int) :
    ∀ (ps qs : List Nat) (cur : Int),
      chainList m cur (ps ++ qs) =
        chainList m cur ps ++
          chainList m ((chainList m cur ps).getLastD cur) qs := by
  intro ps
  induction ps with
  | nil => intro qs cur; simp [chainList]
  | cons p ps ih =>
      intro qs cur
      simp only [List.cons_append, chainList, List.getLastD_cons]
      exact congrArg (List.cons (chainStep m cur p)) (ih qs (chainStep m cur p))

theorem chainList_length (m cur : Int) (ps : List Nat) :
    (chainList m cur ps).length = ps.length := by
  induction ps generalizing cur with
  | nil => rfl
  | cons p ps ih => simp only [chainList, List.length_cons, ih]

theorem packedOf_append (M : Nat) (m : Int) (a b : List Int) :
    packedOf M m (a ++ b) = packedOf M m a ++ packedOf M m b := by
  simp [packedOf]

theorem packedOf_length (M : Nat) (m : Int) (c : List Int) :
    (packedOf M m c).length = c.length := by
  simp [packedOf]

theorem packedOf_cons (M : Nat) (m d : Int) (ds : List Int) :
    packedOf M m (d :: ds) = subtractU M d m :: packedOf M m ds := rfl

theorem chunked_of_lt {α : Type} (k : Nat) (l : List α) (h : l.length < k) :
    chunked k l = if l.isEmpty then [] else [l] := by
  unfold chunked
  rw [splitChunks_of_lt k l (Or.inl h)]
  simp

theorem chunked_cons {α : Type} (k : Nat) (hk : 0 < k) (l r : List α)
    (hl : l.length = k) :
    chunked k (l ++ r) = l :: chunked k r := by
  unfold chunked
  rw [splitChunks_append k l r hk hl]
  simp

/-- Chunking the delta stream of `vs` at size `k` yields the per-segment
delta chunks of the `k`-chunking of `vs`. -/
theorem chunked_deltasOf (M k : Nat) (hk : 0 < k) :
    ∀ (n : Nat) (vs : List Int) (c : Int), vs.length ≤ n →
      chunked k (deltasOf M c vs) = dChunks M c (chunked k vs) := by
  intro n
  induction n with
  | zero =>
      intro vs c h
      have hnil : vs = [] := by
        cases vs with
        | nil => rfl
        | cons x l => simp at h
      subst hnil
      simp [deltasOf, chunked, splitChunks_of_lt k [] (Or.inl (by simpa using hk)), dChunks]
  | succ n ih =>
      intro vs c h
      by_cases hlt : vs.length < k
      · have hd : (deltasOf M c vs).length < k := by
          rw [deltasOf_length]; exact hlt
        rw [chunked_of_lt k _ hd, chunked_of_lt k vs hlt]
        cases vs with
        | nil => simp [deltasOf, dChunks]
        | cons x l => simp [dChunks, deltasOf]
      · have hsplit : vs.take k ++ vs.drop k = vs := List.take_append_drop k vs
        have htk : (vs.take k).length = k := by
          rw [List.length_take]; omega
        have hdl : (deltasOf M c (vs.take k)).length = k := by
          rw [deltasOf_length]; exact htk
        conv_lhs => rw [← hsplit]
        conv_rhs => rw [← hsplit]
        rw [deltasOf_append, chunked_cons k hk _ _ hdl, chunked_cons k hk _ _ htk]
        simp only [dChunks]
        rw [ih (vs.drop k) ((vs.take k).getLastD c)
          (by simp only [List.length_drop]; omega)]

/-- A list whose length is an exact multiple of `k` chunks into full
chunks only. -/
theorem chunked_full_len {α : Type} (k j : Nat) (hk : 0 < k) (l : List α)
    (hl : l.length = j * k) :
    (chunked k l).length = j ∧ ∀ c ∈ chunked k l, c.length = k := by
  have hfull := splitChunks_fst_full k l.length l le_rfl
  have hlt := splitChunks_snd_lt k hk l.length l le_rfl
  have hjoin := splitChunks_join k l.length l le_rfl
  have hlen := congrArg List.length hjoin
  rw [List.length_append, flatMap_id_length, sum_map_length_of_full k _ hfull] at hlen
  have ha : (splitChunks k l).1.length ≤ j :=
    Nat.le_of_mul_le_mul_right (by omega) hk
  have hs : (splitChunks k l).2.length = (j - (splitChunks k l).1.length) * k := by
    rw [Nat.sub_mul]
    omega
  have hz : j - (splitChunks k l).1.length = 0 := by
    by_contra hcon
    have h1 : k ≤ (j - (splitChunks k l).1.length) * k := by
      calc k = 1 * k := by omega
      _ ≤ (j - (splitChunks k l).1.length) * k :=
        Nat.mul_le_mul_right k (by omega)
    omega
  have hsnil : (splitChunks k l).2 = [] := by
    rw [hz] at hs
    simp only [Nat.zero_mul] at hs
    exact List.length_eq_zero.mp hs
  have hje : (splitChunks k l).1.length = j := by omega
  constructor
  · unfold chunked
    rw [hsnil]
    simp [hje]
  · intro c hc
    unfold chunked at hc
    rw [hsnil] at hc
    simp only [List.isEmpty_nil, if_true, List.append_nil] at hc
    exact hfull c hc

/-- Width bytes written by the encoder are below 256. -/
theorem blockWidths_lt (M : Nat) (hM : 0 < M) (hMle : M ≤ 2 ^ 64) (m : Int)
    (cs : List (List Int)) :
    ∀ b ∈ blockWidths M m cs, b < 256 := by
  intro b hb
  unfold blockWidths at hb
  rw [List.mem_append] at hb
  cases hb with
  | inl h =>
      rw [List.mem_map] at h
      obtain ⟨c, _, hc⟩ := h
      subst hc
      unfold miniBlockWidth numRequiredBits
      have h1 : subtractU M (listMaxFrom (-(2 ^ 63)) c) m < 2 ^ 64 :=
        lt_of_lt_of_le (toU_lt M hM _) hMle
      have h2 := Nat.size_le.mpr h1
      omega
  | inr h =>
      rw [List.mem_replicate] at h
      omega

/-- Every packed delta of a miniblock fits in the miniblock's bit width. -/
theorem packedOf_lt_width (M : Nat) (hM0 : 0 < M) (hME : (M : Int) % 2 = 0)
    (m : Int) (c : List Int)
    (hm1 : -((M : Int) / 2) ≤ m) (hm2 : m < (M : Int) / 2)
    (hc : ∀ d ∈ c, -((M : Int) / 2) ≤ d ∧ d < (M : Int) / 2)
    (hmd : ∀ d ∈ c, m ≤ d) :
    ∀ q ∈ packedOf M m c, q < 2 ^ miniBlockWidth M m c := by
  intro q hq
  unfold packedOf at hq
  rw [List.mem_map] at hq
  obtain ⟨d, hd, hqd⟩ := hq
  subst hqd
  have hdb := hc d hd
  have hdm := hmd d hd
  have hmax1 : d ≤ listMaxFrom (-(2 ^ 63)) c := listMaxFrom_ge _ c d hd
  have hmax2 : listMaxFrom (-(2 ^ 63)) c < (M : Int) / 2 :=
    listMaxFrom_lt _ _ c (by
      have : (0 : Int) ≤ (M : Int) / 2 := by positivity
      omega) (fun x hx => (hc x hx).2)
  have hmax3 : -((M : Int) / 2) ≤ listMaxFrom (-(2 ^ 63)) c := le_trans hdb.1 hmax1
  have he1 : ((subtractU M d m : Nat) : Int) = d - m :=
    subtractU_exact M hM0 hME d m hdb.1 hdb.2 hm1 hm2 hdm
  have he2 : ((subtractU M (listMaxFrom (-(2 ^ 63)) c) m : Nat) : Int) =
      listMaxFrom (-(2 ^ 63)) c - m :=
    subtractU_exact M hM0 hME _ m hmax3 hmax2 hm1 hm2 (le_trans hdm hmax1)
  have hle : subtractU M d m ≤ subtractU M (listMaxFrom (-(2 ^ 63)) c) m := by
    have : ((subtractU M d m : Nat) : Int) ≤
        ((subtractU M (listMaxFrom (-(2 ^ 63)) c) m : Nat) : Int) := by
      rw [he1, he2]; omega
    exact_mod_cast this
  have hsz : subtractU M (listMaxFrom (-(2 ^ 63)) c) m <
      2 ^ (subtractU M (listMaxFrom (-(2 ^ 63)) c) m).size :=
    Nat.lt_size_self _
  unfold miniBlockWidth numRequiredBits
  omega

/-- Pure value conversion agrees with the original value when the
accumulator is congruent to it modulo `M`. -/
theorem convPure_eq (M : Nat) (hM0 : 0 < M) (hME : (M : Int) % 2 = 0)
    (a x : Int) (hmod : a % (M : Int) = x % (M : Int))
    (ha1 : -(2 ^ 63) ≤ a) (ha2 : a < 2 ^ 63)
    (hx1 : -((M : Int) / 2) ≤ x) (hx2 : x < (M : Int) / 2) :
    convPure M a = x := by
  unfold convPure
  by_cases h : M = 2 ^ 64
  · rw [if_pos h]
    subst h
    refine eq_of_emod_eq_of_bounds (2 ^ 64) (by norm_num) a x hmod ?_ ?_ ?_ ?_
    · push_cast; omega
    · push_cast; omega
    · have h1 : ((2 ^ 64 : Nat) : Int) / 2 = 2 ^ 63 := by push_cast
      omega
    · have h1 : ((2 ^ 64 : Nat) : Int) / 2 = 2 ^ 63 := by push_cast
      omega
  · rw [if_neg h]
    have hb := wrapS_bounds_even M hM0 hME a
    refine eq_of_emod_eq_of_bounds M hM0 _ x ?_ hb.1 (by omega) hx1 (by omega)
    rw [wrapS_emod]
    exact hmod

/-- The decoder's accumulation chain over one block's packed deltas
reconstructs the original value segment: the produced values equal the
segment, and the final accumulator stays congruent to the segment's last
value modulo `M` within the `i64` range. -/
theorem chainBlockAux (M : Nat) (hM0 : 0 < M) (hME : (M : Int) % 2 = 0)
    (hMd : (M : Int) ∣ 2 ^ 64) (m : Int)
    (hm1 : -((M : Int) / 2) ≤ m) (hm2 : m < (M : Int) / 2) :
    ∀ (seg : List Int) (xprev cur : Int),
      cur % (M : Int) = xprev % (M : Int) →
      -(2 ^ 63) ≤ cur → cur < 2 ^ 63 →
      (∀ x ∈ seg, -((M : Int) / 2) ≤ x ∧ x < (M : Int) / 2) →
      (∀ d ∈ deltasOf M xprev seg, m ≤ d) →
      (chainList m cur (packedOf M m (deltasOf M xprev seg))).map (convPure M) = seg ∧
      ((chainList m cur (packedOf M m (deltasOf M xprev seg))).getLastD cur) % (M : Int)
        = (seg.getLastD xprev) % (M : Int) ∧
      -(2 ^ 63) ≤ (chainList m cur (packedOf M m (deltasOf M xprev seg))).getLastD cur ∧
      (chainList m cur (packedOf M m (deltasOf M xprev seg))).getLastD cur < 2 ^ 63 := by
  intro seg
  induction seg with
  | nil =>
      intro xprev cur hmod h1 h2 _ _
      simp only [deltasOf, packedOf, List.map_nil, chainList, List.getLastD_nil]
      exact ⟨trivial, hmod, h1, h2⟩
  | cons x seg ih =>
      intro xprev cur hmod h1 h2 hx hm
      simp only [deltasOf, packedOf_cons, List.map_cons, chainList] at hm ⊢
      have hxb := hx x (by simp)
      have hd0b := wrapS_bounds_even M hM0 hME (x - xprev)
      have hd0m : m ≤ subtractK M x xprev := hm _ (by simp [subtractK])
      have hp0 : ((subtractU M (subtractK M x xprev) m : Nat) : Int) =
          subtractK M x xprev - m := by
        unfold subtractK at hd0b hd0m ⊢
        exact subtractU_exact M hM0 hME _ m hd0b.1 hd0b.2 hm1 hm2 hd0m
      set p0 : Nat := subtractU M (subtractK M x xprev) m with hp0def
      set cur1 : Int := chainStep m cur p0 with hcur1def
      have hcur1b : -(2 ^ 63) ≤ cur1 ∧ cur1 < 2 ^ 63 := by
        have hb := wrapS_bounds_even (2 ^ 64) (by norm_num) (by push_cast)
          (wrapS (2 ^ 64) (cur + m) + (p0 : Int))
        have hhalf : ((2 ^ 64 : Nat) : Int) / 2 = 2 ^ 63 := by push_cast
        rw [hcur1def]
        unfold chainStep
        omega
      have hcur1mod : cur1 % (M : Int) = x % (M : Int) := by
        have hstep1 : cur1 % ((2 ^ 64 : Nat) : Int) =
            (wrapS (2 ^ 64) (cur + m) + (p0 : Int)) % ((2 ^ 64 : Nat) : Int) := by
          rw [hcur1def]; unfold chainStep; exact wrapS_emod _ _
        have hstep2 : (wrapS (2 ^ 64) (cur + m) + (p0 : Int)) % ((2 ^ 64 : Nat) : Int) =
            (cur + m + (p0 : Int)) % ((2 ^ 64 : Nat) : Int) := by
          rw [Int.add_emod, wrapS_emod, ← Int.add_emod]
        have hMd2 : (M : Int) ∣ ((2 ^ 64 : Nat) : Int) := by push_cast; exact_mod_cast hMd
        have hdown : cur1 % (M : Int) = (cur + m + (p0 : Int)) % (M : Int) := by
          rw [← Int.emod_emod_of_dvd cur1 hMd2, hstep1, hstep2,
            Int.emod_emod_of_dvd _ hMd2]
        rw [hdown, hp0]
        have hsk : subtractK M x xprev % (M : Int) = (x - xprev) % (M : Int) := by
          unfold subtractK; exact wrapS_emod _ _
        calc (cur + m + (subtractK M x xprev - m)) % (M : Int)
            = (cur + subtractK M x xprev) % (M : Int) := by ring_nf
          _ = (cur % (M : Int) + subtractK M x xprev % (M : Int)) % (M : Int) := by
              rw [Int.add_emod]
          _ = (xprev % (M : Int) + (x - xprev) % (M : Int)) % (M : Int) := by
              rw [hmod, hsk]
          _ = (xprev + (x - xprev)) % (M : Int) := by rw [← Int.add_emod]
          _ = x % (M : Int) := by ring_nf
      have hconv : convPure M cur1 = x :=
        convPure_eq M hM0 hME cur1 x hcur1mod hcur1b.1 hcur1b.2 hxb.1 hxb.2
      have hrec := ih x cur1 hcur1mod hcur1b.1 hcur1b.2
        (fun y hy => hx y (by simp [hy])) (fun d hd => hm d (by simp [hd]))
      refine ⟨?_, ?_, ?_, ?_⟩
      · rw [hconv]
        exact congrArg (List.cons x) hrec.1
      · simp only [List.getLastD_cons]
        exact hrec.2.1
      · simp only [List.getLastD_cons]
        exact hrec.2.2.1
      · simp only [List.getLastD_cons]
        exact hrec.2.2.2

/-- Reading a whole miniblock (or a final partial one) that starts at a
miniblock boundary with a following width available in the current block's
width array. -/
theorem decMiniAdvance (M : Nat) (s : List Bool) (p : Nat) (ps : List Nat)
    (st : DecState) (rest : List Bool) (w : Nat)
    (hfvr : st.firstValueRead = true)
    (hvcm : st.valuesCurrentMiniBlock = 0)
    (hidx : st.miniBlockIdx + 1 < st.deltaBitWidths.length)
    (hw : st.deltaBitWidths.get ⟨st.miniBlockIdx + 1, hidx⟩ = w)
    (hlen : ps.length + 1 ≤ st.valuesPerMiniBlock)
    (hbound : ∀ q ∈ p :: ps, q < 2 ^ w)
    (hpos : st.pos ≤ s.length)
    (hdrop : s.drop st.pos = (p :: ps).flatMap (natToBits w) ++ rest) :
    decGetLoop (convOfModulus M) s (ps.length + 1) st =
      .ok ((chainList st.minDelta st.currentValue (p :: ps)).map (convPure M),
        { st with pos := st.pos + (ps.length + 1) * w,
                  miniBlockIdx := st.miniBlockIdx + 1,
                  deltaBitWidth := w,
                  valuesCurrentMiniBlock := st.valuesPerMiniBlock - (ps.length + 1),
                  currentValue :=
                    (chainList st.minDelta st.currentValue (p :: ps)).getLastD
                      st.currentValue }) := by
  simp only [List.flatMap_cons, List.append_assoc] at hdrop
  have hread : readBits s st.pos w = some (p, st.pos + w) :=
    readBits_exact s st.pos w p _ hpos hdrop (hbound p (by simp))
  have hstep : decStep (convOfModulus M) s st =
      .ok (convPure M (chainStep st.minDelta st.currentValue p),
        { st with pos := st.pos + w,
                  miniBlockIdx := st.miniBlockIdx + 1,
                  deltaBitWidth := w,
                  currentValue := chainStep st.minDelta st.currentValue p,
                  valuesCurrentMiniBlock := st.valuesPerMiniBlock - 1 }) := by
    simp only [decStep, hfvr]
    rw [if_neg (by simp), if_pos hvcm, dif_pos hidx]
    simp only [pure_bind]
    rw [hw, hread]
    simp only [convOfModulus, except_ok_bind, chainStep]
  simp only [decGetLoop, hstep, except_ok_bind]
  have hpos2 : st.pos + w ≤ s.length := by
    have h := congrArg List.length hdrop
    simp only [List.length_drop, List.length_append, natToBits_length] at h
    omega
  have hdrop2 : s.drop (st.pos + w) = ps.flatMap (natToBits w) ++ rest := by
    have h8 : s.drop (st.pos + w) = (s.drop st.pos).drop w := by rw [List.drop_drop]
    rw [h8, hdrop, List.drop_append_of_le_length (by simp [natToBits_length])]
    simp [natToBits_length]
  have hrec := decMiniRun M s ps
    { st with pos := st.pos + w,
              miniBlockIdx := st.miniBlockIdx + 1,
              deltaBitWidth := w,
              currentValue := chainStep st.minDelta st.currentValue p,
              valuesCurrentMiniBlock := st.valuesPerMiniBlock - 1 }
    rest hfvr (by dsimp only; omega)
    (by dsimp only; exact fun q hq => hbound q (by simp [hq]))
    (by dsimp only; exact hpos2)
    (by dsimp only; exact hdrop2)
  rw [hrec]
  dsimp only
  rw [except_ok_bind]
  simp only [chainList, List.map_cons, List.getLastD_cons]
  exact congrArg Except.ok (Prod.ext rfl (by
    dsimp only
    congr 1
    · ring
    · omega))

theorem drop_append_exact {α : Type} (l r : List α) (n : Nat) (h : l.length = n) :
    (l ++ r).drop n = r := by
  have h2 : (l ++ r).drop n = (l ++ r).drop l.length := by rw [h]
  rw [h2, List.drop_append_of_le_length (le_refl _), List.drop_length,
    List.nil_append]

theorem getLastD_append {α : Type} (l1 l2 : List α) (d : α) :
    (l1 ++ l2).getLastD d = l2.getLastD (l1.getLastD d) := by
  induction l1 generalizing d with
  | nil => rfl
  | cons a l ih => simp only [List.cons_append, List.getLastD_cons, ih]

/-- Composing two successful `get` loop runs. -/
theorem decGetLoop_add_ok (conv : Int → Except PErr Int) (s : List Bool)
    (a b : Nat) (st st1 st2 : DecState) (v1 v2 : List Int)
    (h1 : decGetLoop conv s a st = .ok (v1, st1))
    (h2 : decGetLoop conv s b st1 = .ok (v2, st2)) :
    decGetLoop conv s (a + b) st = .ok (v1 ++ v2, st2) := by
  rw [decGetLoop_add, h1]
  dsimp only
  rw [h2]

/-- Reading a sequence of miniblocks whose widths occupy consecutive
entries of the current block's width array, all full except possibly the
last. -/
theorem decChunksSeq (M : Nat) (s : List Bool) :
    ∀ (cws : List (List Nat × Nat)) (st : DecState) (rest : List Bool)
      (wsTail : List Nat),
      st.firstValueRead = true →
      (cws ≠ [] → st.valuesCurrentMiniBlock = 0) →
      st.deltaBitWidths.drop (st.miniBlockIdx + 1) = cws.map Prod.snd ++ wsTail →
      (∀ cw ∈ cws, 0 < cw.1.length ∧ cw.1.length ≤ st.valuesPerMiniBlock) →
      (∀ cw ∈ cws.dropLast, cw.1.length = st.valuesPerMiniBlock) →
      (∀ cw ∈ cws, ∀ q ∈ cw.1, q < 2 ^ cw.2) →
      st.pos ≤ s.length →
      s.drop st.pos =
        (cws.flatMap fun cw => cw.1.flatMap (natToBits cw.2)) ++ rest →
      ∃ stF,
        decGetLoop (convOfModulus M) s (cws.flatMap Prod.fst).length st =
          .ok ((chainList st.minDelta st.currentValue
            (cws.flatMap Prod.fst)).map (convPure M), stF) ∧
        stF.numValues = st.numValues ∧ stF.firstValueRead = true ∧
        stF.valuesPerMiniBlock = st.valuesPerMiniBlock ∧
        stF.numMiniBlocks = st.numMiniBlocks ∧
        ((∀ cw ∈ cws, cw.1.length = st.valuesPerMiniBlock) →
          stF = { st with
            pos := st.pos +
              ((cws.flatMap fun cw => cw.1.flatMap (natToBits cw.2))).length,
            miniBlockIdx := st.miniBlockIdx + cws.length,
            valuesCurrentMiniBlock :=
              if cws.isEmpty then st.valuesCurrentMiniBlock else 0,
            deltaBitWidth := (cws.map Prod.snd).getLastD st.deltaBitWidth,
            currentValue := (chainList st.minDelta st.currentValue
              (cws.flatMap Prod.fst)).getLastD st.currentValue }) := by
  intro cws
  induction cws with
  | nil =>
      intro st rest wsTail hfvr _ _ _ _ _ _ _
      exact ⟨st, rfl, rfl, hfvr, rfl, rfl, fun _ => rfl⟩
  | cons cw cws2 ih =>
      intro st rest wsTail hfvr hvcm hwidths hlen hfull hbound hpos hdrop
      obtain ⟨c, w⟩ := cw
      have hhead := hlen (c, w) (by simp)
      obtain ⟨p, ps, rfl⟩ : ∃ p ps, c = p :: ps :=
        List.exists_cons_of_ne_nil (List.length_pos.mp hhead.1)
      have hwlen := congrArg List.length hwidths
      simp only [List.length_drop, List.length_append, List.length_map,
        List.length_cons] at hwlen
      have hidx : st.miniBlockIdx + 1 < st.deltaBitWidths.length := by omega
      have hcons := List.drop_eq_getElem_cons hidx
      rw [hcons] at hwidths
      simp only [List.map_cons, List.cons_append, List.cons.injEq] at hwidths
      have hget : st.deltaBitWidths.get ⟨st.miniBlockIdx + 1, hidx⟩ = w := by
        rw [List.get_eq_getElem]
        exact hwidths.1
      have hdrop2w : st.deltaBitWidths.drop (st.miniBlockIdx + 1 + 1) =
          cws2.map Prod.snd ++ wsTail := hwidths.2
      have hvcm0 : st.valuesCurrentMiniBlock = 0 := hvcm (by simp)
      have hhead2 : ps.length + 1 ≤ st.valuesPerMiniBlock := by
        have := hhead.2
        simp only [List.length_cons] at this
        exact this
      have hboundhead : ∀ q ∈ p :: ps, q < 2 ^ w := hbound (p :: ps, w) (by simp)
      have hdropsplit : s.drop st.pos =
          (p :: ps).flatMap (natToBits w) ++
            ((cws2.flatMap fun cw => cw.1.flatMap (natToBits cw.2)) ++ rest) := by
        rw [hdrop]
        simp only [List.flatMap_cons, List.append_assoc]
      have hloop1 := decMiniAdvance M s p ps st
        ((cws2.flatMap fun cw => cw.1.flatMap (natToBits cw.2)) ++ rest) w
        hfvr hvcm0 hidx hget hhead2 hboundhead hpos hdropsplit
      have hlendrop := congrArg List.length hdropsplit
      simp only [List.length_drop, List.length_append, flatMap_natToBits_length,
        List.length_cons] at hlendrop
      have hpos1 : st.pos + (ps.length + 1) * w ≤ s.length := by omega
      have hlen1 : ((p :: ps).flatMap (natToBits w)).length = (ps.length + 1) * w := by
        rw [flatMap_natToBits_length, List.length_cons]
      have hdropnext : s.drop (st.pos + (ps.length + 1) * w) =
          (cws2.flatMap fun cw => cw.1.flatMap (natToBits cw.2)) ++ rest := by
        have h8 : s.drop (st.pos + (ps.length + 1) * w) =
            (s.drop st.pos).drop ((ps.length + 1) * w) := by rw [List.drop_drop]
        rw [h8, hdropsplit, ← hlen1, List.drop_append_of_le_length (le_refl _),
          List.drop_length, List.nil_append]
      have hrec := ih
        { st with pos := st.pos + (ps.length + 1) * w,
                  miniBlockIdx := st.miniBlockIdx + 1,
                  deltaBitWidth := w,
                  valuesCurrentMiniBlock := st.valuesPerMiniBlock - (ps.length + 1),
                  currentValue :=
                    (chainList st.minDelta st.currentValue (p :: ps)).getLastD
                      st.currentValue }
        rest wsTail
        (by dsimp only; exact hfvr)
        (by
          dsimp only
          intro hne
          have hfl := hfull (p :: ps, w) (by
            rw [List.dropLast_cons_of_ne_nil hne]
            simp)
          simp only [List.length_cons] at hfl
          omega)
        (by dsimp only; exact hdrop2w)
        (by dsimp only; exact fun cw hcw => hlen cw (by simp [hcw]))
        (by
          dsimp only
          intro cw hcw
          have hne : cws2 ≠ [] := by
            intro hnil
            rw [hnil] at hcw
            simp at hcw
          exact hfull cw (by
            rw [List.dropLast_cons_of_ne_nil hne]
            simp [hcw]))
        (fun cw hcw => hbound cw (by simp [hcw]))
        hpos1
        hdropnext
      obtain ⟨stF, hloopF, hnvF, hfvrF, hvpmF, hnmbF, hexactF⟩ := hrec
      refine ⟨stF, ?_, ?_, hfvrF, ?_, ?_, ?_⟩
      · have hcomb := decGetLoop_add_ok (convOfModulus M) s (ps.length + 1)
          (cws2.flatMap Prod.fst).length st _ stF _ _ hloop1 hloopF
        rw [show (((p :: ps, w) :: cws2).flatMap Prod.fst).length =
            (ps.length + 1) + (cws2.flatMap Prod.fst).length by simp; omega]
        rw [hcomb]
        simp only [List.flatMap_cons, chainList_append, List.map_append]
      · exact hnvF
      · exact hvpmF
      · exact hnmbF
      · intro hallfull
        have hheadfull : ps.length + 1 = st.valuesPerMiniBlock := by
          have := hallfull (p :: ps, w) (by simp)
          simp only [List.length_cons] at this
          exact this
        have hexact := hexactF (by
          dsimp only
          intro cw hcw
          exact hallfull cw (by simp [hcw]))
        have hexact2 : stF = { st with pos := st.pos + (ps.length + 1) * w + (cws2.flatMap fun cw => cw.1.flatMap (natToBits cw.2)).length, miniBlockIdx := st.miniBlockIdx + 1 + cws2.length, valuesCurrentMiniBlock := if cws2.isEmpty then st.valuesPerMiniBlock - (ps.length + 1) else 0, deltaBitWidth := (cws2.map Prod.snd).getLastD w, currentValue := (chainList st.minDelta ((chainList st.minDelta st.currentValue (p :: ps)).getLastD st.currentValue) (cws2.flatMap Prod.fst)).getLastD ((chainList st.minDelta st.currentValue (p :: ps)).getLastD st.currentValue) } := hexact
        rw [hexact2]
        congr 1
        · dsimp only
          rw [List.flatMap_cons]
          dsimp only
          rw [List.length_append, hlen1]
          omega
        · dsimp only
          cases hcc : cws2.isEmpty
          · rw [if_neg Bool.false_ne_true, if_neg (by simp)]
          · rw [if_pos rfl, if_neg (by simp)]
            omega
        · dsimp only
          simp only [List.length_cons]
          omega
        · dsimp only
          simp only [List.map_cons, List.getLastD_cons]
        · dsimp only
          simp only [List.flatMap_cons, chainList_append, getLastD_append,
            List.getLastD_cons]

/-- Reading a block header (zigzag-VLQ `min_delta` plus the width bytes)
together with the first miniblock's values: the `get` iteration that
crosses a block boundary calls `init_block` and then reads packed values
at the first width. -/
theorem decBlockInit (M : Nat) (s : List Bool) (m : Int) (ws : List Nat)
    (p : Nat) (ps : List Nat) (st : DecState) (rest : List Bool) (w : Nat)
    (hfvr : st.firstValueRead = true)
    (hvcm : st.valuesCurrentMiniBlock = 0)
    (hilen : st.deltaBitWidths.length ≤ st.miniBlockIdx + 1)
    (hal : 8 ∣ st.pos)
    (hpos : st.pos ≤ s.length)
    (hws : ws.length = st.numMiniBlocks)
    (hwslt : ∀ b ∈ ws, b < 256)
    (hwhead : ws.headD 0 = w)
    (hlen : ps.length + 1 ≤ st.valuesPerMiniBlock)
    (hbound : ∀ q ∈ p :: ps, q < 2 ^ w)
    (hdrop : s.drop st.pos =
      bytesToBits (vlqBytes (zigzagEncode m)) ++
        (bytesToBits ws ++ ((p :: ps).flatMap (natToBits w) ++ rest))) :
    decGetLoop (convOfModulus M) s (ps.length + 1) st =
      .ok ((chainList m st.currentValue (p :: ps)).map (convPure M),
        { st with
            pos := st.pos + 8 * (vlqBytes (zigzagEncode m)).length + 8 * ws.length
              + (ps.length + 1) * w,
            minDelta := m,
            deltaBitWidths := ws,
            miniBlockIdx := 0,
            deltaBitWidth := w,
            valuesCurrentMiniBlock := st.valuesPerMiniBlock - (ps.length + 1),
            currentValue := (chainList m st.currentValue (p :: ps)).getLastD
              st.currentValue }) := by
  have hlens := congrArg List.length hdrop
  simp only [List.length_drop, List.length_append, bytesToBits_length,
    flatMap_natToBits_length, List.length_cons] at hlens
  have hzig : readZigzagVlq s st.pos =
      some (m, st.pos + 8 * (vlqBytes (zigzagEncode m)).length) :=
    readZigzagVlq_spec s m st.pos _ hdrop hal
  have hal1 : 8 ∣ st.pos + 8 * (vlqBytes (zigzagEncode m)).length := by omega
  have hpos1 : st.pos + 8 * (vlqBytes (zigzagEncode m)).length ≤ s.length := by omega
  have hdrop1 : s.drop (st.pos + 8 * (vlqBytes (zigzagEncode m)).length) =
      bytesToBits ws ++ ((p :: ps).flatMap (natToBits w) ++ rest) := by
    have h8 : s.drop (st.pos + 8 * (vlqBytes (zigzagEncode m)).length) =
        (s.drop st.pos).drop (8 * (vlqBytes (zigzagEncode m)).length) := by
      rw [List.drop_drop]
    rw [h8, hdrop, ← bytesToBits_length,
      List.drop_append_of_le_length (le_refl _), List.drop_length, List.nil_append]
  have hrdN : readNBytes s ws.length (st.pos + 8 * (vlqBytes (zigzagEncode m)).length) =
      some (ws, st.pos + 8 * (vlqBytes (zigzagEncode m)).length + 8 * ws.length) :=
    readNBytes_spec s ws _ _ hal1 hpos1 hdrop1 hwslt
  have hw1 : w ≤ (ps.length + 1) * w := Nat.le_mul_of_pos_left w (by omega)
  have hpos2 : st.pos + 8 * (vlqBytes (zigzagEncode m)).length + 8 * ws.length +
      w ≤ s.length := by omega
  have hdrop2 : s.drop (st.pos + 8 * (vlqBytes (zigzagEncode m)).length + 8 * ws.length) =
      natToBits w p ++ (ps.flatMap (natToBits w) ++ rest) := by
    have h8 : s.drop (st.pos + 8 * (vlqBytes (zigzagEncode m)).length + 8 * ws.length) =
        (s.drop (st.pos + 8 * (vlqBytes (zigzagEncode m)).length)).drop
          (8 * ws.length) := by
      rw [List.drop_drop]
    rw [h8, hdrop1, ← bytesToBits_length,
      List.drop_append_of_le_length (le_refl _), List.drop_length, List.nil_append,
      List.flatMap_cons, List.append_assoc]
  have hread : readBits s
      (st.pos + 8 * (vlqBytes (zigzagEncode m)).length + 8 * ws.length) w =
      some (p, st.pos + 8 * (vlqBytes (zigzagEncode m)).length + 8 * ws.length + w) :=
    readBits_exact s _ w p _ (by omega) hdrop2 (hbound p (by simp))
  have hstep : decStep (convOfModulus M) s st =
      .ok (convPure M (chainStep m st.currentValue p),
        { st with
            pos := st.pos + 8 * (vlqBytes (zigzagEncode m)).length + 8 * ws.length + w,
            minDelta := m,
            deltaBitWidths := ws,
            miniBlockIdx := 0,
            deltaBitWidth := w,
            valuesCurrentMiniBlock := st.valuesPerMiniBlock - 1,
            currentValue := chainStep m st.currentValue p }) := by
    simp only [decStep, hfvr]
    rw [if_neg (by simp), if_pos hvcm, dif_neg (by omega)]
    simp only [initBlock]
    rw [hzig]
    dsimp only
    rw [← hws, hrdN]
    dsimp only
    simp only [except_ok_bind, pure_bind]
    rw [hwhead, hread]
    simp only [convOfModulus, except_ok_bind, chainStep]
  simp only [decGetLoop, hstep, except_ok_bind]
  have hrec := decMiniRun M s ps
    { st with
        pos := st.pos + 8 * (vlqBytes (zigzagEncode m)).length + 8 * ws.length + w,
        minDelta := m,
        deltaBitWidths := ws,
        miniBlockIdx := 0,
        deltaBitWidth := w,
        valuesCurrentMiniBlock := st.valuesPerMiniBlock - 1,
        currentValue := chainStep m st.currentValue p }
    rest hfvr (by dsimp only; omega)
    (by dsimp only; exact fun q hq => hbound q (by simp [hq]))
    (by dsimp only; omega)
    (by
      dsimp only
      have h8 : s.drop (st.pos + 8 * (vlqBytes (zigzagEncode m)).length +
          8 * ws.length + w) =
          (s.drop (st.pos + 8 * (vlqBytes (zigzagEncode m)).length + 8 * ws.length)).drop
            w := by
        rw [List.drop_drop]
      rw [h8, hdrop2, drop_append_exact _ _ _ (natToBits_length w p)])
  rw [hrec]
  dsimp only
  rw [except_ok_bind]
  simp only [chainList, List.map_cons, List.getLastD_cons]
  exact congrArg Except.ok (Prod.ext rfl (by
    dsimp only
    congr 1
    · ring
    · omega))

/-- A miniblock's bit payload is its packed values followed by the
zero padding. -/
theorem miniBlockBits_eq (M : Nat) (m : Int) (c : List Int) :
    miniBlockBits M m c =
      (packedOf M m c).flatMap (natToBits (miniBlockWidth M m c)) ++
        (List.replicate (miniBlockSizeC - c.length) 0).flatMap
          (natToBits (miniBlockWidth M m c)) := by
  unfold miniBlockBits packedOf
  dsimp only
  rw [List.flatMap_append]

theorem miniBlockBits_full (M : Nat) (m : Int) (c : List Int)
    (hc : c.length = miniBlockSizeC) :
    miniBlockBits M m c =
      (packedOf M m c).flatMap (natToBits (miniBlockWidth M m c)) := by
  rw [miniBlockBits_eq, hc]
  simp

/-- The concatenated miniblock payloads are the concatenated packed values
followed by a single trailing pad. -/
theorem flatMap_mbb_decomp (M : Nat) (m : Int) :
    ∀ (cs : List (List Int)),
      (∀ c ∈ cs.dropLast, c.length = miniBlockSizeC) →
      ∃ pad, cs.flatMap (miniBlockBits M m) =
        (cs.flatMap fun c =>
          (packedOf M m c).flatMap (natToBits (miniBlockWidth M m c))) ++ pad := by
  intro cs
  induction cs with
  | nil => exact fun _ => ⟨[], rfl⟩
  | cons c cs2 ih =>
      intro hfull
      by_cases hcs : cs2 = []
      · subst hcs
        refine ⟨(List.replicate (miniBlockSizeC - c.length) 0).flatMap
          (natToBits (miniBlockWidth M m c)), ?_⟩
        simp only [List.flatMap_cons, List.flatMap_nil, List.append_nil]
        exact miniBlockBits_eq M m c
      · have hc : c.length = miniBlockSizeC := hfull c (by
          rw [List.dropLast_cons_of_ne_nil hcs]; simp)
        have hfull2 : ∀ x ∈ cs2.dropLast, x.length = miniBlockSizeC :=
          fun x hx => hfull x (by
            rw [List.dropLast_cons_of_ne_nil hcs]; simp [hx])
        obtain ⟨pad, hpad⟩ := ih hfull2
        exact ⟨pad, by
          simp only [List.flatMap_cons, miniBlockBits_full M m c hc, hpad,
            List.append_assoc]⟩

theorem packedOf_flatMap (M : Nat) (m : Int) (cs : List (List Int)) :
    packedOf M m (cs.flatMap id) = cs.flatMap fun c => packedOf M m c := by
  unfold packedOf
  simp [List.map_flatMap, List.flatMap_def]

theorem flatMap_packedOf_length (M : Nat) (m : Int) (cs : List (List Int)) :
    (cs.flatMap fun c => packedOf M m c).length = (cs.flatMap id).length := by
  induction cs with
  | nil => rfl
  | cons c cs ih =>
      simp only [List.flatMap_cons, List.length_append, packedOf_length, ih, id]

/-- Decoding one whole block (header plus up to four miniblocks): the
`get` loop consumes `ds.length` values, yielding the accumulation chain
over all packed deltas, and when the block is full the final state sits
exactly at the end of the block's bits, ready for the next header. -/
theorem decBlockStep (M : Nat) (hM0 : 0 < M) (hME : (M : Int) % 2 = 0)
    (hMle : M ≤ 2 ^ 64) (s : List Bool) (ds : List Int) (st : DecState)
    (rest : List Bool)
    (hne : ds ≠ []) (hlen : ds.length ≤ 128)
    (hdb : ∀ d ∈ ds, -((M : Int) / 2) ≤ d ∧ d < (M : Int) / 2)
    (hfvr : st.firstValueRead = true)
    (hvcm : st.valuesCurrentMiniBlock = 0)
    (hilen : st.deltaBitWidths.length ≤ st.miniBlockIdx + 1)
    (hvpm : st.valuesPerMiniBlock = 32)
    (hnmb : st.numMiniBlocks = 4)
    (hal : 8 ∣ st.pos) (hpos : st.pos ≤ s.length)
    (hdrop : s.drop st.pos = blockBits M ds ++ rest) :
    ∃ stF, decGetLoop (convOfModulus M) s ds.length st =
        .ok ((chainList (listMinFrom (2 ^ 63 - 1) ds) st.currentValue
          (packedOf M (listMinFrom (2 ^ 63 - 1) ds) ds)).map (convPure M), stF) ∧
      stF.numValues = st.numValues ∧ stF.firstValueRead = true ∧
      stF.valuesPerMiniBlock = st.valuesPerMiniBlock ∧
      stF.numMiniBlocks = st.numMiniBlocks ∧
      (ds.length = 128 →
        stF.pos = st.pos + (blockBits M ds).length ∧
        stF.valuesCurrentMiniBlock = 0 ∧
        stF.deltaBitWidths.length ≤ stF.miniBlockIdx + 1 ∧
        stF.currentValue = (chainList (listMinFrom (2 ^ 63 - 1) ds)
          st.currentValue
          (packedOf M (listMinFrom (2 ^ 63 - 1) ds) ds)).getLastD
          st.currentValue) := by
  have hk : 0 < miniBlockSizeC := by
    norm_num [miniBlockSizeC, blockSizeC, numMiniBlocksC]
  have hk32 : miniBlockSizeC = 32 := rfl
  have hnmb4 : numMiniBlocksC = 4 := rfl
  set m : Int := listMinFrom (2 ^ 63 - 1) ds with hm
  set cs : List (List Int) := chunked miniBlockSizeC ds with hcs
  have hmd : ∀ d ∈ ds, m ≤ d := listMinFrom_le _ ds
  obtain ⟨d0, hd0⟩ : ∃ d, d ∈ ds := List.exists_mem_of_ne_nil ds hne
  have hm2 : m < (M : Int) / 2 := lt_of_le_of_lt (hmd d0 hd0) (hdb d0 hd0).2
  have hMh : (0 : Int) ≤ (M : Int) / 2 := by positivity
  have hm1 : -((M : Int) / 2) ≤ m :=
    listMinFrom_ge _ _ ds (by omega) (fun d hd => (hdb d hd).1)
  have hcsne : cs ≠ [] := by
    rw [hcs]
    intro h
    exact hne ((chunked_eq_nil_iff miniBlockSizeC hk ds).mp h)
  have hcslen : cs.length ≤ 4 := by
    rw [hcs]
    exact chunked_length_le miniBlockSizeC 4 hk ds (by rw [hk32]; omega)
  have hcsmem : ∀ c ∈ cs, 0 < c.length ∧ c.length ≤ miniBlockSizeC := by
    rw [hcs]
    exact chunked_mem_len miniBlockSizeC hk ds
  have hcsfull : ∀ c ∈ cs.dropLast, c.length = miniBlockSizeC := by
    rw [hcs]
    exact chunked_dropLast_full miniBlockSizeC ds
  have hjoin : cs.flatMap id = ds := by
    rw [hcs]
    exact chunked_join miniBlockSizeC ds
  obtain ⟨c0, csTail, hcs0⟩ : ∃ c0 csTail, cs = c0 :: csTail :=
    List.exists_cons_of_ne_nil hcsne
  set ws : List Nat := blockWidths M m cs with hws0
  have hwslen : ws.length = 4 := by
    rw [hws0, ← hnmb4]
    exact blockWidths_length M m cs (by omega)
  have hwslt : ∀ b ∈ ws, b < 256 := by
    rw [hws0]
    exact blockWidths_lt M hM0 hMle m cs
  have hwhead : ws.headD 0 = miniBlockWidth M m c0 := by
    rw [hws0, hcs0]
    unfold blockWidths
    simp
  have hmemds : ∀ c ∈ cs, ∀ d ∈ c, d ∈ ds := by
    intro c hc d hd
    rw [← hjoin]
    exact List.mem_flatMap.mpr ⟨c, hc, hd⟩
  have hpk : ∀ c ∈ cs, ∀ q ∈ packedOf M m c, q < 2 ^ miniBlockWidth M m c :=
    fun c hc =>
      packedOf_lt_width M hM0 hME m c hm1 hm2
        (fun d hd => hdb d (hmemds c hc d hd))
        (fun d hd => hmd d (hmemds c hc d hd))
  have hblock : blockBits M ds =
      bytesToBits (vlqBytes (zigzagEncode m)) ++
        (bytesToBits ws ++ cs.flatMap (miniBlockBits M m)) := by
    rw [hws0, hcs, hm]
    unfold blockBits
    dsimp only
    rw [List.append_assoc]
  have hc0len := hcsmem c0 (by rw [hcs0]; simp)
  obtain ⟨p, ps, hpk0⟩ : ∃ p ps, packedOf M m c0 = p :: ps :=
    List.exists_cons_of_ne_nil (List.length_pos.mp (by
      rw [packedOf_length]; exact hc0len.1))
  have hpklen : ps.length + 1 = c0.length := by
    have h1 := congrArg List.length hpk0
    rw [packedOf_length] at h1
    simp only [List.length_cons] at h1
    omega
  have hdsplit : c0 ++ csTail.flatMap id = ds := by
    rw [← hjoin, hcs0]
    simp [List.flatMap_cons]
  have hdslen : ds.length = c0.length + (csTail.flatMap id).length := by
    rw [← hdsplit]
    simp
  have hpkds : packedOf M m ds =
      (p :: ps) ++ (csTail.flatMap fun c => packedOf M m c) := by
    rw [← hdsplit, packedOf_append, hpk0, packedOf_flatMap]
  have hmbb0 : miniBlockBits M m c0 =
      (p :: ps).flatMap (natToBits (miniBlockWidth M m c0)) ++
        (List.replicate (miniBlockSizeC - c0.length) 0).flatMap
          (natToBits (miniBlockWidth M m c0)) := by
    rw [miniBlockBits_eq, hpk0]
  have hdropInit : s.drop st.pos =
      bytesToBits (vlqBytes (zigzagEncode m)) ++
        (bytesToBits ws ++
          ((p :: ps).flatMap (natToBits (miniBlockWidth M m c0)) ++
            ((List.replicate (miniBlockSizeC - c0.length) 0).flatMap
                (natToBits (miniBlockWidth M m c0)) ++
              (csTail.flatMap (miniBlockBits M m) ++ rest)))) := by
    rw [hdrop, hblock, hcs0]
    simp only [List.flatMap_cons, hmbb0, List.append_assoc]
  have hloop1 := decBlockInit M s m ws p ps st
    ((List.replicate (miniBlockSizeC - c0.length) 0).flatMap
        (natToBits (miniBlockWidth M m c0)) ++
      (csTail.flatMap (miniBlockBits M m) ++ rest))
    (miniBlockWidth M m c0)
    hfvr hvcm hilen hal hpos (by rw [hwslen, hnmb]) hwslt hwhead
    (by rw [hpklen, hvpm, ← hk32]; exact hc0len.2)
    (by rw [← hpk0]; exact hpk c0 (by rw [hcs0]; simp))
    hdropInit
  have hlensInit := congrArg List.length hdropInit
  simp only [List.length_drop, List.length_append, bytesToBits_length,
    flatMap_natToBits_length, List.length_cons] at hlensInit
  have hpos1 : st.pos + 8 * (vlqBytes (zigzagEncode m)).length + 8 * ws.length +
      (ps.length + 1) * miniBlockWidth M m c0 ≤ s.length := by omega
  have hdrop1 : s.drop (st.pos + 8 * (vlqBytes (zigzagEncode m)).length +
      8 * ws.length + (ps.length + 1) * miniBlockWidth M m c0) =
      (List.replicate (miniBlockSizeC - c0.length) 0).flatMap
          (natToBits (miniBlockWidth M m c0)) ++
        (csTail.flatMap (miniBlockBits M m) ++ rest) := by
    have h8a : s.drop (st.pos + 8 * (vlqBytes (zigzagEncode m)).length +
        8 * ws.length + (ps.length + 1) * miniBlockWidth M m c0) =
        ((s.drop st.pos).drop (8 * (vlqBytes (zigzagEncode m)).length +
          8 * ws.length + (ps.length + 1) * miniBlockWidth M m c0)) := by
      rw [List.drop_drop]
      ring_nf
    rw [h8a, hdropInit, ← List.append_assoc, ← List.append_assoc,
      drop_append_exact _ _ _ (by
        simp only [List.length_append, bytesToBits_length,
          flatMap_natToBits_length, List.length_cons])]
  have hcwsStream : ∀ (hct : csTail ≠ []),
      ∃ restF, s.drop (st.pos + 8 * (vlqBytes (zigzagEncode m)).length +
        8 * ws.length + (ps.length + 1) * miniBlockWidth M m c0) =
        ((csTail.map fun c => (packedOf M m c, miniBlockWidth M m c)).flatMap
          fun cw => cw.1.flatMap (natToBits cw.2)) ++ restF := by
    intro hct
    have hc0full : c0.length = miniBlockSizeC := hcsfull c0 (by
      rw [hcs0, List.dropLast_cons_of_ne_nil hct]
      simp)
    have hpad0 : (List.replicate (miniBlockSizeC - c0.length) 0).flatMap
        (natToBits (miniBlockWidth M m c0)) = [] := by
      rw [hc0full]
      simp
    obtain ⟨pad, hpad⟩ := flatMap_mbb_decomp M m csTail (fun c hc =>
      hcsfull c (by
        rw [hcs0, List.dropLast_cons_of_ne_nil hct]
        simp [hc]))
    refine ⟨pad ++ rest, ?_⟩
    rw [hdrop1, hpad0, List.nil_append, hpad]
    rw [List.flatMap_map]
    simp only [List.append_assoc]
  by_cases hct : csTail = []
  · -- single-chunk block: everything was consumed by the header step
    subst hct
    have hds0 : ds = c0 := by rw [← hdsplit]; simp
    refine ⟨{ st with
        pos := st.pos + 8 * (vlqBytes (zigzagEncode m)).length + 8 * ws.length
          + (ps.length + 1) * miniBlockWidth M m c0,
        minDelta := m,
        deltaBitWidths := ws,
        miniBlockIdx := 0,
        deltaBitWidth := miniBlockWidth M m c0,
        valuesCurrentMiniBlock := st.valuesPerMiniBlock - (ps.length + 1),
        currentValue := (chainList m st.currentValue (p :: ps)).getLastD
          st.currentValue }, ?_, rfl, hfvr, rfl, rfl, ?_⟩
    · rw [show ds.length = ps.length + 1 by rw [hds0, ← hpklen], hloop1, hpkds]
      simp
    · intro h128
      exfalso
      rw [hds0] at h128
      have := hc0len.2
      rw [hk32] at this
      omega
  · -- at least two miniblocks
    have hc0full : c0.length = miniBlockSizeC := hcsfull c0 (by
      rw [hcs0, List.dropLast_cons_of_ne_nil hct]
      simp)
    obtain ⟨restF, hstreamF⟩ := hcwsStream hct
    have hfst : ((csTail.map fun c => (packedOf M m c, miniBlockWidth M m c)).flatMap
        Prod.fst) = csTail.flatMap fun c => packedOf M m c := by
      rw [List.flatMap_map]
    have hrec := decChunksSeq M s
      (csTail.map fun c => (packedOf M m c, miniBlockWidth M m c))
      { st with
          pos := st.pos + 8 * (vlqBytes (zigzagEncode m)).length + 8 * ws.length
            + (ps.length + 1) * miniBlockWidth M m c0,
          minDelta := m,
          deltaBitWidths := ws,
          miniBlockIdx := 0,
          deltaBitWidth := miniBlockWidth M m c0,
          valuesCurrentMiniBlock := st.valuesPerMiniBlock - (ps.length + 1),
          currentValue := (chainList m st.currentValue (p :: ps)).getLastD
            st.currentValue }
      restF (List.replicate (numMiniBlocksC - cs.length) 0)
      (by dsimp only; exact hfvr)
      (by
        intro _
        show st.valuesPerMiniBlock - (ps.length + 1) = 0
        omega)
      (by
        dsimp only
        rw [hws0, hcs0]
        unfold blockWidths
        simp only [List.map_cons, List.cons_append, List.map_map]
        rw [List.drop_succ_cons, List.drop_zero]
        rfl)
      (by
        dsimp only
        intro cw hcw
        obtain ⟨c, hc, rfl⟩ := List.mem_map.mp hcw
        dsimp only
        rw [packedOf_length, hvpm]
        have h1 := hcsmem c (by rw [hcs0]; simp [hc])
        omega)
      (by
        dsimp only
        intro cw hcw
        rw [← List.map_dropLast] at hcw
        obtain ⟨c, hc, rfl⟩ := List.mem_map.mp hcw
        dsimp only
        rw [packedOf_length, hvpm]
        have h1 := hcsfull c (by
          rw [hcs0, List.dropLast_cons_of_ne_nil hct]
          simp [hc])
        omega)
      (by
        intro cw hcw
        obtain ⟨c, hc, rfl⟩ := List.mem_map.mp hcw
        exact hpk c (by rw [hcs0]; simp [hc]))
      (by dsimp only; exact hpos1)
      (by dsimp only; exact hstreamF)
    obtain ⟨stF, hloopF, hnvF, hfvrF, hvpmF, hnmbF, hexactF⟩ := hrec
    have hcount : ds.length = (ps.length + 1) +
        ((csTail.map fun c => (packedOf M m c, miniBlockWidth M m c)).flatMap
          Prod.fst).length := by
      rw [hdslen, hfst, flatMap_packedOf_length M m csTail, hpklen]
    refine ⟨stF, ?_, hnvF, hfvrF, hvpmF, hnmbF, ?_⟩
    · rw [hcount]
      have hcomb := decGetLoop_add_ok (convOfModulus M) s (ps.length + 1)
        ((csTail.map fun c => (packedOf M m c, miniBlockWidth M m c)).flatMap
          Prod.fst).length st _ stF _ _ hloop1 hloopF
      rw [hcomb, hpkds]
      simp only [hfst, chainList_append, List.map_append]
    · intro h128
      have hfull4 := chunked_full_len miniBlockSizeC 4 hk ds (by rw [hk32]; omega)
      rw [← hcs] at hfull4
      have hcst3 : csTail.length = 3 := by
        have h1 := hfull4.1
        rw [hcs0] at h1
        simp only [List.length_cons] at h1
        omega
      have hallfull : ∀ c ∈ cs, c.length = miniBlockSizeC := hfull4.2
      have hexact := hexactF (by
        dsimp only
        intro cw hcw
        obtain ⟨c, hc, rfl⟩ := List.mem_map.mp hcw
        dsimp only
        rw [packedOf_length, hvpm]
        have h1 := hallfull c (by rw [hcs0]; simp [hc])
        omega)
      have hmbbTail : csTail.flatMap (miniBlockBits M m) =
          ((csTail.map fun c => (packedOf M m c, miniBlockWidth M m c)).flatMap
            fun cw => cw.1.flatMap (natToBits cw.2)) := by
        rw [List.flatMap_map]
        exact List.flatMap_congr (fun c hc =>
          miniBlockBits_full M m c (hallfull c (by rw [hcs0]; simp [hc])))
      have hblen : (blockBits M ds).length =
          8 * (vlqBytes (zigzagEncode m)).length + 8 * ws.length +
            (ps.length + 1) * miniBlockWidth M m c0 +
            ((csTail.map fun c => (packedOf M m c, miniBlockWidth M m c)).flatMap
              fun cw => cw.1.flatMap (natToBits cw.2)).length := by
        rw [hblock, hcs0]
        simp only [List.flatMap_cons, ← hmbbTail,
          miniBlockBits_full M m c0 (hallfull c0 (by rw [hcs0]; simp)), hpk0]
        simp only [List.length_append, bytesToBits_length, flatMap_natToBits_length,
          List.length_cons, natToBits_length]
        have hsplitmul : (ps.length + 1) * miniBlockWidth M m c0 =
            ps.length * miniBlockWidth M m c0 + miniBlockWidth M m c0 := by ring
        omega
      refine ⟨?_, ?_, ?_, ?_⟩
      · rw [hexact]
        dsimp only
        rw [hblen]
        omega
      · rw [hexact]
        dsimp only
        rw [if_neg (by simp [hct])]
      · rw [hexact]
        dsimp only
        simp only [List.length_map]
        have h1 : ws.length = 4 := hwslen
        omega
      · rw [hexact]
        dsimp only
        rw [hpkds]
        simp only [hfst, chainList_append, getLastD_append]

/-- Decoding a sequence of blocks: when the stream holds the encoder's
per-segment blocks and the accumulator is congruent to the previous
original value, the `get` loop returns exactly the original values. -/
theorem decBlocks (M : Nat) (hM0 : 0 < M) (hME : (M : Int) % 2 = 0)
    (hMle : M ≤ 2 ^ 64) (hMd : (M : Int) ∣ 2 ^ 64) (s : List Bool) :
    ∀ (segs : List (List Int)) (xprev : Int) (st : DecState) (rest : List Bool),
      st.firstValueRead = true →
      st.valuesCurrentMiniBlock = 0 →
      st.deltaBitWidths.length ≤ st.miniBlockIdx + 1 →
      st.valuesPerMiniBlock = 32 →
      st.numMiniBlocks = 4 →
      8 ∣ st.pos → st.pos ≤ s.length →
      st.currentValue % (M : Int) = xprev % (M : Int) →
      -(2 ^ 63) ≤ st.currentValue → st.currentValue < 2 ^ 63 →
      (∀ seg ∈ segs, 0 < seg.length ∧ seg.length ≤ 128) →
      (∀ seg ∈ segs.dropLast, seg.length = 128) →
      (∀ x ∈ segs.flatten, -((M : Int) / 2) ≤ x ∧ x < (M : Int) / 2) →
      s.drop st.pos = (dChunks M xprev segs).flatMap (blockBits M) ++ rest →
      ∃ stF, decGetLoop (convOfModulus M) s segs.flatten.length st =
          .ok (segs.flatten, stF) ∧ stF.numValues = st.numValues := by
  intro segs
  induction segs with
  | nil =>
      intro xprev st rest hfvr _ _ _ _ _ _ _ _ _ _ _ _ _
      exact ⟨st, rfl, rfl⟩
  | cons seg segs2 ih =>
      intro xprev st rest hfvr hvcm hilen hvpm hnmb hal hpos hcur hr1 hr2 hsegs
        hsegsfull hx hdrop
      have hseghead := hsegs seg (by simp)
      set ds : List Int := deltasOf M xprev seg with hds
      have hdslen : ds.length = seg.length := by rw [hds, deltasOf_length]
      have hdsne : ds ≠ [] := by
        intro h
        have h1 : seg.length = 0 := by rw [← hdslen, h]; rfl
        omega
      have hdb : ∀ d ∈ ds, -((M : Int) / 2) ≤ d ∧ d < (M : Int) / 2 := by
        rw [hds]
        intro d hd
        exact deltasOf_mem_bounds M hM0 hME seg xprev d hd
      have hdrop1 : s.drop st.pos = blockBits M ds ++
          ((dChunks M (seg.getLastD xprev) segs2).flatMap (blockBits M) ++ rest) := by
        rw [hdrop]
        simp only [dChunks, List.flatMap_cons, List.append_assoc, ← hds]
      have hblockstep := decBlockStep M hM0 hME hMle s ds st _ hdsne
        (by omega) hdb hfvr hvcm hilen hvpm hnmb hal hpos hdrop1
      obtain ⟨st1, hloop1, hnv1, hfvr1, hvpm1, hnmb1, h128c⟩ := hblockstep
      have hmd : ∀ d ∈ ds, listMinFrom (2 ^ 63 - 1) ds ≤ d := listMinFrom_le _ ds
      obtain ⟨d0, hd0⟩ : ∃ d, d ∈ ds := List.exists_mem_of_ne_nil ds hdsne
      have hm2 : listMinFrom (2 ^ 63 - 1) ds < (M : Int) / 2 :=
        lt_of_le_of_lt (hmd d0 hd0) (hdb d0 hd0).2
      have hMh : (0 : Int) ≤ (M : Int) / 2 := by positivity
      have hm1 : -((M : Int) / 2) ≤ listMinFrom (2 ^ 63 - 1) ds :=
        listMinFrom_ge _ _ ds (by omega) (fun d hd => (hdb d hd).1)
      have harr := chainBlockAux M hM0 hME hMd (listMinFrom (2 ^ 63 - 1) ds)
        hm1 hm2 seg xprev st.currentValue hcur hr1 hr2
        (fun x hx2 => hx x (by simp [hx2]))
        (by rw [← hds]; exact hmd)
      rw [← hds] at harr
      by_cases hsegs2 : segs2 = []
      · subst hsegs2
        refine ⟨st1, ?_, hnv1⟩
        rw [show ([seg] : List (List Int)).flatten.length = ds.length by
          simp [hdslen]]
        rw [hloop1, harr.1]
        simp
      · have hseg128 : seg.length = 128 := hsegsfull seg (by
          rw [List.dropLast_cons_of_ne_nil hsegs2]
          simp)
        obtain ⟨hpos1eq, hvcm1, hilen1, hcur1⟩ := h128c (by omega)
        have hal1 : 8 ∣ st1.pos := by
          rw [hpos1eq]
          exact Nat.dvd_add hal (blockBits_dvd M ds (by
            show ds.length ≤ blockSizeC
            have : blockSizeC = 128 := rfl
            omega))
        have hlens1 := congrArg List.length hdrop1
        simp only [List.length_drop, List.length_append] at hlens1
        have hpos1le : st1.pos ≤ s.length := by rw [hpos1eq]; omega
        have hcurmod : st1.currentValue % (M : Int) =
            (seg.getLastD xprev) % (M : Int) := by
          rw [hcur1]
          exact harr.2.1
        have hcurr1 : -(2 ^ 63) ≤ st1.currentValue := by
          rw [hcur1]
          exact harr.2.2.1
        have hcurr2 : st1.currentValue < 2 ^ 63 := by
          rw [hcur1]
          exact harr.2.2.2
        have hdropnext : s.drop st1.pos =
            (dChunks M (seg.getLastD xprev) segs2).flatMap (blockBits M) ++ rest := by
          rw [hpos1eq]
          have h8 : s.drop (st.pos + (blockBits M ds).length) =
              (s.drop st.pos).drop (blockBits M ds).length := by
            rw [List.drop_drop]
          rw [h8, hdrop1, drop_append_exact _ _ _ rfl]
        have hrec := ih (seg.getLastD xprev) st1 rest hfvr1 hvcm1 hilen1
          (hvpm1.trans hvpm) (hnmb1.trans hnmb) hal1 hpos1le hcurmod hcurr1 hcurr2
          (fun sg hsg => hsegs sg (by simp [hsg]))
          (fun sg hsg => hsegsfull sg (by
            rw [List.dropLast_cons_of_ne_nil hsegs2]
            simp [hsg]))
          (fun x hx2 => hx x (by simp [hx2]))
          hdropnext
        obtain ⟨stF, hloopF, hnvF⟩ := hrec
        refine ⟨stF, ?_, hnvF.trans hnv1⟩
        rw [show (seg :: segs2).flatten.length = ds.length + segs2.flatten.length by
          simp [hdslen]]
        have hcomb := decGetLoop_add_ok (convOfModulus M) s ds.length
          segs2.flatten.length st st1 stF _ _ hloop1 hloopF
        rw [hcomb, harr.1]
        simp

/-- `set_data` on a stream produced by `write_page_header` with the
default block size and miniblock count: all four header fields parse and
the assertion `values_per_mini_block % 8 == 0` passes. -/
theorem decSetData_spec (s : List Bool) (total : Nat) (first : Int)
    (rest : List Bool)
    (hdrop : s = bytesToBits (vlqBytes blockSizeC) ++
      (bytesToBits (vlqBytes numMiniBlocksC) ++ (bytesToBits (vlqBytes total) ++
        (bytesToBits (vlqBytes (zigzagEncode first)) ++ rest)))) :
    decSetData s = .ok (.ok
      { pos := 8 * (vlqBytes blockSizeC).length +
          8 * (vlqBytes numMiniBlocksC).length + 8 * (vlqBytes total).length +
          8 * (vlqBytes (zigzagEncode first)).length,
        numValues := total, numMiniBlocks := numMiniBlocksC,
        valuesPerMiniBlock := 32, valuesCurrentMiniBlock := 0,
        firstValue := first, firstValueRead := false, minDelta := 0,
        miniBlockIdx := 0, deltaBitWidth := 0, deltaBitWidths := [],
        currentValue := 0 }) := by
  have h0 : s.drop 0 = bytesToBits (vlqBytes blockSizeC) ++
      (bytesToBits (vlqBytes numMiniBlocksC) ++ (bytesToBits (vlqBytes total) ++
        (bytesToBits (vlqBytes (zigzagEncode first)) ++ rest))) := by
    rw [List.drop_zero]
    exact hdrop
  have h1 := readVlq_spec s blockSizeC 0 _ h0 ⟨0, rfl⟩
  rw [Nat.zero_add] at h1
  have hd1 : s.drop (8 * (vlqBytes blockSizeC).length) =
      bytesToBits (vlqBytes numMiniBlocksC) ++ (bytesToBits (vlqBytes total) ++
        (bytesToBits (vlqBytes (zigzagEncode first)) ++ rest)) := by
    have h8 : s.drop (8 * (vlqBytes blockSizeC).length) =
        (s.drop 0).drop (8 * (vlqBytes blockSizeC).length) := by
      rw [List.drop_zero]
    rw [h8, h0, drop_append_exact _ _ _ (bytesToBits_length _)]
  have h2 := readVlq_spec s numMiniBlocksC (8 * (vlqBytes blockSizeC).length) _
    hd1 ⟨(vlqBytes blockSizeC).length, rfl⟩
  have hd2 : s.drop (8 * (vlqBytes blockSizeC).length +
      8 * (vlqBytes numMiniBlocksC).length) =
      bytesToBits (vlqBytes total) ++
        (bytesToBits (vlqBytes (zigzagEncode first)) ++ rest) := by
    have h8 : s.drop (8 * (vlqBytes blockSizeC).length +
        8 * (vlqBytes numMiniBlocksC).length) =
        (s.drop (8 * (vlqBytes blockSizeC).length)).drop
          (8 * (vlqBytes numMiniBlocksC).length) := by
      rw [List.drop_drop]
    rw [h8, hd1, drop_append_exact _ _ _ (bytesToBits_length _)]
  have h3 := readVlq_spec s total (8 * (vlqBytes blockSizeC).length +
    8 * (vlqBytes numMiniBlocksC).length) _ hd2
    ⟨(vlqBytes blockSizeC).length + (vlqBytes numMiniBlocksC).length, by ring⟩
  have hd3 : s.drop (8 * (vlqBytes blockSizeC).length +
      8 * (vlqBytes numMiniBlocksC).length + 8 * (vlqBytes total).length) =
      bytesToBits (vlqBytes (zigzagEncode first)) ++ rest := by
    have h8 : s.drop (8 * (vlqBytes blockSizeC).length +
        8 * (vlqBytes numMiniBlocksC).length + 8 * (vlqBytes total).length) =
        (s.drop (8 * (vlqBytes blockSizeC).length +
          8 * (vlqBytes numMiniBlocksC).length)).drop (8 * (vlqBytes total).length) := by
      rw [List.drop_drop]
    rw [h8, hd2, drop_append_exact _ _ _ (bytesToBits_length _)]
  have h4 := readZigzagVlq_spec s first (8 * (vlqBytes blockSizeC).length +
    8 * (vlqBytes numMiniBlocksC).length + 8 * (vlqBytes total).length) _ hd3
    ⟨(vlqBytes blockSizeC).length + (vlqBytes numMiniBlocksC).length +
      (vlqBytes total).length, by ring⟩
  unfold decSetData
  rw [h1]
  dsimp only
  rw [h2]
  dsimp only
  rw [h3]
  dsimp only
  rw [h4]
  dsimp only
  rw [if_neg (by norm_num [numMiniBlocksC]),
    if_neg (by norm_num [blockSizeC, numMiniBlocksC])]
  norm_num [blockSizeC, numMiniBlocksC]

/-- The first `get` iteration emits `first_value` and marks it read. -/
theorem decFirstStep (M : Nat) (s : List Bool) (st : DecState)
    (hfvr : st.firstValueRead = false) :
    decStep (convOfModulus M) s st =
      .ok (convPure M st.firstValue,
        { st with currentValue := st.firstValue, firstValueRead := true }) := by
  simp [decStep, hfvr, convOfModulus, except_ok_bind]

/-- C2: for every finite sequence `xs` of INT32 (`M = 2^32`) or INT64
(`M = 2^64`) values — including sequences containing the minimum and
maximum values of the integer width — feeding `xs` to
`DeltaBitPackEncoder` via `put`, taking `flush_buffer`'s output, and
draining a `DeltaBitPackDecoder` initialized with that output via
`set_data`/`get` yields exactly `xs` (the decoder accumulating each value
as `current.wrapping_add(min_delta).wrapping_add(packed_delta)` in
wrapping two's-complement `i64` arithmetic, as `decStep` does), with all
`num_values` consumed. -/
theorem c2_delta_bit_pack_roundtrip (M : Nat) (hM : M = 2 ^ 32 ∨ M = 2 ^ 64)
    (xs : List Int)
    (hxs : ∀ x ∈ xs, -((M : Int) / 2) ≤ x ∧ x < (M : Int) / 2) :
    ∃ stF, deltaDecode M (deltaEncode M xs) xs.length = .ok (.ok (xs, stF)) ∧
      stF.numValues = 0 := by
  have hM0 : 0 < M := by rcases hM with h | h <;> subst h <;> norm_num
  have hME : (M : Int) % 2 = 0 := by
    rcases hM with h | h <;> subst h <;> push_cast <;> norm_num
  have hMle : M ≤ 2 ^ 64 := by rcases hM with h | h <;> subst h <;> norm_num
  have hMd : (M : Int) ∣ 2 ^ 64 := by
    rcases hM with h | h <;> subst h
    · exact ⟨2 ^ 32, by push_cast⟩
    · exact ⟨1, by push_cast⟩
  cases xs with
  | nil =>
      refine ⟨⟨8 * (vlqBytes blockSizeC).length + 8 * (vlqBytes numMiniBlocksC).length + 8 * (vlqBytes 0).length + 8 * (vlqBytes (zigzagEncode 0)).length,
        0, numMiniBlocksC, 32, 0, 0, false, 0, 0, 0, [], 0⟩, ?_, rfl⟩
      have hsd := decSetData_spec (bytesToBits (deltaEncode M [])) 0 0 []
        (by rw [deltaEncode_nil_bits]; simp [List.append_assoc])
      unfold deltaDecode
      rw [hsd, except_ok_bind]
      dsimp only
      simp [decGet, decGetLoop, except_ok_bind]
  | cons v vs =>
      have hv := hxs v (by simp)
      have hhalf : (M : Int) / 2 ≤ 2 ^ 63 := by
        rcases hM with h | h <;> subst h <;> push_cast <;> norm_num
      have hv1 : -(2 ^ 63) ≤ v := by omega
      have hv2 : v < 2 ^ 63 := by omega
      have hconv : convPure M v = v := convPure_eq M hM0 hME v v rfl hv1 hv2 hv.1 hv.2
      have hbsc : (0 : Nat) < blockSizeC := by norm_num [blockSizeC]
      have hstream : bytesToBits (deltaEncode M (v :: vs)) =
          bytesToBits (vlqBytes blockSizeC) ++
            (bytesToBits (vlqBytes numMiniBlocksC) ++
              (bytesToBits (vlqBytes (vs.length + 1)) ++
                (bytesToBits (vlqBytes (zigzagEncode v)) ++
                  (chunked blockSizeC (deltasOf M v vs)).flatMap (blockBits M)))) := by
        rw [deltaEncode_bits]
        simp [List.append_assoc]
      have hsd := decSetData_spec (bytesToBits (deltaEncode M (v :: vs)))
        (vs.length + 1) v _ hstream
      set s : List Bool := bytesToBits (deltaEncode M (v :: vs)) with hsdef
      have hlenS := congrArg List.length hstream
      simp only [List.length_append, bytesToBits_length] at hlenS
      have hheadsum : (bytesToBits (vlqBytes blockSizeC) ++
          (bytesToBits (vlqBytes numMiniBlocksC) ++
            (bytesToBits (vlqBytes (vs.length + 1)) ++
              bytesToBits (vlqBytes (zigzagEncode v))))).length =
          8 * (vlqBytes blockSizeC).length +
            8 * (vlqBytes numMiniBlocksC).length +
            8 * (vlqBytes (vs.length + 1)).length +
            8 * (vlqBytes (zigzagEncode v)).length := by
        simp only [List.length_append, bytesToBits_length]
        ring
      have hdropE : s.drop (8 * (vlqBytes blockSizeC).length +
          8 * (vlqBytes numMiniBlocksC).length +
          8 * (vlqBytes (vs.length + 1)).length +
          8 * (vlqBytes (zigzagEncode v)).length) =
          (chunked blockSizeC (deltasOf M v vs)).flatMap (blockBits M) ++ [] := by
        rw [hstream]
        rw [show bytesToBits (vlqBytes blockSizeC) ++
            (bytesToBits (vlqBytes numMiniBlocksC) ++
              (bytesToBits (vlqBytes (vs.length + 1)) ++
                (bytesToBits (vlqBytes (zigzagEncode v)) ++
                  (chunked blockSizeC (deltasOf M v vs)).flatMap (blockBits M)))) =
            (bytesToBits (vlqBytes blockSizeC) ++
              (bytesToBits (vlqBytes numMiniBlocksC) ++
                (bytesToBits (vlqBytes (vs.length + 1)) ++
                  bytesToBits (vlqBytes (zigzagEncode v))))) ++
              (chunked blockSizeC (deltasOf M v vs)).flatMap (blockBits M) by
          simp [List.append_assoc]]
        rw [drop_append_exact _ _ _ hheadsum, List.append_nil]
      have hchunkrel : chunked blockSizeC (deltasOf M v vs) =
          dChunks M v (chunked blockSizeC vs) :=
        chunked_deltasOf M blockSizeC hbsc vs.length vs v le_rfl
      have hflat : (chunked blockSizeC vs).flatten = vs := by
        rw [← List.flatMap_id]
        exact chunked_join blockSizeC vs
      have hblocks := decBlocks M hM0 hME hMle hMd s (chunked blockSizeC vs) v
        { pos := 8 * (vlqBytes blockSizeC).length + 8 * (vlqBytes numMiniBlocksC).length + 8 * (vlqBytes (vs.length + 1)).length + 8 * (vlqBytes (zigzagEncode v)).length,
          numValues := vs.length + 1, numMiniBlocks := numMiniBlocksC,
          valuesPerMiniBlock := 32, valuesCurrentMiniBlock := 0,
          firstValue := v, firstValueRead := true, minDelta := 0,
          miniBlockIdx := 0, deltaBitWidth := 0, deltaBitWidths := [],
          currentValue := v } []
        rfl rfl (by simp) rfl rfl
        ⟨(vlqBytes blockSizeC).length + (vlqBytes numMiniBlocksC).length +
          (vlqBytes (vs.length + 1)).length + (vlqBytes (zigzagEncode v)).length,
          by ring⟩
        (by show 8 * (vlqBytes blockSizeC).length +
              8 * (vlqBytes numMiniBlocksC).length +
              8 * (vlqBytes (vs.length + 1)).length +
              8 * (vlqBytes (zigzagEncode v)).length ≤ s.length
            omega)
        rfl hv1 hv2
        (fun sg hsg => chunked_mem_len blockSizeC hbsc vs sg hsg)
        (fun sg hsg => chunked_dropLast_full blockSizeC vs sg hsg)
        (by rw [hflat]; exact fun x hx2 => hxs x (by simp [hx2]))
        (by rw [← hchunkrel]; exact hdropE)
      obtain ⟨stF, hloopB, hnvF⟩ := hblocks
      rw [hflat] at hloopB
      have hnvF2 : stF.numValues = vs.length + 1 := hnvF
      have hloopAll : decGetLoop (convOfModulus M) s (vs.length + 1)
          { pos := 8 * (vlqBytes blockSizeC).length + 8 * (vlqBytes numMiniBlocksC).length + 8 * (vlqBytes (vs.length + 1)).length + 8 * (vlqBytes (zigzagEncode v)).length,
            numValues := vs.length + 1, numMiniBlocks := numMiniBlocksC,
            valuesPerMiniBlock := 32, valuesCurrentMiniBlock := 0,
            firstValue := v, firstValueRead := false, minDelta := 0,
            miniBlockIdx := 0, deltaBitWidth := 0, deltaBitWidths := [],
            currentValue := 0 } = .ok (v :: vs, stF) := by
        simp only [decGetLoop]
        rw [decFirstStep M s _ rfl, except_ok_bind]
        dsimp only
        rw [hloopB, except_ok_bind, hconv]
      refine ⟨{ stF with numValues := stF.numValues - (vs.length + 1) }, ?_, by show stF.numValues - (vs.length + 1) = 0; omega⟩
      unfold deltaDecode
      rw [hsd, except_ok_bind]
      dsimp only
      unfold decGet
      dsimp only
      rw [show min (v :: vs).length (vs.length + 1) = vs.length + 1 by simp]
      rw [hloopAll, except_ok_bind, except_ok_bind]

/-- Witness for C2 at a concrete input: the INT32 sequence holding the
maximum and minimum `i32` values round-trips through the
DELTA_BINARY_PACKED encoder and decoder. -/
theorem c2_delta_bit_pack_roundtrip_witness :
    ∃ stF, deltaDecode (2 ^ 32)
        (deltaEncode (2 ^ 32) [2147483647, -2147483648, 0])
        ([2147483647, -2147483648, 0] : List Int).length =
          .ok (.ok (([2147483647, -2147483648, 0] : List Int), stF)) ∧
      stF.numValues = 0 :=
  c2_delta_bit_pack_roundtrip (2 ^ 32) (Or.inl rfl)
    [2147483647, -2147483648, 0] (by decide)

set_option maxRecDepth 100000 in
unseal vlqBytes splitChunks bitsToBytes Nat.binaryRec in
/-- C1 counterexample: decoding the DELTA_BYTE_ARRAY stream for
`["abc", "abd"]` (prefix lengths `[0, 2]`, suffixes `"abc"`, `"d"`).
The decoder produces `["abc", "d"]` — position 1 should be
`prev[0..2] ++ "d" = "abd"` per the claim, but `get` copies the whole
previous value instead of its first `prefix_len` bytes and never
advances `current_idx`, so `prefix_lengths[0] = 0` is used for every
position and the prefix is dropped entirely; the spec-side value
sequence for the same prefix lengths and suffixes is `["abc", "abd"]`,
which differs from the decoder's output. -/
theorem c1_delta_byte_array_prefix_bug :
    deltaByteDecode c1Stream 2 =
        .ok (.ok ([[97, 98, 99], [100]],
          ⟨[0, 2], 0, ⟨[3, 1], 2, [97, 98, 99, 100], 4, 0⟩,
            some [100], 0⟩)) ∧
      deltaByteSpecVals [0, 2] [[97, 98, 99], [100]] =
        [[97, 98, 99], [97, 98, 100]] ∧
      ([[97, 98, 99], [100]] : List (List Nat)) ≠
        [[97, 98, 99], [97, 98, 100]] :=
  ⟨rfl, rfl, by decide⟩

/-! ## Linear-probing lemmas for the dictionary encoder -/

theorem mem_of_getD_ne {α : Type} (l : List α) (j : Nat) (d : α)
    (h : l.getD j d ≠ d) : l.getD j d ∈ l := by
  rcases Nat.lt_or_ge j l.length with hj | hj
  · rw [List.getD_eq_getElem l d hj]
    exact List.getElem_mem hj
  · rw [List.getD_eq_default l d hj] at h
    exact absurd rfl h

theorem getD_set_ne {α : Type} (l : List α) (j q : Nat) (x d : α)
    (h : j ≠ q) : (l.set q x).getD j d = l.getD j d := by
  simp only [List.getD_eq_getElem?_getD]
  rw [List.getElem?_set_ne (fun he => h he.symm)]

theorem getD_set_self {α : Type} (l : List α) (q : Nat) (x d : α)
    (h : q < l.length) : (l.set q x).getD q d = x := by
  simp only [List.getD_eq_getElem?_getD]
  rw [List.getElem?_set_self h]
  rfl

/-- If the probe reports a match at index `i`, then `uniques[i] = v`. -/
theorem probeSlot_match_sound {α : Type} [DecidableEq α] (slots : List Int)
    (uniq : List α) (v : α) (ts : Nat) :
    ∀ (fuel j j' i : Nat),
      probeSlot slots uniq v ts fuel j = some (j', some i) →
      uniq.get? i = some v := by
  intro fuel
  induction fuel with
  | zero => intro j j' i h; simp [probeSlot] at h
  | succ fuel ih =>
      intro j j' i h
      rw [probeSlot] at h
      by_cases h1 : slots.getD j (-1) = -1
      · rw [if_pos h1] at h
        simp at h
      · rw [if_neg h1] at h
        by_cases h2 : uniq.get? (slots.getD j (-1)).toNat = some v
        · rw [if_pos h2] at h
          simp only [Option.some.injEq, Prod.mk.injEq] at h
          obtain ⟨_, hi⟩ := h
          rw [← hi]
          exact h2
        · rw [if_neg h2] at h
          exact ih _ j' i h

/-- Probe positions stay below the table size. -/
theorem probeSlot_pos_lt {α : Type} [DecidableEq α] (slots : List Int)
    (uniq : List α) (v : α) (ts : Nat) (hts : 0 < ts) :
    ∀ (fuel j j' : Nat) (r : Option Nat), j < ts →
      probeSlot slots uniq v ts fuel j = some (j', r) → j' < ts := by
  intro fuel
  induction fuel with
  | zero => intro j j' r _ h; simp [probeSlot] at h
  | succ fuel ih =>
      intro j j' r hj h
      rw [probeSlot] at h
      by_cases h1 : slots.getD j (-1) = -1
      · rw [if_pos h1] at h
        simp only [Option.some.injEq, Prod.mk.injEq] at h
        omega
      · rw [if_neg h1] at h
        by_cases h2 : uniq.get? (slots.getD j (-1)).toNat = some v
        · rw [if_pos h2] at h
          simp only [Option.some.injEq, Prod.mk.injEq] at h
          omega
        · rw [if_neg h2] at h
          refine ih _ j' r ?_ h
          by_cases hje : j + 1 = ts
          · rw [if_pos hje]; omega
          · rw [if_neg hje]; omega

/-- If the probe stops at an empty slot, that slot holds `-1`. -/
theorem probeSlot_none_sound {α : Type} [DecidableEq α] (slots : List Int)
    (uniq : List α) (v : α) (ts : Nat) :
    ∀ (fuel j j' : Nat),
      probeSlot slots uniq v ts fuel j = some (j', none) →
      slots.getD j' (-1) = -1 := by
  intro fuel
  induction fuel with
  | zero => intro j j' h; simp [probeSlot] at h
  | succ fuel ih =>
      intro j j' h
      rw [probeSlot] at h
      by_cases h1 : slots.getD j (-1) = -1
      · rw [if_pos h1] at h
        simp only [Option.some.injEq, Prod.mk.injEq] at h
        rw [← h.1]
        exact h1
      · rw [if_neg h1] at h
        by_cases h2 : uniq.get? (slots.getD j (-1)).toNat = some v
        · rw [if_pos h2] at h
          simp at h
        · rw [if_neg h2] at h
          exact ih _ j' h

/-- The probe terminates when an empty slot is reachable within the fuel. -/
theorem probeSlot_total {α : Type} [DecidableEq α] (slots : List Int)
    (uniq : List α) (v : α) (ts : Nat) (hts : 0 < ts) :
    ∀ (fuel j : Nat), j < ts →
      (∃ k < fuel, slots.getD ((j + k) % ts) (-1) = -1) →
      ∃ r, probeSlot slots uniq v ts fuel j = some r := by
  intro fuel
  induction fuel with
  | zero =>
      intro j _ hk
      obtain ⟨k, hk1, _⟩ := hk
      omega
  | succ fuel ih =>
      intro j hj hk
      rw [probeSlot]
      by_cases h1 : slots.getD j (-1) = -1
      · exact ⟨(j, none), by rw [if_pos h1]⟩
      · rw [if_neg h1]
        by_cases h2 : uniq.get? (slots.getD j (-1)).toNat = some v
        · exact ⟨(j, some (slots.getD j (-1)).toNat), by rw [if_pos h2]⟩
        · rw [if_neg h2]
          obtain ⟨k, hk1, hk2⟩ := hk
          have hkne : k ≠ 0 := by
            intro h0
            rw [h0, Nat.add_zero, Nat.mod_eq_of_lt hj] at hk2
            exact h1 hk2
          have hj2 : (if j + 1 = ts then 0 else j + 1) = (j + 1) % ts := by
            by_cases hje : j + 1 = ts
            · rw [if_pos hje, hje, Nat.mod_self]
            · rw [if_neg hje, Nat.mod_eq_of_lt (by omega)]
          dsimp only
          rw [hj2]
          refine ih ((j + 1) % ts) (Nat.mod_lt _ hts) ⟨k - 1, by omega, ?_⟩
          have harith : ((j + 1) % ts + (k - 1)) % ts = (j + k) % ts := by
            rw [Nat.mod_add_mod]
            congr 1
            omega
          rw [harith]
          exact hk2

/-- If the probe reports a match at index `i`, some non-empty slot content
equals `i`. -/
theorem probeSlot_match_mem {α : Type} [DecidableEq α] (slots : List Int)
    (uniq : List α) (v : α) (ts : Nat) :
    ∀ (fuel j j2 i : Nat),
      probeSlot slots uniq v ts fuel j = some (j2, some i) →
      ∃ c ∈ slots, c ≠ -1 ∧ c.toNat = i := by
  intro fuel
  induction fuel with
  | zero => intro j j2 i h; simp [probeSlot] at h
  | succ fuel ih =>
      intro j j2 i h
      rw [probeSlot] at h
      by_cases h1 : slots.getD j (-1) = -1
      · rw [if_pos h1] at h
        simp at h
      · rw [if_neg h1] at h
        by_cases h2 : uniq.get? (slots.getD j (-1)).toNat = some v
        · rw [if_pos h2] at h
          simp only [Option.some.injEq, Prod.mk.injEq] at h
          obtain ⟨_, hi⟩ := h
          exact ⟨slots.getD j (-1), mem_of_getD_ne slots j (-1) h1, h1, hi⟩
        · rw [if_neg h2] at h
          exact ih _ j2 i h

/-- Positional injectivity of `get?` on a duplicate-free list. -/
theorem nodup_getq_inj {α : Type} (l : List α) (i j : Nat) (a : α)
    (hnd : l.Nodup) (hi : l.get? i = some a) (hj : l.get? j = some a) :
    i = j := by
  obtain ⟨h1, e1⟩ := List.get?_eq_some.mp hi
  obtain ⟨h2, e2⟩ := List.get?_eq_some.mp hj
  exact congrArg Fin.val (hnd.get_inj_iff.mp (e1.trans e2.symm))

/-- Setting a non-empty value into an empty slot adds it to the non-empty
contents, up to permutation. -/
theorem filter_set_perm (slots : List Int) :
    ∀ (j : Nat) (x : Int), j < slots.length →
      slots.getD j (-1) = -1 → x ≠ -1 →
      List.Perm ((slots.set j x).filter (· ≠ -1))
        (x :: slots.filter (· ≠ -1)) := by
  induction slots with
  | nil => intro j x hj _ _; simp at hj
  | cons c rest ih =>
      intro j x hj hempty hx
      cases j with
      | zero =>
          have hc : c = -1 := by simpa using hempty
          subst hc
          simp only [List.set_cons_zero, List.filter_cons]
          rw [if_pos (by simp [hx]), if_neg (by simp)]
      | succ j =>
          have hempty2 : rest.getD j (-1) = -1 := by simpa using hempty
          have hj2 : j < rest.length := by simpa using hj
          have hperm := ih j x hj2 hempty2 hx
          simp only [List.set_cons_succ, List.filter_cons]
          by_cases hc : (decide (c ≠ -1)) = true
          · rw [if_pos hc, if_pos hc]
            exact List.Perm.trans (hperm.cons c) (List.Perm.swap x c _)
          · rw [if_neg hc, if_neg hc]
            exact hperm

/-- A table with fewer non-empty contents than slots has an empty slot. -/
theorem exists_empty_slot (slots : List Int)
    (hlt : (slots.filter (· ≠ -1)).length < slots.length) :
    ∃ q, q < slots.length ∧ slots.getD q (-1) = -1 := by
  by_contra hno
  push_neg at hno
  have hall : slots.filter (· ≠ -1) = slots := by
    apply List.filter_eq_self.mpr
    intro a ha
    obtain ⟨q, hq, hget⟩ := List.mem_iff_getElem.mp ha
    have hgd : slots.getD q (-1) = a := by
      rw [List.getD_eq_getElem slots (-1) hq]
      exact hget
    have := hno q hq
    simp only [ne_eq, decide_eq_true_eq]
    intro hae
    rw [hae] at hgd
    exact this hgd
  rw [hall] at hlt
  omega

/-- Every non-empty slot content is a valid `uniques` index, from the
permutation invariant. -/
theorem slots_mem_valid (slots : List Int) (n : Nat)
    (hperm : List.Perm (slots.filter (· ≠ -1))
      ((List.range n).map (fun i : Nat => (i : Int)))) :
    ∀ c ∈ slots, c ≠ -1 → c.toNat < n ∧ 0 ≤ c := by
  intro c hc hne
  have hmem : c ∈ slots.filter (· ≠ -1) :=
    List.mem_filter.mpr ⟨hc, by simp [hne]⟩
  have h2 := hperm.mem_iff.mp hmem
  obtain ⟨i, hi, he⟩ := List.mem_map.mp h2
  rw [List.mem_range] at hi
  omega

/-- From any start position, the wrap-around walk reaches any slot within
`ts` steps. -/
theorem probe_fuel_from_empty (slots : List Int) (ts j q : Nat)
    (hts : 0 < ts) (hj : j < ts) (hq : q < ts)
    (hqe : slots.getD q (-1) = -1) :
    ∃ k, k < ts ∧ slots.getD ((j + k) % ts) (-1) = -1 := by
  refine ⟨(q + ts - j) % ts, Nat.mod_lt _ hts, ?_⟩
  have h1 : (j + (q + ts - j) % ts) % ts = (j + (q + ts - j)) % ts :=
    Nat.add_mod_mod _ _ _
  have h2 : j + (q + ts - j) = q + ts := by omega
  rw [h1, h2, Nat.add_mod_right, Nat.mod_eq_of_lt hq]
  exact hqe

/-- Setting a value into an empty slot and extending `uniques` (agreeing
below `n`) preserves a successful match probe, provided every non-empty
slot content is a valid index below `n`. -/
theorem probeSlot_preserve_match {α : Type} [DecidableEq α]
    (slots : List Int) (uniq uniq2 : List α) (v : α) (ts n : Nat)
    (hval : ∀ c ∈ slots, c ≠ -1 → c.toNat < n ∧ 0 ≤ c)
    (hagree : ∀ m, m < n → uniq2.get? m = uniq.get? m)
    (q : Nat) (x : Int) (hq : slots.getD q (-1) = -1) :
    ∀ (fuel j j2 i : Nat),
      probeSlot slots uniq v ts fuel j = some (j2, some i) →
      probeSlot (slots.set q x) uniq2 v ts fuel j = some (j2, some i) := by
  intro fuel
  induction fuel with
  | zero => intro j j2 i h; simp [probeSlot] at h
  | succ fuel ih =>
      intro j j2 i h
      rw [probeSlot] at h
      by_cases h1 : slots.getD j (-1) = -1
      · rw [if_pos h1] at h
        simp at h
      · rw [if_neg h1] at h
        have hjq : j ≠ q := fun he => h1 (he ▸ hq)
        have hgd : (slots.set q x).getD j (-1) = slots.getD j (-1) :=
          getD_set_ne slots j q x (-1) hjq
        have hv := hval _ (mem_of_getD_ne slots j (-1) h1) h1
        have hag : uniq2.get? (slots.getD j (-1)).toNat
            = uniq.get? (slots.getD j (-1)).toNat := hagree _ hv.1
        rw [probeSlot, hgd, if_neg h1]
        by_cases h2 : uniq.get? (slots.getD j (-1)).toNat = some v
        · rw [if_pos h2] at h
          rw [if_pos (hag.trans h2)]
          exact h
        · rw [if_neg h2] at h
          rw [if_neg (fun hc => h2 (hag.symm.trans hc))]
          exact ih _ j2 i h

/-- Completing an unsuccessful probe: writing index `xn` into the empty
slot the probe stopped at makes the same probe find `xn`, provided `uniq2`
holds the probed value at `xn` and agrees with `uniq` below `n`. -/
theorem probeSlot_insert_match {α : Type} [DecidableEq α]
    (slots : List Int) (uniq uniq2 : List α) (v : α) (ts n xn : Nat)
    (hval : ∀ c ∈ slots, c ≠ -1 → c.toNat < n ∧ 0 ≤ c)
    (hagree : ∀ m, m < n → uniq2.get? m = uniq.get? m)
    (hx : uniq2.get? xn = some v) :
    ∀ (fuel j jE : Nat), jE < slots.length →
      probeSlot slots uniq v ts fuel j = some (jE, none) →
      probeSlot (slots.set jE ((xn : Nat) : Int)) uniq2 v ts fuel j =
        some (jE, some xn) := by
  intro fuel
  induction fuel with
  | zero => intro j jE _ h; simp [probeSlot] at h
  | succ fuel ih =>
      intro j jE hlt h
      have hjEe : slots.getD jE (-1) = -1 :=
        probeSlot_none_sound slots uniq v ts (fuel + 1) j jE h
      rw [probeSlot] at h
      by_cases h1 : slots.getD j (-1) = -1
      · rw [if_pos h1] at h
        simp only [Option.some.injEq, Prod.mk.injEq] at h
        obtain ⟨hje, -⟩ := h
        subst hje
        rw [probeSlot]
        have hset : (slots.set j ((xn : Nat) : Int)).getD j (-1) =
            ((xn : Nat) : Int) := getD_set_self slots j _ (-1) hlt
        rw [hset, if_neg (by omega), Int.toNat_natCast, if_pos hx]
      · rw [if_neg h1] at h
        have hjne : j ≠ jE := fun he => h1 (he.symm ▸ hjEe)
        have hgd : (slots.set jE ((xn : Nat) : Int)).getD j (-1) =
            slots.getD j (-1) := getD_set_ne slots j jE _ (-1) hjne
        have hv := hval _ (mem_of_getD_ne slots j (-1) h1) h1
        have hag : uniq2.get? (slots.getD j (-1)).toNat
            = uniq.get? (slots.getD j (-1)).toNat := hagree _ hv.1
        rw [probeSlot, hgd, if_neg h1]
        by_cases h2 : uniq.get? (slots.getD j (-1)).toNat = some v
        · rw [if_pos h2] at h
          simp at h
        · rw [if_neg h2] at h
          rw [if_neg (fun hc => h2 (hag.symm.trans hc))]
          exact ih _ jE hlt h

/-- The re-insertion fold of `double_table_size`: processing the remaining
old-slot contents `todo` over a table `ns` whose non-empty contents are
`F`, the fold succeeds, and afterwards the non-empty contents are
`F ++ todo.filter (· ≠ -1)` and every processed index is found by probing
its value from its hash position. -/
theorem rehash_fold {α : Type} [DecidableEq α] (g : DictGeometry α)
    (uniq : List α) (nsz : Nat) (hnsz : uniq.length < nsz)
    (hnd : uniq.Nodup) :
    ∀ (todo F ns : List Int),
      ns.length = nsz →
      List.Perm (ns.filter (· ≠ -1)) F →
      (∀ c ∈ F, c ≠ -1) →
      (∀ c ∈ F, c.toNat < uniq.length ∧ 0 ≤ c) →
      (∀ c ∈ todo, c ≠ -1 → c.toNat < uniq.length ∧ 0 ≤ c) →
      (F ++ todo.filter (· ≠ -1)).Nodup →
      F.length + (todo.filter (· ≠ -1)).length ≤ uniq.length →
      (∀ c ∈ F, ∀ hc : c.toNat < uniq.length,
        ∃ j2, probeSlot ns uniq (uniq.get ⟨c.toNat, hc⟩) nsz nsz
          (g.hash (uniq.get ⟨c.toNat, hc⟩) % nsz) = some (j2, some c.toNat)) →
      ∃ ns2,
        todo.foldl
          (fun (acc : Outcome (List Int)) idx =>
            match acc with
            | .abort msg => .abort msg
            | .ok ns =>
                if idx = -1 then .ok ns
                else
                  match uniq.get? idx.toNat with
                  | none => .abort "index out of bounds"
                  | some value =>
                      match probeSlot ns uniq value nsz nsz
                          (g.hash value % nsz) with
                      | none => .abort "probe loop did not terminate"
                      | some (j, _) => .ok (ns.set j idx))
          (.ok ns) = .ok ns2 ∧
        ns2.length = nsz ∧
        List.Perm (ns2.filter (· ≠ -1)) (F ++ todo.filter (· ≠ -1)) ∧
        (∀ c ∈ F ++ todo.filter (· ≠ -1), ∀ hc : c.toNat < uniq.length,
          ∃ j2, probeSlot ns2 uniq (uniq.get ⟨c.toNat, hc⟩) nsz nsz
            (g.hash (uniq.get ⟨c.toNat, hc⟩) % nsz) = some (j2, some c.toNat)) := by
  intro todo
  induction todo with
  | nil =>
      intro F ns hlen hperm hF hvalF hvalT hnodup hcount hprobeF
      refine ⟨ns, rfl, hlen, by simpa using hperm, ?_⟩
      intro c hc hcv
      exact hprobeF c (by simpa using hc) hcv
  | cons idx rest ih =>
      intro F ns hlen hperm hF hvalF hvalT hnodup hcount hprobeF
      rw [List.foldl_cons]
      dsimp only
      by_cases hidx : idx = -1
      · subst hidx
        rw [if_pos rfl]
        have hfilt : ((-1 : Int) :: rest).filter (· ≠ -1) =
            rest.filter (· ≠ -1) := by simp
        rw [hfilt]
        rw [hfilt] at hnodup hcount
        exact ih F ns hlen hperm hF hvalF
          (fun c hcm => hvalT c (List.mem_cons_of_mem _ hcm)) hnodup hcount hprobeF
      · rw [if_neg hidx]
        have hv1 := hvalT idx (List.mem_cons_self _ _) hidx
        have hgv : uniq.get? idx.toNat =
            some (uniq.get ⟨idx.toNat, hv1.1⟩) := List.get?_eq_get hv1.1
        rw [hgv]
        dsimp only
        have hfc : (idx :: rest).filter (· ≠ -1) =
            idx :: rest.filter (· ≠ -1) := by
          rw [List.filter_cons, if_pos (by simp [hidx])]
        rw [hfc] at hnodup hcount
        simp only [List.length_cons] at hcount
        have hlt0 : 0 < nsz := by omega
        have hstart : g.hash (uniq.get ⟨idx.toNat, hv1.1⟩) % nsz < nsz :=
          Nat.mod_lt _ hlt0
        have hflen : (ns.filter (· ≠ -1)).length = F.length := hperm.length_eq
        obtain ⟨q, hq, hqe⟩ := exists_empty_slot ns (by rw [hflen, hlen]; omega)
        obtain ⟨⟨j, ropt⟩, hpr⟩ :=
          probeSlot_total ns uniq (uniq.get ⟨idx.toNat, hv1.1⟩) nsz hlt0 nsz _
            hstart (probe_fuel_from_empty ns nsz _ q hlt0 hstart (hlen ▸ hq) hqe)
        have hropt : ropt = none := by
          rcases ropt with _ | i
          · rfl
          · exfalso
            have hms := probeSlot_match_sound ns uniq _ nsz nsz _ j i hpr
            have hieq : i = idx.toNat :=
              nodup_getq_inj uniq i idx.toNat _ hnd hms hgv
            obtain ⟨c, hcm, hcne, hct⟩ :=
              probeSlot_match_mem ns uniq _ nsz nsz _ j i hpr
            have hcF : c ∈ F :=
              hperm.mem_iff.mp (List.mem_filter.mpr ⟨hcm, by simp [hcne]⟩)
            have hc0 := (hvalF c hcF).2
            have hceq : c = idx := by omega
            rw [hceq] at hcF
            obtain ⟨-, -, hdisj⟩ := List.nodup_append.mp hnodup
            exact hdisj hcF (List.mem_cons_self idx _)
        subst hropt
        rw [hpr]
        dsimp only
        have hjlt : j < nsz :=
          probeSlot_pos_lt ns uniq _ nsz hlt0 nsz _ j none hstart hpr
        have hje : ns.getD j (-1) = -1 :=
          probeSlot_none_sound ns uniq _ nsz nsz _ j hpr
        have hjlen : j < ns.length := by omega
        have hp3 : List.Perm ((ns.set j idx).filter (· ≠ -1)) (F ++ [idx]) :=
          ((filter_set_perm ns j idx hjlen hje hidx).trans
            (hperm.cons idx)).trans (@List.perm_append_comm _ [idx] F)
        have hvalns : ∀ c ∈ ns, c ≠ -1 → c.toNat < uniq.length ∧ 0 ≤ c := by
          intro c hcm hcne
          exact hvalF c (hperm.mem_iff.mp (List.mem_filter.mpr ⟨hcm, by simp [hcne]⟩))
        have hprobeF2 : ∀ c ∈ F ++ [idx], ∀ hc : c.toNat < uniq.length,
            ∃ j2, probeSlot (ns.set j idx) uniq (uniq.get ⟨c.toNat, hc⟩) nsz nsz
              (g.hash (uniq.get ⟨c.toNat, hc⟩) % nsz) = some (j2, some c.toNat) := by
          intro c hcm hcv
          rcases List.mem_append.mp hcm with hcF | hcI
          · obtain ⟨j2, hpj⟩ := hprobeF c hcF hcv
            exact ⟨j2, probeSlot_preserve_match ns uniq uniq _ nsz uniq.length
              hvalns (fun m _ => rfl) j idx hje nsz _ j2 c.toNat hpj⟩
          · have hci : c = idx := by simpa using hcI
            subst hci
            have hins := probeSlot_insert_match ns uniq uniq
              (uniq.get ⟨c.toNat, hv1.1⟩) nsz uniq.length c.toNat hvalns
              (fun m _ => rfl) hgv nsz _ j hjlen hpr
            rw [Int.toNat_of_nonneg hv1.2] at hins
            exact ⟨j, hins⟩
        have hnodup2 : ((F ++ [idx]) ++ rest.filter (· ≠ -1)).Nodup := by
          rw [List.append_assoc]
          exact hnodup
        have hcount2 : (F ++ [idx]).length + (rest.filter (· ≠ -1)).length ≤
            uniq.length := by
          simp only [List.length_append, List.length_cons]
          simp only [List.length_nil]
          omega
        obtain ⟨ns2, hfold, hlen2, hperm2, hprobe2⟩ :=
          ih (F ++ [idx]) (ns.set j idx)
            (by rw [List.length_set]; exact hlen) hp3
            (by
              intro c hcm
              rcases List.mem_append.mp hcm with h | h
              · exact hF c h
              · have hci : c = idx := by simpa using h
                rw [hci]
                exact hidx)
            (by
              intro c hcm
              rcases List.mem_append.mp hcm with h | h
              · exact hvalF c h
              · have hci : c = idx := by simpa using h
                rw [hci]
                exact hv1)
            (fun c hcm => hvalT c (List.mem_cons_of_mem _ hcm))
            hnodup2 hcount2 hprobeF2
        refine ⟨ns2, hfold, hlen2, ?_, ?_⟩
        · rw [hfc]
          rw [List.append_assoc] at hperm2
          exact hperm2
        · intro c hcm hcv
          rw [hfc] at hcm
          refine hprobe2 c ?_ hcv
          rw [List.append_assoc]
          exact hcm

/-- `double_table_size` succeeds, keeps `uniques` and the buffered
indices, doubles the table size, and re-establishes the slot and probe
invariants. -/
theorem doubleTableSize_spec {α : Type} [DecidableEq α] (g : DictGeometry α)
    (st : DictState α)
    (hlen : st.slots.length = st.tableSize)
    (hcard : st.uniques.length < st.tableSize * 2)
    (hnd : st.uniques.Nodup)
    (hperm : List.Perm (st.slots.filter (· ≠ -1))
      ((List.range st.uniques.length).map (fun i : Nat => (i : Int)))) :
    ∃ ns2, doubleTableSize g st =
        .ok { st with tableSize := st.tableSize * 2, slots := ns2 } ∧
      ns2.length = st.tableSize * 2 ∧
      List.Perm (ns2.filter (· ≠ -1))
        ((List.range st.uniques.length).map (fun i : Nat => (i : Int))) ∧
      ∀ i (h : i < st.uniques.length),
        ∃ j2, probeSlot ns2 st.uniques (st.uniques.get ⟨i, h⟩)
          (st.tableSize * 2) (st.tableSize * 2)
          (g.hash (st.uniques.get ⟨i, h⟩) % (st.tableSize * 2)) =
          some (j2, some i) := by
  have hrepf : (List.replicate (st.tableSize * 2) (-1 : Int)).filter (· ≠ -1) =
      [] := by
    apply List.filter_eq_nil_iff.mpr
    intro a ha
    have ha2 := (List.mem_replicate.mp ha).2
    simp [ha2]
  have hrmnd : ((List.range st.uniques.length).map
      (fun i : Nat => (i : Int))).Nodup :=
    (List.nodup_range st.uniques.length).map (fun a b hab => by exact_mod_cast hab)
  obtain ⟨ns2, hfold, hlen2, hperm2, hprobe2⟩ :=
    rehash_fold g st.uniques (st.tableSize * 2) hcard hnd st.slots []
      (List.replicate (st.tableSize * 2) (-1))
      (by simp)
      (by rw [hrepf])
      (by intro c hc; simp at hc)
      (by intro c hc; simp at hc)
      (slots_mem_valid st.slots st.uniques.length hperm)
      (by
        simp only [List.nil_append]
        exact hperm.nodup_iff.mpr hrmnd)
      (by
        have hl := hperm.length_eq
        rw [List.length_map, List.length_range] at hl
        simp only [List.length_nil]
        omega)
      (by intro c hc; simp at hc)
  refine ⟨ns2, ?_, hlen2, hperm2.trans hperm, ?_⟩
  · simp only [doubleTableSize]
    rw [hfold]
  · intro i hi
    have hmemr : ((i : Nat) : Int) ∈
        (List.range st.uniques.length).map (fun i : Nat => (i : Int)) :=
      List.mem_map.mpr ⟨i, List.mem_range.mpr hi, rfl⟩
    have hmemf : ((i : Nat) : Int) ∈ st.slots.filter (· ≠ -1) :=
      hperm.symm.mem_iff.mp hmemr
    have hcv : ((i : Nat) : Int).toNat < st.uniques.length := by simpa using hi
    obtain ⟨j2, hp⟩ := hprobe2 ((i : Nat) : Int) hmemf hcv
    refine ⟨j2, ?_⟩
    have hti : ((i : Nat) : Int).toNat = i := Int.toNat_natCast i
    simp only [hti] at hp
    exact hp

/-- `put_one` under the dictionary invariant: it succeeds, preserves the
invariant, and updates `uniques` and the buffered indices exactly as the
first-occurrence reference semantics `refStep` prescribes. -/
theorem putOneDict_ref {α : Type} [DecidableEq α] (g : DictGeometry α)
    (hth : ∀ s, 0 < s → g.thresh s < s) (st : DictState α) (v : α)
    (hinv : DictInv g st) :
    ∃ st2, putOneDict g st v = .ok st2 ∧ DictInv g st2 ∧
      st2.uniques = (refStep (st.uniques, st.bufferedIndices) v).1 ∧
      st2.bufferedIndices = (refStep (st.uniques, st.bufferedIndices) v).2 := by
  obtain ⟨hlen, hts, hcard, hnd, hperm, hprobe⟩ := hinv
  have hflen : (st.slots.filter (· ≠ -1)).length = st.uniques.length := by
    rw [hperm.length_eq, List.length_map, List.length_range]
  obtain ⟨q, hq, hqe⟩ := exists_empty_slot st.slots (by omega)
  have hstart : g.hash v % st.tableSize < st.tableSize := Nat.mod_lt _ hts
  obtain ⟨⟨j, ropt⟩, hpr⟩ :=
    probeSlot_total st.slots st.uniques v st.tableSize hts st.tableSize _
      hstart (probe_fuel_from_empty st.slots st.tableSize _ q hts hstart
        (by omega) hqe)
  rcases ropt with _ | i
  · -- the probe stopped at an empty slot: insert branch
    have hjE : st.slots.getD j (-1) = -1 :=
      probeSlot_none_sound st.slots st.uniques v st.tableSize st.tableSize _ j hpr
    have hjlt : j < st.tableSize :=
      probeSlot_pos_lt st.slots st.uniques v st.tableSize hts st.tableSize _ j
        none hstart hpr
    have hjlen : j < st.slots.length := by omega
    have hvnot : v ∉ st.uniques := by
      intro hvm
      obtain ⟨⟨i, hilt⟩, hgeti⟩ := List.mem_iff_get.mp hvm
      obtain ⟨j2, hp2⟩ := hprobe i hilt
      rw [hgeti] at hp2
      rw [hpr] at hp2
      simp at hp2
    have hagree : ∀ m, m < st.uniques.length →
        (st.uniques ++ [v]).get? m = st.uniques.get? m := by
      intro m hm
      rw [List.get?_eq_getElem?, List.get?_eq_getElem?,
        List.getElem?_append_left hm]
    have hval := slots_mem_valid st.slots st.uniques.length hperm
    have hlen1 : (st.slots.set j ((st.uniques.length : Nat) : Int)).length =
        st.tableSize := by
      rw [List.length_set]
      exact hlen
    have hnd1 : (st.uniques ++ [v]).Nodup := by
      rw [List.nodup_append]
      refine ⟨hnd, by simp, ?_⟩
      intro a ha hav
      have hae : a = v := by simpa using hav
      exact hvnot (hae ▸ ha)
    have hperm1 : List.Perm
        ((st.slots.set j ((st.uniques.length : Nat) : Int)).filter (· ≠ -1))
        ((List.range (st.uniques.length + 1)).map (fun i : Nat => (i : Int))) := by
      have h1 := filter_set_perm st.slots j ((st.uniques.length : Nat) : Int)
        hjlen hjE (by omega)
      have h2 := h1.trans (hperm.cons _)
      have h3 : (List.range (st.uniques.length + 1)).map
          (fun i : Nat => (i : Int)) =
          ((List.range st.uniques.length).map (fun i : Nat => (i : Int))) ++
            [((st.uniques.length : Nat) : Int)] := by
        rw [List.range_succ, List.map_append]
        rfl
      rw [h3]
      exact h2.trans
        (@List.perm_append_comm _ [((st.uniques.length : Nat) : Int)] _)
    have hlapp : (st.uniques ++ [v]).length = st.uniques.length + 1 := by simp
    have hprobe1 : ∀ i (h : i < (st.uniques ++ [v]).length),
        ∃ j2, probeSlot (st.slots.set j ((st.uniques.length : Nat) : Int))
          (st.uniques ++ [v]) ((st.uniques ++ [v]).get ⟨i, h⟩) st.tableSize
          st.tableSize (g.hash ((st.uniques ++ [v]).get ⟨i, h⟩) %
            st.tableSize) = some (j2, some i) := by
      intro i hi
      rcases Nat.lt_or_ge i st.uniques.length with hilt | hige
      · have hgeti : (st.uniques ++ [v]).get ⟨i, hi⟩ =
            st.uniques.get ⟨i, hilt⟩ := by
          simp only [List.get_eq_getElem]
          exact List.getElem_append_left hilt
        obtain ⟨j2, hp2⟩ := hprobe i hilt
        refine ⟨j2, ?_⟩
        rw [hgeti]
        exact probeSlot_preserve_match st.slots st.uniques (st.uniques ++ [v])
          _ st.tableSize st.uniques.length hval hagree j _ hjE st.tableSize _
          j2 i hp2
      · have hieq : i = st.uniques.length := by
          rw [hlapp] at hi
          omega
        subst hieq
        have hgeti : (st.uniques ++ [v]).get ⟨st.uniques.length, hi⟩ = v := by
          simp only [List.get_eq_getElem]
          exact List.getElem_concat_length _ _ _ rfl _
        have hx : (st.uniques ++ [v]).get? st.uniques.length = some v := by
          rw [List.get?_eq_getElem?, List.getElem?_concat_length]
        rw [hgeti]
        exact ⟨j, probeSlot_insert_match st.slots st.uniques (st.uniques ++ [v])
          v st.tableSize st.uniques.length st.uniques.length hval hagree hx
          st.tableSize _ j hjlen hpr⟩
    simp only [putOneDict]
    rw [hpr]
    dsimp only
    by_cases hgrow : (st.uniques ++ [v]).length > g.thresh st.tableSize
    · rw [if_pos hgrow]
      obtain ⟨ns2, hdbl, hlen2, hperm2, hprobe2⟩ :=
        doubleTableSize_spec g
          { st with slots := st.slots.set j ((st.uniques.length : Nat) : Int),
                    uniques := st.uniques ++ [v] }
          hlen1
          (by
            show (st.uniques ++ [v]).length < st.tableSize * 2
            rw [hlapp]
            omega)
          hnd1
          (by
            show List.Perm _ ((List.range (st.uniques ++ [v]).length).map
              (fun i : Nat => (i : Int)))
            rw [hlapp]
            exact hperm1)
      rw [hdbl]
      dsimp only
      refine ⟨_, rfl, ⟨hlen2, by show 0 < st.tableSize * 2; omega, ?_, hnd1,
        hperm2, hprobe2⟩, ?_, ?_⟩
      · show (st.uniques ++ [v]).length < st.tableSize * 2
        rw [hlapp]
        omega
      · simp [refStep, hvnot]
      · simp [refStep, hvnot]
    · rw [if_neg hgrow]
      dsimp only
      rw [hlapp] at hgrow
      refine ⟨_, rfl, ⟨hlen1, hts, ?_, hnd1, ?_, hprobe1⟩, ?_, ?_⟩
      · show (st.uniques ++ [v]).length < st.tableSize
        rw [hlapp]
        have h2 := hth st.tableSize hts
        omega
      · show List.Perm _ ((List.range (st.uniques ++ [v]).length).map
          (fun i : Nat => (i : Int)))
        rw [hlapp]
        exact hperm1
      · simp [refStep, hvnot]
      · simp [refStep, hvnot]
  · -- the probe found a match: emit the existing index
    have hgi : st.uniques.get? i = some v :=
      probeSlot_match_sound st.slots st.uniques v st.tableSize st.tableSize _
        j i hpr
    obtain ⟨hilt, hgeti⟩ := List.get?_eq_some.mp hgi
    have hvm : v ∈ st.uniques := by
      rw [← hgeti]
      exact List.get_mem _ _ _
    have hidx : st.uniques.indexOf v = i := by
      have h2 := List.get_indexOf hnd ⟨i, hilt⟩
      rw [hgeti] at h2
      exact h2
    simp only [putOneDict]
    rw [hpr]
    dsimp only
    refine ⟨_, rfl, ⟨hlen, hts, hcard, hnd, hperm, hprobe⟩, ?_, ?_⟩
    · simp [refStep, hvm]
    · simp [refStep, hvm, hidx]

/-- `put` under the dictionary invariant: the fold over the input values
succeeds, and the final dictionary and buffered index stream are exactly
the first-occurrence reference fold. -/
theorem dictPut_ref {α : Type} [DecidableEq α] (g : DictGeometry α)
    (hth : ∀ s, 0 < s → g.thresh s < s) :
    ∀ (values : List α) (st : DictState α), DictInv g st →
      ∃ st2, dictPut g st values = .ok st2 ∧ DictInv g st2 ∧
        (st2.uniques, st2.bufferedIndices) =
          values.foldl refStep (st.uniques, st.bufferedIndices) := by
  intro values
  induction values with
  | nil =>
      intro st hinv
      exact ⟨st, rfl, hinv, rfl⟩
  | cons v vs ih =>
      intro st hinv
      obtain ⟨st1, hput, hinv1, hu, hb⟩ := putOneDict_ref g hth st v hinv
      have hstep : dictPut g st (v :: vs) = dictPut g st1 vs := by
        simp only [dictPut, List.foldl_cons]
        rw [hput]
      obtain ⟨st2, hput2, hinv2, href⟩ := ih st1 hinv1
      refine ⟨st2, by rw [hstep]; exact hput2, hinv2, ?_⟩
      have h1 : refStep (st.uniques, st.bufferedIndices) v =
          (st1.uniques, st1.bufferedIndices) := by rw [hu, hb]
      rw [List.foldl_cons, h1]
      exact href

/-- A fresh `DictEncoder` satisfies the dictionary invariant. -/
theorem dictNew_inv {α : Type} [DecidableEq α] (g : DictGeometry α)
    (hinit : 0 < g.initSize) : DictInv g (dictNew g) := by
  refine ⟨by simp [dictNew], by simpa [dictNew] using hinit,
    by simpa [dictNew] using hinit, by simp [dictNew], ?_, ?_⟩
  · show List.Perm ((List.replicate g.initSize (-1 : Int)).filter (· ≠ -1)) _
    have hrepf : (List.replicate g.initSize (-1 : Int)).filter (· ≠ -1) = [] := by
      apply List.filter_eq_nil_iff.mpr
      intro a ha
      have ha2 := (List.mem_replicate.mp ha).2
      simp [ha2]
    rw [hrepf]
    simp [dictNew]
  · intro i hi
    simp [dictNew] at hi

/-- Indices emitted by the reference semantics stay below the dictionary
size, and the dictionary only grows along the fold. -/
theorem refFold_bounds {α : Type} [DecidableEq α] :
    ∀ (xs : List α) (acc : List α × List Nat),
      (∀ i ∈ acc.2, i < acc.1.length) →
      (∀ i ∈ (xs.foldl refStep acc).2, i < (xs.foldl refStep acc).1.length) ∧
        acc.1.length ≤ (xs.foldl refStep acc).1.length := by
  intro xs
  induction xs with
  | nil => intro acc h; exact ⟨h, Nat.le_refl _⟩
  | cons x xs ih =>
      intro acc h
      rw [List.foldl_cons]
      have hstep : (∀ i ∈ (refStep acc x).2, i < (refStep acc x).1.length) ∧
          acc.1.length ≤ (refStep acc x).1.length := by
        simp only [refStep]
        by_cases hm : x ∈ acc.1
        · rw [if_pos hm]
          refine ⟨?_, Nat.le_refl _⟩
          intro i hi
          rcases List.mem_append.mp hi with h1 | h1
          · exact h i h1
          · have h2 : i = acc.1.indexOf x := by simpa using h1
            rw [h2]
            exact List.indexOf_lt_length.mpr hm
        · rw [if_neg hm]
          constructor
          · intro i hi
            simp only [List.length_append, List.length_cons, List.length_nil]
            rcases List.mem_append.mp hi with h1 | h1
            · have h2 := h i h1
              omega
            · have h2 : i = acc.1.length := by simpa using h1
              omega
          · simp
      obtain ⟨hs1, hs2⟩ := hstep
      obtain ⟨hr1, hr2⟩ := ih (refStep acc x) hs1
      exact ⟨hr1, hs2.trans hr2⟩

/-- C7: for every input value sequence and any two hash-table geometries
(arbitrary hash functions and initial sizes, and any doubling thresholds
that keep the table strictly under-full, as the source's 0.7 load factor
does), feeding the sequence to two `DictEncoder`s via `put` succeeds on
both, and they produce identical `write_dict` bytes and identical
`write_indices` bytes: the dictionary is the distinct values in
first-occurrence order and the index stream is the first-occurrence
indices, so the output bytes are independent of the table geometry. -/
theorem c7_dict_output_geometry_independent (g1 g2 : DictGeometry Int)
    (hth1 : ∀ s, 0 < s → g1.thresh s < s)
    (hth2 : ∀ s, 0 < s → g2.thresh s < s)
    (hi1 : 0 < g1.initSize) (hi2 : 0 < g2.initSize) (values : List Int) :
    ∃ st1 st2, dictPut g1 (dictNew g1) values = .ok st1 ∧
      dictPut g2 (dictNew g2) values = .ok st2 ∧
      writeDictInt32 st1 = writeDictInt32 st2 ∧
      writeIndices st1 = writeIndices st2 ∧
      st1.uniques = (refDict values).1 ∧
      st1.bufferedIndices = (refDict values).2 := by
  obtain ⟨st1, hp1, hinv1, hr1⟩ :=
    dictPut_ref g1 hth1 values (dictNew g1) (dictNew_inv g1 hi1)
  obtain ⟨st2, hp2, hinv2, hr2⟩ :=
    dictPut_ref g2 hth2 values (dictNew g2) (dictNew_inv g2 hi2)
  have hu1 : st1.uniques = (refDict values).1 := by
    have h := congrArg Prod.fst hr1
    simpa [refDict, dictNew] using h
  have hb1 : st1.bufferedIndices = (refDict values).2 := by
    have h := congrArg Prod.snd hr1
    simpa [refDict, dictNew] using h
  have hu2 : st2.uniques = (refDict values).1 := by
    have h := congrArg Prod.fst hr2
    simpa [refDict, dictNew] using h
  have hb2 : st2.bufferedIndices = (refDict values).2 := by
    have h := congrArg Prod.snd hr2
    simpa [refDict, dictNew] using h
  refine ⟨st1, st2, hp1, hp2, ?_, ?_, hu1, hb1⟩
  · simp only [writeDictInt32, hu1, hu2]
  · simp only [writeIndices, hu1, hu2, hb1, hb2]

/-- C7 witness: the two concrete geometries `gA` (the source's 1024-slot,
0.7-load-factor table) and `gB` (1-slot table that doubles on every
insertion, different hash) produce identical output bytes on
`[7, 3, 7, 10]`. -/
theorem c7_dict_output_geometry_independent_witness :
    ∃ st1 st2, dictPut gA (dictNew gA) [7, 3, 7, 10] = .ok st1 ∧
      dictPut gB (dictNew gB) [7, 3, 7, 10] = .ok st2 ∧
      writeDictInt32 st1 = writeDictInt32 st2 ∧
      writeIndices st1 = writeIndices st2 ∧
      st1.uniques = (refDict [7, 3, 7, 10]).1 ∧
      st1.bufferedIndices = (refDict [7, 3, 7, 10]).2 :=
  c7_dict_output_geometry_independent gA gB
    (by intro s hs; simp only [gA]; omega)
    (by intro s hs; simp only [gB]; omega)
    (by simp [gA]) (by simp [gB]) [7, 3, 7, 10]

/-- C6: for every geometry whose threshold keeps the table under-full and
every input sequence, `put` succeeds; the resulting dictionary entries are
pairwise distinct, `write_indices` writes `bit_width(N)` as its first byte
(`N` the number of dictionary entries), every buffered index lies in
`0 .. N-1`, and `bit_width` is `ceil(log2 N)` with the special cases
`N = 0 → 0` and `N = 1 → 1`. -/
theorem c6_dict_bit_width_and_indices (g : DictGeometry Int)
    (hth : ∀ s, 0 < s → g.thresh s < s) (hinit : 0 < g.initSize)
    (values : List Int) :
    ∃ st, dictPut g (dictNew g) values = .ok st ∧
      st.uniques.Nodup ∧
      writeIndices st = dictBitWidth st.uniques.length ::
        rleSpecBytes (dictBitWidth st.uniques.length) st.bufferedIndices ∧
      (∀ i ∈ st.bufferedIndices, i < st.uniques.length) ∧
      dictBitWidth 0 = 0 ∧ dictBitWidth 1 = 1 ∧
      (∀ n, 2 ≤ n → dictBitWidth n = log2Ceil n) := by
  obtain ⟨st, hp, hinv, hr⟩ :=
    dictPut_ref g hth values (dictNew g) (dictNew_inv g hinit)
  obtain ⟨-, -, -, hnd, -, -⟩ := hinv
  refine ⟨st, hp, hnd, rfl, ?_, rfl, rfl, ?_⟩
  · have hbounds := (refFold_bounds values
      ((dictNew g).uniques, (dictNew g).bufferedIndices)
      (by intro i hi; simp [dictNew] at hi)).1
    intro i hi
    have hx := congrArg Prod.snd hr
    have hy := congrArg Prod.fst hr
    dsimp only at hx hy
    rw [hx] at hi
    rw [hy]
    exact hbounds i hi
  · intro n hn
    simp only [dictBitWidth]
    rw [if_neg (by omega), if_neg (by omega)]

/-- C6 witness: the theorem applied to the concrete geometry `gB` and the
input `[4, 4, 9, 2]`. -/
theorem c6_dict_bit_width_and_indices_witness :
    ∃ st, dictPut gB (dictNew gB) [4, 4, 9, 2] = .ok st ∧
      st.uniques.Nodup ∧
      writeIndices st = dictBitWidth st.uniques.length ::
        rleSpecBytes (dictBitWidth st.uniques.length) st.bufferedIndices ∧
      (∀ i ∈ st.bufferedIndices, i < st.uniques.length) ∧
      dictBitWidth 0 = 0 ∧ dictBitWidth 1 = 1 ∧
      (∀ n, 2 ≤ n → dictBitWidth n = log2Ceil n) :=
  c6_dict_bit_width_and_indices gB
    (by intro s hs; simp only [gB]; omega)
    (by simp [gB]) [4, 4, 9, 2]

/-- C4 counterexample: calling `set_data_range` on a BIT_PACKED level
decoder with the buffer `[1,2,3,4,5]`, range `(0,3)` and
`num_buffered_values = 10` (the repository's own
`test_bit_packed_decoder_set_data_range` input) aborts the program with a
panic — it does not return a typed `InvalidFormat`/`General` error, which
is what the claim asserts; indeed the method's return type `usize` has no
error channel at all. -/
theorem c4_set_data_range_bit_packed_aborts :
    levelSetDataRange .BIT_PACKED levelDecoderNew 10 [1, 2, 3, 4, 5] 0 3 =
      .abort "set_data_range() method is only supported by RLE encoding type" := rfl

/-- C4 (amended): for every decoder state, buffer, start, length and
`num_buffered_values`, `LevelDecoder::set_data_range` on a decoder
constructed with the BIT_PACKED encoding panics with the message
`set_data_range() method is only supported by RLE encoding type` (the
repository's own test expects exactly this panic); it neither succeeds
nor returns a typed error. -/
theorem c4_set_data_range_bit_packed_aborts_always
    (st : LevelDecState) (numBufferedValues : Nat) (data : List Nat)
    (start len : Nat) :
    levelSetDataRange .BIT_PACKED st numBufferedValues data start len =
      .abort "set_data_range() method is only supported by RLE encoding type" := rfl

/-- C5 counterexample: requesting DELTA_BINARY_PACKED for the FLOAT
physical type does not fail with a typed returned error at construction:
`get_decoder` constructs the decoder successfully (first conjunct), and
the encoder constructor panics via `assert_supported_type` instead of
returning an error (second conjunct). -/
theorem c5_delta_float_construction :
    getDecoderConstruct .FLOAT .DELTA_BINARY_PACKED = .ok () ∧
      deltaBitPackEncoderNew .FLOAT =
        .abort "DeltaBitPackDecoder only supports Int32Type and Int64Type" :=
  ⟨rfl, rfl⟩

/-- C5 (amended): for every physical type other than INT32/INT64,
requesting DELTA_BINARY_PACKED panics at *encoder* construction
(`assert_supported_type`), while *decoder* construction succeeds and the
typed `General` error only surfaces at first use: any `get` that decodes
at least one value (fresh state, `first_value` not yet read) returns
`general_err!("DeltaBitPackDecoder only supports Int32Type and Int64Type")`
from `set_decoded_value`. -/
theorem c5_delta_unsupported_amended (t : PhysicalType)
    (h32 : t ≠ .INT32) (h64 : t ≠ .INT64) :
    deltaBitPackEncoderNew t =
        .abort "DeltaBitPackDecoder only supports Int32Type and Int64Type" ∧
      getDecoderConstruct t .DELTA_BINARY_PACKED = .ok () ∧
      ∀ (s : List Bool) (st : DecState) (bufLen : Nat),
        0 < min bufLen st.numValues → st.firstValueRead = false →
        decGet (setDecodedValue t) s st bufLen =
          .error (.general "DeltaBitPackDecoder only supports Int32Type and Int64Type") := by
  refine ⟨by cases t <;> simp_all [deltaBitPackEncoderNew],
          by cases t <;> simp_all [getDecoderConstruct], ?_⟩
  intro s st bufLen hpos hfvr
  have hconv : ∀ z, setDecodedValue t z =
      .error (.general "DeltaBitPackDecoder only supports Int32Type and Int64Type") := by
    intro z; cases t <;> simp_all [setDecodedValue]
  obtain ⟨k, hk⟩ : ∃ k, min bufLen st.numValues = k + 1 :=
    ⟨min bufLen st.numValues - 1, by omega⟩
  have hstep : decStep (setDecodedValue t) s st =
      .error (.general "DeltaBitPackDecoder only supports Int32Type and Int64Type") := by
    simp [decStep, hfvr, hconv, except_error_bind]
  simp [decGet, hk, decGetLoop, hstep, except_error_bind]

/-- C5 amended, witness at FLOAT with a concrete state. -/
theorem c5_delta_unsupported_amended_witness :
    deltaBitPackEncoderNew .FLOAT =
        .abort "DeltaBitPackDecoder only supports Int32Type and Int64Type" ∧
      getDecoderConstruct .FLOAT .DELTA_BINARY_PACKED = .ok () ∧
      ∀ (s : List Bool) (st : DecState) (bufLen : Nat),
        0 < min bufLen st.numValues → st.firstValueRead = false →
        decGet (setDecodedValue .FLOAT) s st bufLen =
          .error (.general "DeltaBitPackDecoder only supports Int32Type and Int64Type") :=
  c5_delta_unsupported_amended .FLOAT (by decide) (by decide)

/-- C9 counterexample: the PLAIN encoding of the INT32 sequence
`[42, 18, 52]` is not the claimed byte sequence starting with `0x42`:
the first little-endian byte of the value 42 is `0x2A`, not `0x42`. -/
theorem c9_plain_int32_bytes_not_claimed :
    plainEncodeInt32 [42, 18, 52] ≠
      [0x42, 0x00, 0x00, 0x00, 0x12, 0x00, 0x00, 0x00, 0x34, 0x00, 0x00, 0x00] := by
  decide

/-- C9 (amended): PLAIN encoding of the INT32 sequence `[42, 18, 52]`
produces exactly the twelve bytes `2A 00 00 00 12 00 00 00 34 00 00 00`,
and PLAIN-decoding those bytes yields `[42, 18, 52]` (draining the
decoder: 3 values out, `values_left = 0`). -/
theorem c9_plain_int32_roundtrip :
    plainEncodeInt32 [42, 18, 52] =
        [0x2A, 0x00, 0x00, 0x00, 0x12, 0x00, 0x00, 0x00, 0x34, 0x00, 0x00, 0x00] ∧
      plainDecoderGetInt32
          (plainDecoderSetData
            [0x2A, 0x00, 0x00, 0x00, 0x12, 0x00, 0x00, 0x00, 0x34, 0x00, 0x00, 0x00] 3) 3 =
        (.ok [42, 18, 52],
         { numValues := 0, start := 12,
           data := [0x2A, 0x00, 0x00, 0x00, 0x12, 0x00, 0x00, 0x00, 0x34, 0x00, 0x00, 0x00] }) := by
  exact ⟨by decide, rfl⟩

/-- C10: for the fixed-width PLAIN INT32 decoder (default `get` impl), if
fewer data bytes remain than `4 * min(out.len, values_left)`, `get`
returns the `eof_err!` EndOfInput error and the decoder state
(`values_left` and read position `start`) is unchanged, so a later call
behaves as if the failing call never happened. (`start ≤ data.len()` holds
in every reachable state; it makes the Nat subtraction match Rust's.) -/
theorem c10_plain_get_eof_state_unchanged (st : PlainDecState) (bufLen : Nat)
    (_hstart : st.start ≤ st.data.length)
    (hshort : st.data.length - st.start < 4 * min bufLen st.numValues) :
    plainDecoderGetInt32 st bufLen = (.error (.eof "Not enough bytes to decode"), st) := by
  simp [plainDecoderGetInt32, hshort]

/-- C10 witness: decoder holding 3 data bytes but promising 2 values. -/
theorem c10_plain_get_eof_state_unchanged_witness :
    plainDecoderGetInt32 { numValues := 2, start := 0, data := [1, 2, 3] } 2 =
      (.error (.eof "Not enough bytes to decode"),
       { numValues := 2, start := 0, data := [1, 2, 3] }) :=
  c10_plain_get_eof_state_unchanged
    { numValues := 2, start := 0, data := [1, 2, 3] } 2 (by decide) (by decide)

/-- C8: the claim fails on `DictDecoder::get`, which never decreases
`values_left`.  First conjunct: for every dictionary-decoder state and
output-buffer length, `num_values` after `get` equals `num_values` before
(the source returns `rle.get_batch_with_dict(..)` directly without
updating `self.num_values`).  Second conjunct evaluates the failing input:
a decoder with 2 values left and a 1-slot output buffer returns 1 value
but still reports `values_left = 2` (the claim requires 1), so a drain
loop `while values_left > 0` never terminates.  (For the PLAIN decoder the
claimed contract does hold — see the C10 theorem's success branch — which
is why this is recorded as a bug of `DictDecoder` rather than a spec
error.) -/
theorem c8_dict_get_values_left_unchanged :
    (∀ (st : DictDecState Int) (bufLen : Nat),
        (dictDecoderGet st bufLen).2.numValues = st.numValues) ∧
      dictDecoderGet
          { dictionary := ([10, 20] : List Int), hasDictionary := true,
            rleIndices := [0, 1], numValues := 2 } 1 =
        ([10],
         { dictionary := ([10, 20] : List Int), hasDictionary := true,
           rleIndices := [1], numValues := 2 }) := by
  constructor
  · intro st bufLen; rfl
  · rfl

/-- C3 counterexample: with a decompressor installed and a DataPageV2
header whose `is_compressed` flag is `false`, `get_next_page` still runs
the decompressor (the returned flag is `true`): the source's condition at
`reader.rs:276` tests only `self.decompressor`, never the page's
compressed marking, contradicting the claim's "only when a decompressor
is installed AND the page is marked compressed". -/
theorem c3_decompresses_uncompressed_v2 :
    processPage (some idDecompressor) hdrV2NotCompressed [1, 2, 3] =
      .ok ((some (.DataPageV2 [1, 2, 3] 8 0 8 .PLAIN 0 0 false), 8), true) := rfl

/-- C3 (amended): the page payload is decompressed exactly when a
decompressor is installed (the page's compressed marking, including a
DataPageV2 `is_compressed = false` flag, is not consulted); whenever
decompression is performed and the decompressed length differs from the
header's `uncompressed_page_size`, the call returns the size-mismatch
error. -/
theorem c3_decompression_gating (d : Option Decompressor) (hdr : PageHeaderM)
    (payload : List Nat) :
    (∀ pg did, processPage d hdr payload = .ok (pg, did) → did = d.isSome) ∧
      (∀ f out, d = some f → f payload = .ok out →
        out.length ≠ hdr.uncompressedPageSize →
        processPage d hdr payload =
          .error (.general "Actual decompressed size doesn't match the expected one")) := by
  constructor
  · intro pg did h
    cases d with
    | none =>
        cases hv : hdr.variant <;>
          simp_all [processPage, dispatchPage, Option.isSome]
    | some f =>
        simp only [processPage] at h
        cases hf : f payload with
        | error e => simp [hf] at h
        | ok out =>
            simp only [hf] at h
            split at h
            · simp at h
            · cases hv : hdr.variant <;>
                simp_all [dispatchPage, Option.isSome]
  · intro f out hd hf hlen
    subst hd
    simp [processPage, hf, hlen]

/-- C3 amended, witness: the identity decompressor on a 3-byte payload
with matching declared size decompresses (flag `true`); a decompressor
returning one byte against declared size 3 yields the size-mismatch
error. -/
theorem c3_decompression_gating_witness :
    (∀ pg did,
        processPage (some idDecompressor) hdrV2NotCompressed [1, 2, 3] = .ok (pg, did) →
          did = (some idDecompressor).isSome) ∧
      processPage (some oneByteDecompressor) hdrV2NotCompressed [1, 2, 3] =
        .error (.general "Actual decompressed size doesn't match the expected one") := by
  refine ⟨(c3_decompression_gating (some idDecompressor) hdrV2NotCompressed [1, 2, 3]).1, ?_⟩
  exact (c3_decompression_gating (some oneByteDecompressor) hdrV2NotCompressed [1, 2, 3]).2
    oneByteDecompressor [0] rfl rfl (by decide)

end ParquetCore
